import Mathlib

/-!
# ProgrammeFeedParser (tvkaistagui): a shallow embedding and its properties

The embedding follows `src/programmefeedparser.cpp`.  The Qt classes the parser
calls (`QString`, `QRegExp`, `QDate`, `QTime`, `QDateTime`, `QXmlStreamReader`)
are modelled from their documented behaviour; every such definition says so.
The Unicode tables of Qt are a parameter (`QCharTables`): the properties hold
for any tables, and the runs on concrete inputs at the end use sample tables.
-/

set_option autoImplicit false
set_option linter.unusedSectionVars false

/-! ## QString -/

/-- A `QString` is modelled as its sequence of characters. -/
abbrev QString := List Char

/-- Largest value of a C++ `int` (32 bit). -/
def INT_MAX : Int := 2147483647

/-- Smallest value of a C++ `int` (32 bit). -/
def INT_MIN : Int := -2147483648

/-- `QChar::isSpace`: the control characters 9 to 13 and the Unicode separators. -/
def qIsSpace (c : Char) : Bool :=
  let n := c.toNat
  (9 ≤ n && n ≤ 13) || n == 32 || n == 0x85 || n == 0xA0 || n == 0x1680
    || (0x2000 ≤ n && n ≤ 0x200A) || n == 0x2028 || n == 0x2029 || n == 0x202F
    || n == 0x205F || n == 0x3000

/-- Value of a string of decimal digits, most significant digit first. -/
def digitsValue (ds : QString) : Nat :=
  ds.foldl (fun acc c => acc * 10 + (c.toNat - '0'.toNat)) 0

/-- The sign and the digit part of a number text: what `qstrtoll` reads after
the leading white space. -/
def splitSign : QString → Bool × QString
  | '-' :: rest => (true, rest)
  | '+' :: rest => (false, rest)
  | rest => (false, rest)

/-- `QString::toInt(&ok)` in base 10 (C locale): white space around the number
is ignored, one sign is allowed, at least one digit is required and nothing else
may occur; a value outside the range of `int` is a failure.  `none` stands for
`ok == false`. -/
def QString.toInt (s : QString) : Option Int :=
  let body := ((s.dropWhile qIsSpace).reverse.dropWhile qIsSpace).reverse
  let (negative, ds) := splitSign body
  if ds ≠ [] ∧ ds.all Char.isDigit then
    let v : Int := if negative then -(digitsValue ds : Int) else (digitsValue ds : Int)
    if INT_MIN ≤ v ∧ v ≤ INT_MAX then some v else none
  else none

/-- `QString::toInt()` without the `ok` argument: 0 when the conversion fails. -/
def QString.toIntD (s : QString) : Int := (QString.toInt s).getD 0

/-- `QString::lastIndexOf(QChar)`: index of the last occurrence, -1 if none. -/
def QString.lastIndexOf : QString → Char → Int
  | [], _ => -1
  | x :: xs, c =>
    let r := QString.lastIndexOf xs c
    if 0 ≤ r then r + 1 else if x = c then 0 else -1

/-- First occurrence of a character counted from the head, -1 if none. -/
def QString.indexOfChar0 : QString → Char → Int
  | [], _ => -1
  | x :: xs, c =>
    if x = c then 0
    else
      let r := QString.indexOfChar0 xs c
      if 0 ≤ r then r + 1 else -1

/-- `QString::indexOf(QChar, from)`: a negative `from` counts from the end, and
the search starts at `from`. -/
def QString.indexOfChar (s : QString) (c : Char) (frm : Int) : Int :=
  let frm := if frm < 0 then max (frm + s.length) 0 else frm
  if frm < s.length then
    let r := QString.indexOfChar0 (s.drop frm.toNat) c
    if 0 ≤ r then r + frm else -1
  else -1

/-- `QString::indexOf(QString)` from position 0: the first position at which
the needle occurs, -1 if none. -/
def QString.indexOf : QString → QString → Int
  | [], needle => if needle.isPrefixOf [] then 0 else -1
  | x :: xs, needle =>
    if needle.isPrefixOf (x :: xs) then 0
    else
      let r := QString.indexOf xs needle
      if 0 ≤ r then r + 1 else -1

/-- `QString::mid(position, n)`; `n = -1` means "to the end". -/
def QString.mid (s : QString) (position : Int) (n : Int) : QString :=
  if position ≥ s.length then []
  else
    let n := if n < 0 then (s.length : Int) - position else n
    let n := if position < 0 then n + position else n
    let position := if position < 0 then 0 else position
    let n := if n + position > s.length then (s.length : Int) - position else n
    (s.drop position.toNat).take n.toNat

/-! ## QChar

`QRegExp` classifies characters with the Unicode tables of Qt.  The tables
belong to the version of Qt in use, not to the program, so they are a parameter
of the model: everything below that depends on them holds for any tables with
the properties listed in `QCharTables`. -/

/-- The character classes of Qt that the patterns of the parser consult, with
what the tables of every version have in common: the classes of the ASCII
characters, and that a character beyond U+FFFF, which a `QString` holds as two
surrogates, is in none of the classes. -/
class QCharTables where
  /-- The class `QChar::isDigit`: a decimal digit (category Nd). -/
  isDigit : Char → Bool
  /-- The class `QChar::isLetterOrNumber`: a letter or a number (categories L and N). -/
  isLetterOrNumber : Char → Bool
  /-- The class `QChar::isMark`: a mark (category M). -/
  isMark : Char → Bool
  /-- Among the ASCII characters the decimal digits are 0 to 9. -/
  isDigit_ascii : ∀ c : Char, c.toNat < 128 → isDigit c = c.isDigit
  /-- Among the ASCII characters the letters and numbers are a-z, A-Z and 0-9. -/
  isLetterOrNumber_ascii : ∀ c : Char, c.toNat < 128 → isLetterOrNumber c = c.isAlphanum
  /-- No ASCII character is a mark. -/
  isMark_ascii : ∀ c : Char, c.toNat < 128 → isMark c = false
  /-- A character beyond U+FFFF is in none of the classes. -/
  beyond_bmp : ∀ c : Char, 0xFFFF < c.toNat →
    isDigit c = false ∧ isLetterOrNumber c = false ∧ isMark c = false

/-- Sample tables for runs on concrete strings: the ASCII classes and, as
digits outside ASCII, the Arabic-Indic digits U+0660 to U+0669. -/
def QCharTables.sample : QCharTables where
  isDigit c := c.isDigit || (decide (0x660 ≤ c.toNat) && decide (c.toNat ≤ 0x669))
  isLetterOrNumber c := c.isAlphanum || (decide (0x660 ≤ c.toNat) && decide (c.toNat ≤ 0x669))
  isMark _ := false
  isDigit_ascii := by
    intro c hc
    have h : ¬ (0x660 ≤ c.toNat) := by omega
    simp [h]
  isLetterOrNumber_ascii := by
    intro c hc
    have h : ¬ (0x660 ≤ c.toNat) := by omega
    simp [h]
  isMark_ascii := by
    intro c _
    rfl
  beyond_bmp := by
    intro c hc
    have h1 : ¬ (c.toNat ≤ 0x669) := by omega
    have h2 : c.isDigit = false := by
      cases h : c.isDigit with
      | false => rfl
      | true =>
        simp only [Char.isDigit, Bool.and_eq_true, decide_eq_true_eq, ge_iff_le, UInt32.le_def,
          BitVec.le_def] at h
        have h3 : c.toNat ≤ 57 := h.2
        omega
    have h3 : c.isAlphanum = false := by
      cases h : c.isAlphanum with
      | false => rfl
      | true =>
        simp only [Char.isAlphanum, Char.isAlpha, Char.isUpper, Char.isLower, Char.isDigit,
          Bool.or_eq_true, Bool.and_eq_true, decide_eq_true_eq, ge_iff_le, UInt32.le_def,
          BitVec.le_def] at h
        have h4 : c.toNat ≤ 122 := by
          rcases h with (⟨_, h⟩ | ⟨_, h⟩) | ⟨_, h⟩
          · exact le_trans h (by decide)
          · exact h
          · exact le_trans h (by decide)
        omega
    simp [h1, h2, h3]

section

variable [QCharTables]

/-! ## QRegExp

Both patterns of the parser are sequences of literal characters and capturing
groups that repeat one character class; the model covers that fragment. -/

/-- The class `\d` of `QRegExp`: the characters of `QChar::isDigit`. -/
def rxDigit (c : Char) : Bool := QCharTables.isDigit c

/-- The class `\w` of `QRegExp`: the characters of `QChar::isLetterOrNumber` and
`QChar::isMark`, and the underscore. -/
def rxWord (c : Char) : Bool :=
  QCharTables.isLetterOrNumber c || QCharTables.isMark c || c == '_'

/-- One item of a pattern: a literal character, or a capturing group `(cls{lo,hi})`
(`hi = none` for an unbounded repetition such as `+`). -/
inductive RxItem where
  | lit (c : Char)
  | cap (cls : Char → Bool) (lo : Nat) (hi : Option Nat)

/-- Tries the counts `k, k-1, ..., lo` in this order (greedy repetition with
backtracking) and returns the first success. -/
def firstDown {α : Type} (f : Nat → Option α) (lo : Nat) : Nat → Option α
  | 0 => if lo = 0 then f 0 else none
  | k + 1 =>
    if k + 1 < lo then none
    else
      match f (k + 1) with
      | some r => some r
      | none => firstDown f lo k

/-- Matches the items at the head of `s`; on success the texts of the groups. -/
def rxMatchHere : List RxItem → QString → Option (List QString)
  | [], _ => some []
  | RxItem.lit c :: rest, s =>
    match s with
    | [] => none
    | x :: xs => if x = c then rxMatchHere rest xs else none
  | RxItem.cap cls lo hi :: rest, s =>
    let avail := (s.takeWhile cls).length
    let top := match hi with
      | some h => min h avail
      | none => avail
    firstDown (fun k => (rxMatchHere rest (s.drop k)).map (fun caps => s.take k :: caps)) lo top

/-- Leftmost match: the first position at which the items match, with the groups. -/
def rxSearch (items : List RxItem) : QString → Option (Nat × List QString)
  | [] => (rxMatchHere items []).map (fun caps => (0, caps))
  | x :: xs =>
    match rxMatchHere items (x :: xs) with
    | some caps => some (0, caps)
    | none => (rxSearch items xs).map (fun r => (r.1 + 1, r.2))

/-- A `QRegExp`: whether the pattern starts with `^`, and its items. -/
structure QRegExp where
  caret : Bool
  items : List RxItem

/-- The state a successful `QRegExp::indexIn` leaves: position and captured texts. -/
structure RxMatch where
  pos : Nat
  caps : List QString
deriving DecidableEq, Repr

/-- `QRegExp::indexIn(str)`: `none` stands for the result -1. -/
def QRegExp.indexIn (re : QRegExp) (s : QString) : Option RxMatch :=
  if re.caret then (rxMatchHere re.items s).map (fun caps => ⟨0, caps⟩)
  else (rxSearch re.items s).map (fun r => ⟨r.1, r.2⟩)

/-- `QRegExp::cap(n)` for `n ≥ 1`: the text of the n-th group. -/
def RxMatch.cap (m : RxMatch) (n : Nat) : QString := m.caps.getD (n - 1) []

/-! ## QDate, QTime, QDateTime -/

/-- A `QDate`: the null, invalid date; a date of the Gregorian calendar, given
by its year, month and day (Qt stores the equivalent day number); or a date
built from a year outside the years the model covers (`QDate.commonYear`), of
which the model says nothing. -/
inductive QDate where
  | null
  | valid (year month day : Int)
  | unmodelled
deriving DecidableEq, Repr

/-- The years the model of `QDate` covers, in which the versions of Qt agree:
from 1583, the first whole year of the Gregorian calendar (for earlier dates
Qt 4 counts in the Julian calendar and later versions in the proleptic
Gregorian one), to 9999 (the day number and the count of milliseconds of a
`QDateTime` have a fixed width, which such years do not come near). -/
def QDate.commonYear (y : Int) : Bool := decide (1583 ≤ y) && decide (y ≤ 9999)

/-- `QDate::isLeapYear` (Gregorian calendar). -/
def QDate.isLeapYear (y : Int) : Bool :=
  let y := if y < 1 then y + 1 else y
  (y % 4 == 0 && y % 100 != 0) || y % 400 == 0

/-- The table `monthDays` of qdatetime.cpp. -/
def QDate.monthDays (m : Int) : Int :=
  if m = 2 then 28 else if m = 4 ∨ m = 6 ∨ m = 9 ∨ m = 11 then 30 else 31

/-- `QDate::isValid(year, month, day)`. -/
def QDate.isValidYMD (year month day : Int) : Bool :=
  if year = 0 then false
  else (decide (day > 0) && decide (month > 0) && decide (month ≤ 12))
    && (decide (day ≤ QDate.monthDays month)
        || (decide (day = 29) && decide (month = 2) && QDate.isLeapYear year))

/-- The constructor `QDate(y, m, d)`: in the years the model covers the date is
set when it is valid and null when it is not; there is no year 0, so that year
gives the null date; any other year is outside the model. -/
def QDate.ofYMD (y m d : Int) : QDate :=
  if QDate.commonYear y then
    if QDate.isValidYMD y m d then QDate.valid y m d else QDate.null
  else if y = 0 then QDate.null
  else QDate.unmodelled

/-- A `QTime`: milliseconds since midnight, -1 for the null time. -/
structure QTime where
  mds : Int
deriving DecidableEq, Repr

/-- The default constructor `QTime()`. -/
def QTime.null : QTime := ⟨-1⟩

/-- `QTime::isNull`. -/
def QTime.isNull (t : QTime) : Bool := t.mds == -1

/-- `QTime::isValid(h, m, s)`. -/
def QTime.isValidHMS (h m s : Int) : Bool :=
  decide (0 ≤ h) && decide (h < 24) && decide (0 ≤ m) && decide (m < 60)
    && decide (0 ≤ s) && decide (s < 60)

/-- The constructor `QTime(h, m, s)`: invalid fields give the null time. -/
def QTime.ofHMS (h m s : Int) : QTime :=
  if QTime.isValidHMS h m s then ⟨(h * 3600 + m * 60 + s) * 1000⟩ else QTime.null

/-- `QTime::isValid`: a time of day between midnight and the end of the day. -/
def QTime.isValid (t : QTime) : Bool := decide (-1 < t.mds) && decide (t.mds < 86400000)

/-- `QTime::hour`. -/
def QTime.hour (t : QTime) : Int := t.mds / 3600000

/-- `QTime::minute`. -/
def QTime.minute (t : QTime) : Int := (t.mds % 3600000) / 60000

/-- `QTime::second`. -/
def QTime.second (t : QTime) : Int := (t.mds / 1000) % 60

/-- `Qt::TimeSpec`. -/
inductive TimeSpec where
  | LocalTime
  | UTC
deriving DecidableEq, Repr

/-- A `QDateTime`, modelled by the UTC date and time of day of the instant it
denotes, and the time spec it is presented in (the offset of the local zone
belongs to the host and is not modelled).  When the date is `QDate.unmodelled`
the value as a whole is outside the model. -/
structure QDateTime where
  date : QDate
  time : QTime
  spec : TimeSpec
deriving DecidableEq, Repr

/-- The default constructor `QDateTime()`: the null date-time. -/
def QDateTime.null : QDateTime := ⟨QDate.null, QTime.null, TimeSpec.LocalTime⟩

/-- The constructor `QDateTime(date, time, spec)`: when the date is valid and
the time is not, the time is set to midnight. -/
def QDateTime.ofDateTime (date : QDate) (time : QTime) (spec : TimeSpec) : QDateTime :=
  match date with
  | QDate.valid _ _ _ => ⟨date, if time.isValid then time else QTime.ofHMS 0 0 0, spec⟩
  | _ => ⟨date, time, spec⟩

/-- `QDateTime::toLocalTime`: the same instant presented in local time. -/
def QDateTime.toLocalTime (dt : QDateTime) : QDateTime := { dt with spec := TimeSpec.LocalTime }

/-! ## QXmlStreamReader

The tokenizer itself is outside the program.  A device is modelled by the
sequence of tokens `readNext` reports for it; when the sequence is used up
`readNext` reports `Invalid` (for a well-formed document that is after
`EndDocument`, for a malformed one it is the point of the error). -/

/-- `QXmlStreamAttributes`: qualified attribute names with their values. -/
abbrev QXmlStreamAttributes := List (QString × QString)

/-- `QXmlStreamAttributes::value(qualifiedName)`: the value of the first
attribute of that name, the empty string if there is none. -/
def QXmlStreamAttributes.value (attrs : QXmlStreamAttributes) (qualifiedName : QString) : QString :=
  match attrs.find? (fun a => a.1 = qualifiedName) with
  | some a => a.2
  | none => []

/-- The tokens `QXmlStreamReader::readNext` reports, with what the parser can
observe of them: prefix, local name and attributes of a start tag, and the text
of character data and entity references. -/
inductive Token where
  | startDocument
  | endDocument
  | startElement (pfx name : QString) (attrs : QXmlStreamAttributes)
  | endElement
  | characters (text : QString)
  | comment
  | dtd
  | entityReference (text : QString)
  | processingInstruction
deriving DecidableEq, Repr

/-- The reader: the tokens not yet read and the current token (`none` for
`NoToken` and for `Invalid`).  After an error nothing is left to read. -/
structure QXmlStreamReader where
  pending : List Token
  current : Option Token
deriving DecidableEq, Repr

/-- The reader after `setDevice(device)`. -/
def QXmlStreamReader.setDevice (device : List Token) : QXmlStreamReader := ⟨device, none⟩

/-- The reader after `raiseError`: the token type is `Invalid` for good. -/
def QXmlStreamReader.invalid : QXmlStreamReader := ⟨[], none⟩

/-- `QXmlStreamReader::name`: the local name of the current start tag. -/
def QXmlStreamReader.name (r : QXmlStreamReader) : QString :=
  match r.current with
  | some (Token.startElement _ name _) => name
  | _ => []

/-- `QXmlStreamReader::qualifiedName`: `prefix:name`, or the name alone when the
tag has no prefix. -/
def QXmlStreamReader.qualifiedName (r : QXmlStreamReader) : QString :=
  match r.current with
  | some (Token.startElement pfx name _) => if pfx = [] then name else pfx ++ ':' :: name
  | _ => []

/-- `QXmlStreamReader::attributes`. -/
def QXmlStreamReader.attributes (r : QXmlStreamReader) : QXmlStreamAttributes :=
  match r.current with
  | some (Token.startElement _ _ attrs) => attrs
  | _ => []

/-- The loop of `QXmlStreamReader::readNextStartElement` over the tokens left:
`while (readNext() != Invalid) { if (isEndElement()) return false;
else if (isStartElement()) return true; } return false;`. -/
def readNextStartElementFrom : List Token → Bool × QXmlStreamReader
  | [] => (false, QXmlStreamReader.invalid)
  | Token.endElement :: rest => (false, ⟨rest, some Token.endElement⟩)
  | Token.startElement pfx name attrs :: rest =>
    (true, ⟨rest, some (Token.startElement pfx name attrs)⟩)
  | _ :: rest => readNextStartElementFrom rest

/-- `QXmlStreamReader::readNextStartElement`. -/
def QXmlStreamReader.readNextStartElement (r : QXmlStreamReader) : Bool × QXmlStreamReader :=
  readNextStartElementFrom r.pending

/-- The loop of `QXmlStreamReader::skipCurrentElement`:
`while (depth && readNext() != Invalid) { if (isEndElement()) --depth;
else if (isStartElement()) ++depth; }`. -/
def skipFrom : Nat → Option Token → List Token → QXmlStreamReader
  | 0, current, rest => ⟨rest, current⟩
  | _ + 1, _, [] => QXmlStreamReader.invalid
  | depth + 1, _, Token.endElement :: rest => skipFrom depth (some Token.endElement) rest
  | depth + 1, _, Token.startElement pfx name attrs :: rest =>
    skipFrom (depth + 2) (some (Token.startElement pfx name attrs)) rest
  | depth + 1, _, t :: rest => skipFrom (depth + 1) (some t) rest

/-- `QXmlStreamReader::skipCurrentElement` (`int depth = 1`). -/
def QXmlStreamReader.skipCurrentElement (r : QXmlStreamReader) : QXmlStreamReader :=
  skipFrom 1 r.current r.pending

/-- The loop of `QXmlStreamReader::readElementText` with the default behaviour
`ErrorOnUnexpectedElement`: character data and entity references are appended,
comments and processing instructions are passed over, the end tag returns the
text, and anything else (a child element in particular) raises an error and
returns what was read so far. -/
def readElementTextFrom : QString → List Token → QString × QXmlStreamReader
  | result, [] => (result, QXmlStreamReader.invalid)
  | result, Token.characters text :: rest => readElementTextFrom (result ++ text) rest
  | result, Token.entityReference text :: rest => readElementTextFrom (result ++ text) rest
  | result, Token.endElement :: rest => (result, ⟨rest, some Token.endElement⟩)
  | result, Token.processingInstruction :: rest => readElementTextFrom result rest
  | result, Token.comment :: rest => readElementTextFrom result rest
  | result, _ :: _ => (result, QXmlStreamReader.invalid)

/-- `QXmlStreamReader::readElementText()`; outside a start tag it returns the
empty string and reads nothing. -/
def QXmlStreamReader.readElementText (r : QXmlStreamReader) : QString × QXmlStreamReader :=
  match r.current with
  | some (Token.startElement _ _ _) => readElementTextFrom [] r.pending
  | _ => ([], r)

/-! ## Programme, Thumbnail and the parser object -/

/-- Modelled from the spec: the record `Programme` (its header is not part of
the sources); the values of a default-constructed record are a parameter of the
parser functions. -/
structure Programme where
  title : QString
  description : QString
  id : Int
  channelId : Int
  startDateTime : QDateTime
  duration : Int
deriving DecidableEq, Repr

/-- Modelled from the spec: the record `Thumbnail` (its header is not part of
the sources), built by `Thumbnail(url, time)`; the `QUrl` is kept as the text
it was built from. -/
structure Thumbnail where
  url : QString
  time : QTime
deriving DecidableEq, Repr

/-- The members of a `ProgrammeFeedParser` object (the two regular expressions
are constants, see `m_dateTimeRegexp` and `m_timeRegexp`). -/
structure ProgrammeFeedParser where
  m_reader : QXmlStreamReader
  m_error : QString
  m_programmes : List Programme
  m_thumbnails : List Thumbnail
deriving DecidableEq, Repr

namespace ProgrammeFeedParser

/-- The member `m_dateTimeRegexp`:
`(\d{1,2}) (\w{3}) (\d+) (\d{2}):(\d{2}):(\d{2})`. -/
def m_dateTimeRegexp : QRegExp :=
  ⟨false,
   [RxItem.cap rxDigit 1 (some 2), RxItem.lit ' ', RxItem.cap rxWord 3 (some 3), RxItem.lit ' ',
    RxItem.cap rxDigit 1 none, RxItem.lit ' ', RxItem.cap rxDigit 2 (some 2), RxItem.lit ':',
    RxItem.cap rxDigit 2 (some 2), RxItem.lit ':', RxItem.cap rxDigit 2 (some 2)]⟩

/-- The member `m_timeRegexp`: `^(\d{1,2}):(\d{1,2}):(\d{1,2})`. -/
def m_timeRegexp : QRegExp :=
  ⟨true,
   [RxItem.cap rxDigit 1 (some 2), RxItem.lit ':', RxItem.cap rxDigit 1 (some 2), RxItem.lit ':',
    RxItem.cap rxDigit 1 (some 2)]⟩

/-- The chain of comparisons on `monthName` in `parseDateTime`; `none` is the
final `else return QDateTime()`. -/
def monthNumber (monthName : QString) : Option Int :=
  if monthName = "Jan".toList then some 1
  else if monthName = "Feb".toList then some 2
  else if monthName = "Mar".toList then some 3
  else if monthName = "Apr".toList then some 4
  else if monthName = "May".toList then some 5
  else if monthName = "Jun".toList then some 6
  else if monthName = "Jul".toList then some 7
  else if monthName = "Aug".toList then some 8
  else if monthName = "Sep".toList then some 9
  else if monthName = "Oct".toList then some 10
  else if monthName = "Nov".toList then some 11
  else if monthName = "Dec".toList then some 12
  else none

/-- `ProgrammeFeedParser::parseDateTime`. -/
def parseDateTime (s : QString) : QDateTime :=
  match m_dateTimeRegexp.indexIn s with
  | some m =>
    match monthNumber (m.cap 2) with
    | none => QDateTime.null
    | some month =>
      let day := QString.toIntD (m.cap 1)
      let year := QString.toIntD (m.cap 3)
      let hour := QString.toIntD (m.cap 4)
      let min := QString.toIntD (m.cap 5)
      let sec := QString.toIntD (m.cap 6)
      QDateTime.toLocalTime
        (QDateTime.ofDateTime (QDate.ofYMD year month day) (QTime.ofHMS hour min sec)
          TimeSpec.UTC)
  | none => QDateTime.null

/-- `ProgrammeFeedParser::parseTime`. -/
def parseTime (s : QString) : QTime :=
  match m_timeRegexp.indexIn s with
  | some m =>
    let hour := QString.toIntD (m.cap 1)
    let min := QString.toIntD (m.cap 2)
    let sec := QString.toIntD (m.cap 3)
    QTime.ofHMS hour min sec
  | none => QTime.null

/-- `ProgrammeFeedParser::parseProgrammeId`. -/
def parseProgrammeId (s : QString) : Int :=
  let pos := QString.lastIndexOf s '='
  let pos := if pos < 0 then QString.lastIndexOf s '/' else pos
  match QString.toInt (QString.mid s (pos + 1) (-1)) with
  | none => -1
  | some programmeId => programmeId

/-- `ProgrammeFeedParser::parseChannelId`. -/
def parseChannelId (s : QString) : Int :=
  let pos := QString.indexOf s "channels/".toList
  if pos < 0 then -1
  else
    let pos := pos + 9
    let pos2 := QString.indexOfChar s '/' pos
    if pos2 < 0 then -1
    else
      match QString.toInt (QString.mid s pos (pos2 - pos)) with
      | none => -1
      | some channelId => channelId

/-- The object after the constructor: nothing read, empty lists, empty error. -/
def new : ProgrammeFeedParser := ⟨QXmlStreamReader.setDevice [], [], [], []⟩

/-- `ProgrammeFeedParser::lastError`. -/
def lastError (self : ProgrammeFeedParser) : QString := self.m_error

/-- `ProgrammeFeedParser::programmes`. -/
def programmes (self : ProgrammeFeedParser) : List Programme := self.m_programmes

/-- `ProgrammeFeedParser::thumbnails`. -/
def thumbnails (self : ProgrammeFeedParser) : List Thumbnail := self.m_thumbnails

/-- The body of the `while` loop of `parseMediaGroupElement`, entered with the
reader on the start tag of a child: the two `if` branches, each followed by the
`m_reader.skipCurrentElement()` that ends the body. -/
def mediaGroupChild (self : ProgrammeFeedParser) (programme : Programme) :
    ProgrammeFeedParser × Programme :=
  if self.m_reader.qualifiedName = "media:content".toList then
    match QString.toInt (self.m_reader.attributes.value "duration".toList) with
    | some duration =>
      ({ self with m_reader := self.m_reader.skipCurrentElement },
       { programme with duration := duration })
    | none => ({ self with m_reader := self.m_reader.skipCurrentElement }, programme)
  else if self.m_reader.qualifiedName = "media:thumbnail".toList then
    if !(parseTime (self.m_reader.attributes.value "time".toList)).isNull then
      ({ self with
         m_reader := self.m_reader.skipCurrentElement,
         m_thumbnails := self.m_thumbnails ++
           [⟨self.m_reader.attributes.value "url".toList,
             parseTime (self.m_reader.attributes.value "time".toList)⟩] }, programme)
    else ({ self with m_reader := self.m_reader.skipCurrentElement }, programme)
  else ({ self with m_reader := self.m_reader.skipCurrentElement }, programme)

/-- `ProgrammeFeedParser::parseMediaGroupElement`; each turn of the `while`
loop uses one unit of fuel, `none` means the fuel ran out. -/
def parseMediaGroupElement :
    Nat → ProgrammeFeedParser → Programme → Option (ProgrammeFeedParser × Programme)
  | 0, _, _ => none
  | fuel + 1, self, programme =>
    match self.m_reader.readNextStartElement with
    | (false, reader) => some ({ self with m_reader := reader }, programme)
    | (true, reader) =>
      match mediaGroupChild { self with m_reader := reader } programme with
      | (self, programme) => parseMediaGroupElement fuel self programme

/-- The body of the `while` loop of `parseItemElement`, entered with the reader
on the start tag of a child; `fuel` is what the media-group walker may use. -/
def itemChild (fuel : Nat) (self : ProgrammeFeedParser) (programme : Programme) :
    Option (ProgrammeFeedParser × Programme) :=
  if self.m_reader.name = "title".toList then
    match self.m_reader.readElementText with
    | (text, reader) => some ({ self with m_reader := reader }, { programme with title := text })
  else if self.m_reader.name = "description".toList then
    match self.m_reader.readElementText with
    | (text, reader) =>
      some ({ self with m_reader := reader }, { programme with description := text })
  else if self.m_reader.qualifiedName = "link".toList then
    match self.m_reader.readElementText with
    | (text, reader) =>
      some ({ self with m_reader := reader }, { programme with id := parseProgrammeId text })
  else if self.m_reader.name = "source".toList then
    some ({ self with m_reader := self.m_reader.skipCurrentElement },
          { programme with
            channelId := parseChannelId (self.m_reader.attributes.value "url".toList) })
  else if self.m_reader.name = "pubDate".toList then
    match self.m_reader.readElementText with
    | (text, reader) =>
      some ({ self with m_reader := reader },
            { programme with startDateTime := parseDateTime text })
  else if self.m_reader.qualifiedName = "media:group".toList then
    parseMediaGroupElement fuel self programme
  else
    some ({ self with m_reader := self.m_reader.skipCurrentElement }, programme)

/-- The `while` loop of `ProgrammeFeedParser::parseItemElement`, on the record
under construction. -/
def parseItemLoop :
    Nat → ProgrammeFeedParser → Programme → Option (ProgrammeFeedParser × Programme)
  | 0, _, _ => none
  | fuel + 1, self, programme =>
    match self.m_reader.readNextStartElement with
    | (false, reader) => some ({ self with m_reader := reader }, programme)
    | (true, reader) =>
      match itemChild fuel { self with m_reader := reader } programme with
      | none => none
      | some (self, programme) => parseItemLoop fuel self programme

/-- `ProgrammeFeedParser::parseItemElement`; `newProgramme` is the value of the
default-constructed `Programme programme;`. -/
def parseItemElement (newProgramme : Programme) (fuel : Nat) (self : ProgrammeFeedParser) :
    Option ProgrammeFeedParser :=
  match parseItemLoop fuel self newProgramme with
  | none => none
  | some (self, programme) =>
    some { self with m_programmes := self.m_programmes ++ [programme] }

/-- The body of the `while` loop of `parseChannelElement`. -/
def channelChild (newProgramme : Programme) (fuel : Nat) (self : ProgrammeFeedParser) :
    Option ProgrammeFeedParser :=
  if self.m_reader.name = "item".toList then parseItemElement newProgramme fuel self
  else some { self with m_reader := self.m_reader.skipCurrentElement }

/-- `ProgrammeFeedParser::parseChannelElement`. -/
def parseChannelElement (newProgramme : Programme) :
    Nat → ProgrammeFeedParser → Option ProgrammeFeedParser
  | 0, _ => none
  | fuel + 1, self =>
    match self.m_reader.readNextStartElement with
    | (false, reader) => some { self with m_reader := reader }
    | (true, reader) =>
      match channelChild newProgramme fuel { self with m_reader := reader } with
      | none => none
      | some self => parseChannelElement newProgramme fuel self

/-- The body of the `while` loop of `parse`. -/
def rootChild (newProgramme : Programme) (fuel : Nat) (self : ProgrammeFeedParser) :
    Option ProgrammeFeedParser :=
  if self.m_reader.name = "channel".toList then parseChannelElement newProgramme fuel self
  else some { self with m_reader := self.m_reader.skipCurrentElement }

/-- The `while` loop of `ProgrammeFeedParser::parse` over the children of the root. -/
def parseLoop (newProgramme : Programme) :
    Nat → ProgrammeFeedParser → Option ProgrammeFeedParser
  | 0, _ => none
  | fuel + 1, self =>
    match self.m_reader.readNextStartElement with
    | (false, reader) => some { self with m_reader := reader }
    | (true, reader) =>
      match rootChild newProgramme fuel { self with m_reader := reader } with
      | none => none
      | some self => parseLoop newProgramme fuel self

/-- `ProgrammeFeedParser::parse` with an explicit amount of fuel for the loops. -/
def parseWith (newProgramme : Programme) (fuel : Nat) (self : ProgrammeFeedParser)
    (device : List Token) : Option (Bool × ProgrammeFeedParser) :=
  let self := { self with m_reader := QXmlStreamReader.setDevice device, m_programmes := [] }
  match self.m_reader.readNextStartElement with
  | (false, reader) =>
    some (false, { self with m_reader := reader, m_error := "Invalid programme feed".toList })
  | (true, reader) =>
    if reader.name ≠ "rss".toList then
      some (false, { self with m_reader := reader,
                               m_error := "Channel feed does not contain rss element".toList })
    else
      match parseLoop newProgramme fuel { self with m_reader := reader } with
      | none => none
      | some self => some (true, self)

/-- `ProgrammeFeedParser::parse`: the result (`true` for success) and the object
afterwards, `none` if a loop ran out of fuel.  Every turn of a loop reads at
least one token, so the length of the device bounds the number of turns. -/
def parse (newProgramme : Programme) (self : ProgrammeFeedParser) (device : List Token) :
    Option (Bool × ProgrammeFeedParser) :=
  parseWith newProgramme (device.length + 1) self device

end ProgrammeFeedParser

/-! ## Documents as trees -/

/-- A node of a well-formed document: an element with its children, or one of
the leaves the reader reports inside an element. -/
inductive Xml where
  | element (pfx name : QString) (attrs : QXmlStreamAttributes) (children : List Xml)
  | text (s : QString)
  | entity (s : QString)
  | comment
  | pi

mutual
/-- The tokens the reader reports for a node. -/
def Xml.tokens : Xml → List Token
  | Xml.element pfx name attrs children =>
    Token.startElement pfx name attrs :: (Xml.tokensOfList children ++ [Token.endElement])
  | Xml.text s => [Token.characters s]
  | Xml.entity s => [Token.entityReference s]
  | Xml.comment => [Token.comment]
  | Xml.pi => [Token.processingInstruction]
/-- The tokens the reader reports for a sequence of nodes. -/
def Xml.tokensOfList : List Xml → List Token
  | [] => []
  | x :: xs => Xml.tokens x ++ Xml.tokensOfList xs
end


/-- Whether a node is an element. -/
def Xml.isElement : Xml → Bool
  | Xml.element _ _ _ _ => true
  | _ => false

/-- The character data among a sequence of nodes: the texts and the entity
references, in document order. -/
def Xml.textOf : List Xml → QString
  | [] => []
  | Xml.text s :: rest => s ++ Xml.textOf rest
  | Xml.entity s :: rest => s ++ Xml.textOf rest
  | _ :: rest => Xml.textOf rest

/-- The qualified name of an element: `prefix:name`, or the name alone without
a prefix. -/
def qualifiedNameOf (pfx name : QString) : QString :=
  if pfx = [] then name else pfx ++ ':' :: name

/-- A well-formed document: the tokens of the prolog, the root element, and the
tokens after it. -/
def documentTokens (pre : List Token) (root : Xml) (post : List Token) : List Token :=
  pre ++ Xml.tokens root ++ post

/-! ## The walkers read on trees

The functions below say, on the tree of a document, what each walker computes
on its tokens; the refinement theorems of the second part relate the two. -/

/-- The thumbnail the media-group walker appends for a child of `media:group`. -/
def groupChildThumbnail : Xml → Option Thumbnail
  | Xml.element pfx name attrs _ =>
    if qualifiedNameOf pfx name = "media:content".toList then none
    else if qualifiedNameOf pfx name = "media:thumbnail".toList then
      if !(ProgrammeFeedParser.parseTime (attrs.value "time".toList)).isNull then
        some ⟨attrs.value "url".toList, ProgrammeFeedParser.parseTime (attrs.value "time".toList)⟩
      else none
    else none
  | _ => none

/-- The thumbnails the media-group walker appends for the children of a `media:group`. -/
def groupThumbnails (kids : List Xml) : List Thumbnail := kids.filterMap groupChildThumbnail

/-- The record after the media-group walker has passed a child of `media:group`. -/
def groupChildProgramme (programme : Programme) : Xml → Programme
  | Xml.element pfx name attrs _ =>
    if qualifiedNameOf pfx name = "media:content".toList then
      match QString.toInt (attrs.value "duration".toList) with
      | some duration => { programme with duration := duration }
      | none => programme
    else programme
  | _ => programme

/-- The record after the media-group walker has passed the children of a `media:group`. -/
def groupProgramme (programme : Programme) (kids : List Xml) : Programme :=
  kids.foldl groupChildProgramme programme

/-- The thumbnails the item walker appends for a child of an item. -/
def itemChildThumbnails : Xml → List Thumbnail
  | Xml.element pfx name _ kids =>
    if name = "title".toList then []
    else if name = "description".toList then []
    else if qualifiedNameOf pfx name = "link".toList then []
    else if name = "source".toList then []
    else if name = "pubDate".toList then []
    else if qualifiedNameOf pfx name = "media:group".toList then groupThumbnails kids
    else []
  | _ => []

/-- The thumbnails the item walker appends for the children of an item. -/
def itemThumbnails (kids : List Xml) : List Thumbnail :=
  (kids.map itemChildThumbnails).flatten

/-- The record after the item walker has passed a child of an item. -/
def itemChildProgramme (programme : Programme) : Xml → Programme
  | Xml.element pfx name attrs kids =>
    if name = "title".toList then { programme with title := Xml.textOf kids }
    else if name = "description".toList then { programme with description := Xml.textOf kids }
    else if qualifiedNameOf pfx name = "link".toList then
      { programme with id := ProgrammeFeedParser.parseProgrammeId (Xml.textOf kids) }
    else if name = "source".toList then
      { programme with channelId := ProgrammeFeedParser.parseChannelId (attrs.value "url".toList) }
    else if name = "pubDate".toList then
      { programme with startDateTime := ProgrammeFeedParser.parseDateTime (Xml.textOf kids) }
    else if qualifiedNameOf pfx name = "media:group".toList then groupProgramme programme kids
    else programme
  | _ => programme

/-- The record the item walker builds from the children of an item. -/
def itemProgramme (newProgramme : Programme) (kids : List Xml) : Programme :=
  kids.foldl itemChildProgramme newProgramme

/-- The children lists of the elements named `name` among a sequence of nodes. -/
def childrenNamed (name : QString) (nodes : List Xml) : List (List Xml) :=
  nodes.filterMap (fun x =>
    match x with
    | Xml.element _ n _ kids => if n = name then some kids else none
    | _ => none)

/-- The items of a feed, each given by its children: the elements named "item"
directly under the elements named "channel" directly under the root, in
document order. -/
def itemsOf (rootChildren : List Xml) : List (List Xml) :=
  ((childrenNamed "channel".toList rootChildren).map (childrenNamed "item".toList)).flatten

/-- Whether the element is one whose text the item walker reads with
`readElementText`: title, description, link or pubDate. -/
def isTextField (pfx name : QString) : Bool :=
  name = "title".toList || name = "description".toList
    || qualifiedNameOf pfx name = "link".toList || name = "pubDate".toList

/-- The title, description, link and pubDate children of the item hold
character data only: none of them has a child element. -/
def itemFieldsAreText (kids : List Xml) : Bool :=
  kids.all (fun x =>
    match x with
    | Xml.element pfx name _ sub => !isTextField pfx name || sub.all (fun k => !k.isElement)
    | _ => true)

/-- Whether the node is an element with the given local name. -/
def Xml.hasName (n : QString) : Xml → Bool
  | Xml.element _ name _ _ => name = n
  | _ => false

/-- Whether the node is an element with the given qualified name. -/
def Xml.hasQualifiedName (q : QString) : Xml → Bool
  | Xml.element pfx name _ _ => qualifiedNameOf pfx name = q
  | _ => false

/-- The character data of an element (empty for a leaf). -/
def Xml.characterData : Xml → QString
  | Xml.element _ _ _ kids => Xml.textOf kids
  | _ => []

/-- The value of an attribute of an element (empty for a leaf). -/
def Xml.attribute (qualifiedName : QString) : Xml → QString
  | Xml.element _ _ attrs _ => attrs.value qualifiedName
  | _ => []

/-- The record the item walker builds when it runs on the tokens of an item
alone, on a fresh object. -/
def recordOfItem (newProgramme : Programme) (kids : List Xml) : Option Programme :=
  match ProgrammeFeedParser.parseItemElement newProgramme ((Xml.tokensOfList kids).length + 2)
      ⟨⟨Xml.tokensOfList kids ++ [Token.endElement], none⟩, [], [], []⟩ with
  | some s => s.m_programmes.head?
  | none => none

/-! ## The state of the object before a call -/

/-- The same parser state seen from an object that already held the error text
`e`, the programmes `ps` and the thumbnails `ts`. -/
def ProgrammeFeedParser.rebase (e : QString) (ps : List Programme) (ts : List Thumbnail)
    (s : ProgrammeFeedParser) : ProgrammeFeedParser :=
  ⟨s.m_reader, e, ps ++ s.m_programmes, ts ++ s.m_thumbnails⟩

/-! ## Sample documents -/

/-- Modelled from the spec: a default-constructed `Programme` as the data model
describes it (identifiers -1, null time, duration 0, empty texts); used for
concrete runs only, the properties hold for every default value. -/
def Programme.sample : Programme := ⟨[], [], -1, -1, QDateTime.null, 0⟩

/-- An element without prefix and attributes. -/
def Xml.plain (name : String) (children : List Xml) : Xml :=
  Xml.element [] name.toList [] children

/-- The children of the root of a feed with one channel and two items; the
title of the first item has a child element `b`:
`<channel><item><title>a<b/></title></item><item><link>x=7</link></item></channel>`. -/
def feedWithMarkupInTitle : List Xml :=
  [Xml.plain "channel"
    [Xml.plain "item" [Xml.plain "title" [Xml.text "a".toList, Xml.plain "b" []]],
     Xml.plain "item" [Xml.plain "link" [Xml.text "x=7".toList]]]]

/-- The children of the root of a feed with one channel and two items, every
field being plain text:
`<channel><item><title>a</title><link>x=5</link></item><item><link>x=7</link></item></channel>`. -/
def feedWithTextFields : List Xml :=
  [Xml.plain "channel"
    [Xml.plain "item" [Xml.plain "title" [Xml.text "a".toList],
                       Xml.plain "link" [Xml.text "x=5".toList]],
     Xml.plain "item" [Xml.plain "link" [Xml.text "x=7".toList]]]]

/-- The five field elements of an item, as plain text, with an unknown element
and a comment among them. -/
def itemWithTextFields : List Xml :=
  [Xml.plain "guid" [Xml.text "g".toList],
   Xml.plain "pubDate" [Xml.text "5 Jan 2020 10:00:00".toList],
   Xml.comment,
   Xml.element [] "source".toList
     [("url".toList, "http://x/feed/channels/1855486/flv.mediarss".toList)]
     [Xml.text "TV1".toList],
   Xml.plain "link" [Xml.text "x=5".toList],
   Xml.plain "title" [Xml.text "News".toList],
   Xml.plain "description" [Xml.text "Evening".toList]]

/-- The five field elements of an item, the title holding a child element `b`
in front of the link:
`<title>a<b/></title><description>d</description><link>x=5</link>
<source url="u"/><pubDate>5 Jan 2020 10:00:00</pubDate>`. -/
def itemWithMarkupInTitle : List Xml :=
  [Xml.plain "title" [Xml.text "a".toList, Xml.plain "b" []],
   Xml.plain "description" [Xml.text "d".toList],
   Xml.plain "link" [Xml.text "x=5".toList],
   Xml.element [] "source".toList [("url".toList, "u".toList)] [],
   Xml.plain "pubDate" [Xml.text "5 Jan 2020 10:00:00".toList]]

/-! ## Words of the specification -/

/-- Whether a token is a start tag or an end tag. -/
def Token.isTag : Token → Bool
  | Token.startElement _ _ _ => true
  | Token.endElement => true
  | _ => false

/-- The name of the top-level element of a document: the local name of the
first tag the reader reports, when that is a start tag.  A device that reports
no tag, or an end tag first, has no top-level element. -/
def topLevelName (device : List Token) : Option QString :=
  match device.find? Token.isTag with
  | some (Token.startElement _ name _) => some name
  | _ => none

/-- The text after the last occurrence of `c` in `s`. -/
def textAfterLast (c : Char) (s : QString) : QString :=
  (s.reverse.takeWhile (fun x => x ≠ c)).reverse

/-- The substring the specification lets `parseProgrammeId` judge: the text
after the last "=" if there is one, else the text after the last "/" if there is
one, else the whole string. -/
def chosenSubstring (s : QString) : QString :=
  if '=' ∈ s then textAfterLast '=' s
  else if '/' ∈ s then textAfterLast '/' s
  else s

/-- The month abbreviations of the specification, in calendar order. -/
def monthNames : List QString :=
  ["Jan".toList, "Feb".toList, "Mar".toList, "Apr".toList, "May".toList, "Jun".toList,
   "Jul".toList, "Aug".toList, "Sep".toList, "Oct".toList, "Nov".toList, "Dec".toList]

/-- The text "D Mon YYYY HH:MM:SS" made of its six fields. -/
def dateTimeText (D Mon Y H M S : QString) : QString :=
  D ++ " ".toList ++ Mon ++ " ".toList ++ Y ++ " ".toList ++ H ++ ":".toList ++ M
    ++ ":".toList ++ S

/-- Number of days of month `m` in year `y` of the Gregorian calendar. -/
def daysInMonth (y m : Int) : Int :=
  if m = 2 then (if (y % 4 = 0 ∧ y % 100 ≠ 0) ∨ y % 400 = 0 then 29 else 28)
  else if m = 4 ∨ m = 6 ∨ m = 9 ∨ m = 11 then 30
  else 31

/-- An existing calendar date: a year from 1 on, a month 1..12 and a day of that month. -/
def existingDate (y m d : Int) : Prop :=
  1 ≤ y ∧ 1 ≤ m ∧ m ≤ 12 ∧ 1 ≤ d ∧ d ≤ daysInMonth y m

instance (y m d : Int) : Decidable (existingDate y m d) := by
  unfold existingDate; infer_instance

/-- The shape the date-time pattern asks of the six fields: D of 1 or 2 digits,
a month word of 3 word characters, a year of at least one digit, and HH, MM, SS
of 2 digits each. -/
def dateTimeFields (D Mon Y H M S : QString) : Prop :=
  (D.all rxDigit = true ∧ 1 ≤ D.length ∧ D.length ≤ 2)
  ∧ (Mon.all rxWord = true ∧ Mon.length = 3)
  ∧ (Y.all rxDigit = true ∧ 1 ≤ Y.length)
  ∧ (H.all rxDigit = true ∧ H.length = 2)
  ∧ (M.all rxDigit = true ∧ M.length = 2)
  ∧ (S.all rxDigit = true ∧ S.length = 2)

instance (D Mon Y H M S : QString) : Decidable (dateTimeFields D Mon Y H M S) := by
  unfold dateTimeFields; infer_instance

/-- The string contains a match of the date-time pattern: some part of it is a
text "D Mon YYYY HH:MM:SS" with fields of the right shape. -/
def containsDateTime (s : QString) : Prop :=
  ∃ p t D Mon Y H M S, s = p ++ dateTimeText D Mon Y H M S ++ t ∧ dateTimeFields D Mon Y H M S

/-- The text "H:M:S" made of its three fields. -/
def timeText (H M S : QString) : QString := H ++ ":".toList ++ M ++ ":".toList ++ S

/-- The shape the time pattern asks of the three fields: 1 or 2 digits each. -/
def timeFields (H M S : QString) : Prop :=
  (H.all rxDigit = true ∧ 1 ≤ H.length ∧ H.length ≤ 2)
  ∧ (M.all rxDigit = true ∧ 1 ≤ M.length ∧ M.length ≤ 2)
  ∧ (S.all rxDigit = true ∧ 1 ≤ S.length ∧ S.length ≤ 2)

instance (H M S : QString) : Decidable (timeFields H M S) := by
  unfold timeFields; infer_instance

/-- The string starts with the time pattern: it begins with a text "H:M:S" whose
fields have 1 or 2 digits each. -/
def startsWithTime (s : QString) : Prop :=
  ∃ H M S t, s = timeText H M S ++ t ∧ timeFields H M S

/-- An item whose only child is `<atom:link>x=5</atom:link>`: an element of local
name "link" with the prefix "atom". -/
def itemWithPrefixedLink : List Xml :=
  [Xml.element "atom".toList "link".toList [] [Xml.text "x=5".toList]]

/-- A sequence of `parse` calls on the same object, one per device: the results
in order and the object after the last call. -/
def ProgrammeFeedParser.parseAll (newProgramme : Programme) :
    ProgrammeFeedParser → List (List Token) → Option (List Bool × ProgrammeFeedParser)
  | self, [] => some ([], self)
  | self, device :: devices =>
    match ProgrammeFeedParser.parse newProgramme self device with
    | none => none
    | some (ok, self') =>
      match ProgrammeFeedParser.parseAll newProgramme self' devices with
      | none => none
      | some (oks, last) => some (ok :: oks, last)

/-! ## The walkers read on any tree

The reading of a document stops for good when `readElementText` meets a child
element; the functions below follow the walkers on any tree and say, besides
what they collect, whether the reader is still valid at the end. -/

/-- What `readElementText` does on the children of an element: the text it
returns, and whether it reached the end tag (`false`: it met a child element
and raised an error). -/
def Xml.readText : List Xml → QString × Bool
  | [] => ([], true)
  | Xml.text s :: rest => (s ++ (Xml.readText rest).1, (Xml.readText rest).2)
  | Xml.entity s :: rest => (s ++ (Xml.readText rest).1, (Xml.readText rest).2)
  | Xml.comment :: rest => Xml.readText rest
  | Xml.pi :: rest => Xml.readText rest
  | Xml.element _ _ _ _ :: _ => ([], false)

/-- One child of an item under the item walker: the thumbnails appended, the
record afterwards, and whether the reader is still valid. -/
def itemChildOutcome (programme : Programme) : Xml → List Thumbnail × Programme × Bool
  | Xml.element pfx name attrs sub =>
    if name = "title".toList then
      ([], { programme with title := (Xml.readText sub).1 }, (Xml.readText sub).2)
    else if name = "description".toList then
      ([], { programme with description := (Xml.readText sub).1 }, (Xml.readText sub).2)
    else if qualifiedNameOf pfx name = "link".toList then
      ([], { programme with id := ProgrammeFeedParser.parseProgrammeId (Xml.readText sub).1 },
       (Xml.readText sub).2)
    else if name = "source".toList then
      ([], { programme with
             channelId := ProgrammeFeedParser.parseChannelId (attrs.value "url".toList) }, true)
    else if name = "pubDate".toList then
      ([], { programme with
             startDateTime := ProgrammeFeedParser.parseDateTime (Xml.readText sub).1 },
       (Xml.readText sub).2)
    else if qualifiedNameOf pfx name = "media:group".toList then
      (groupThumbnails sub, groupProgramme programme sub, true)
    else ([], programme, true)
  | _ => ([], programme, true)

/-- The item walker on the children of an item: thumbnails appended, the record
built, and whether the reader is still valid. -/
def itemWalk : List Xml → Programme → List Thumbnail × Programme × Bool
  | [], programme => ([], programme, true)
  | x :: rest, programme =>
    if (itemChildOutcome programme x).2.2 then
      ((itemChildOutcome programme x).1 ++ (itemWalk rest (itemChildOutcome programme x).2.1).1,
       (itemWalk rest (itemChildOutcome programme x).2.1).2.1,
       (itemWalk rest (itemChildOutcome programme x).2.1).2.2)
    else ((itemChildOutcome programme x).1, (itemChildOutcome programme x).2.1, false)

/-- The channel walker on the children of a channel: thumbnails and records
appended, and whether the reader is still valid. -/
def channelWalk (newProgramme : Programme) : List Xml → List Thumbnail × List Programme × Bool
  | [] => ([], [], true)
  | Xml.element _ name _ sub :: rest =>
    if name = "item".toList then
      if (itemWalk sub newProgramme).2.2 then
        ((itemWalk sub newProgramme).1 ++ (channelWalk newProgramme rest).1,
         (itemWalk sub newProgramme).2.1 :: (channelWalk newProgramme rest).2.1,
         (channelWalk newProgramme rest).2.2)
      else ((itemWalk sub newProgramme).1, [(itemWalk sub newProgramme).2.1], false)
    else channelWalk newProgramme rest
  | _ :: rest => channelWalk newProgramme rest

/-- The loop of `parse` on the children of the root: thumbnails and records
appended, and whether the reader is still valid. -/
def rootWalk (newProgramme : Programme) : List Xml → List Thumbnail × List Programme × Bool
  | [] => ([], [], true)
  | Xml.element _ name _ sub :: rest =>
    if name = "channel".toList then
      if (channelWalk newProgramme sub).2.2 then
        ((channelWalk newProgramme sub).1 ++ (rootWalk newProgramme rest).1,
         (channelWalk newProgramme sub).2.1 ++ (rootWalk newProgramme rest).2.1,
         (rootWalk newProgramme rest).2.2)
      else ((channelWalk newProgramme sub).1, (channelWalk newProgramme sub).2.1, false)
    else rootWalk newProgramme rest
  | _ :: rest => rootWalk newProgramme rest

/-- The reader after a walker has passed the children and the end tag of an
element: on the tokens that follow, or invalid after an error. -/
def readerAfter (ok : Bool) (rest : List Token) : QXmlStreamReader :=
  if ok then ⟨rest, some Token.endElement⟩ else QXmlStreamReader.invalid

/-! ## Skipped elements -/

/-- Whether the item walker reads the node: an element named title,
description, source or pubDate, or of qualified name "link" or "media:group".
Every other child of an item is skipped. -/
def readByItemWalker : Xml → Bool
  | Xml.element pfx name _ _ =>
    name = "title".toList || name = "description".toList
      || qualifiedNameOf pfx name = "link".toList || name = "source".toList
      || name = "pubDate".toList || qualifiedNameOf pfx name = "media:group".toList
  | _ => false

/-- The children of an item without the nodes the item walker skips. -/
def pruneItem (kids : List Xml) : List Xml := kids.filter readByItemWalker

/-- The children of a channel without the nodes the channel walker skips (all
but the elements named "item"), each item without what the item walker skips. -/
def pruneChannel (kids : List Xml) : List Xml :=
  kids.filterMap (fun x =>
    match x with
    | Xml.element pfx name attrs sub =>
      if name = "item".toList then some (Xml.element pfx name attrs (pruneItem sub)) else none
    | _ => none)

/-- The children of the root without the nodes the loop of `parse` skips (all
but the elements named "channel"), each channel pruned in turn. -/
def pruneFeed (kids : List Xml) : List Xml :=
  kids.filterMap (fun x =>
    match x with
    | Xml.element pfx name attrs sub =>
      if name = "channel".toList then some (Xml.element pfx name attrs (pruneChannel sub))
      else none
    | _ => none)

/-- What a caller sees of a `parse` call: the result, `programmes()` and
`thumbnails()` afterwards. -/
def ProgrammeFeedParser.parseResult (newProgramme : Programme) (self : ProgrammeFeedParser)
    (device : List Token) : Option (Bool × List Programme × List Thumbnail) :=
  (ProgrammeFeedParser.parse newProgramme self device).map
    (fun r => (r.1, r.2.programmes, r.2.thumbnails))

/-! ## Thumbnails and durations in the words of the specification -/

/-- The children of an element (none for a leaf). -/
def Xml.children : Xml → List Xml
  | Xml.element _ _ _ kids => kids
  | _ => []

/-- Modelled from the spec: the thumbnail built from a `media:thumbnail`
element; its "url" attribute and its "time" attribute parsed as a time of day. -/
def thumbnailOf (x : Xml) : Thumbnail :=
  ⟨x.attribute "url".toList, ProgrammeFeedParser.parseTime (x.attribute "time".toList)⟩

/-- Modelled from the spec: the thumbnails of an item; for each `media:group`
child in order, the `media:thumbnail` elements directly under it whose time is
not null. -/
def thumbnailsOfItem (kids : List Xml) : List Thumbnail :=
  ((kids.filter (Xml.hasQualifiedName "media:group".toList)).map
    (fun g => ((g.children.filter (Xml.hasQualifiedName "media:thumbnail".toList)).map
      thumbnailOf).filter (fun t => !t.time.isNull))).flatten

/-- Modelled from the spec: the thumbnails of a feed; those of its items, as one
list in document order. -/
def thumbnailsOfFeed (rootChildren : List Xml) : List Thumbnail :=
  ((itemsOf rootChildren).map thumbnailsOfItem).flatten

/-- Modelled from the spec: the duration a child of `media:group` sets; that of
a `media:content` element whose "duration" attribute converts to an integer. -/
def contentDuration : Xml → Option Int
  | Xml.element pfx name attrs _ =>
    if qualifiedNameOf pfx name = "media:content".toList then
      QString.toInt (attrs.value "duration".toList)
    else none
  | _ => none

/-- Modelled from the spec: the durations set within an item, in document
order; those of the `media:content` children of its `media:group` children. -/
def itemDurations (kids : List Xml) : List Int :=
  ((kids.filter (Xml.hasQualifiedName "media:group".toList)).map
    (fun g => g.children.filterMap contentDuration)).flatten

/-! ## More sample documents -/

/-- A `media:thumbnail` element with the given attributes and children. -/
def Xml.thumbnail (attrs : List (String × String)) (children : List Xml) : Xml :=
  Xml.element "media".toList "thumbnail".toList
    (attrs.map (fun a => (a.1.toList, a.2.toList))) children

/-- A `media:content` element with the given attributes and children. -/
def Xml.content (attrs : List (String × String)) (children : List Xml) : Xml :=
  Xml.element "media".toList "content".toList
    (attrs.map (fun a => (a.1.toList, a.2.toList))) children

/-- A `media:group` element with the given children. -/
def Xml.group (children : List Xml) : Xml :=
  Xml.element "media".toList "group".toList [] children

/-- The children of the root of a feed whose only item has a title with a child
element in front of a `media:group` with one good thumbnail. -/
def feedWithMarkupBeforeThumbnail : List Xml :=
  [Xml.plain "channel"
    [Xml.plain "item"
      [Xml.plain "title" [Xml.text "a".toList, Xml.plain "b" []],
       Xml.group [Xml.thumbnail [("url", "u"), ("time", "00:00:10")] []]]]]

/-- The children of the root of a feed with two items: the first has a good
thumbnail, one with the time "not-a-time", one without a time and one nested
inside a `media:content`; the second has one good thumbnail. -/
def feedWithThumbnails : List Xml :=
  [Xml.plain "channel"
    [Xml.plain "item"
      [Xml.plain "title" [Xml.text "a".toList],
       Xml.group
         [Xml.thumbnail [("url", "u1"), ("time", "00:00:10")] [],
          Xml.thumbnail [("url", "u2"), ("time", "not-a-time")] [],
          Xml.thumbnail [("url", "u3")] [],
          Xml.content [("duration", "60")]
            [Xml.thumbnail [("url", "u4"), ("time", "00:00:20")] []]]],
     Xml.plain "item"
       [Xml.group [Xml.thumbnail [("url", "u5"), ("time", "00:00:30")] []]]]]

/-- An item with two titles, the first holding a child element:
`<title>a<b/></title><title>c</title>`. -/
def itemWithTwoTitles : List Xml :=
  [Xml.plain "title" [Xml.text "a".toList, Xml.plain "b" []],
   Xml.plain "title" [Xml.text "c".toList]]

/-- An item with a link whose text ends in "=8155949" followed by a link with
the text "abc", and a `media:group` whose second `media:content` has a
non-numeric duration. -/
def itemWithRepeatedFields : List Xml :=
  [Xml.plain "link" [Xml.text "http://tvkaista.com/search/?findid=8155949".toList],
   Xml.plain "link" [Xml.text "abc".toList],
   Xml.group [Xml.content [("duration", "77")] [], Xml.content [("duration", "abc")] []]]

/-- A date written in Arabic-Indic digits, "5 Jan 2020 10:00:00" followed by a
space: a text without any of the digits 0 to 9. -/
def dateInOtherDigits : QString :=
  "\u0665 Jan \u0662\u0660\u0662\u0660 \u0661\u0660:\u0660\u0660:\u0660\u0660 ".toList

/-- The children of the root of a feed with an item outside a channel and a
channel inside a skipped element. -/
def feedWithStrayItems : List Xml :=
  [Xml.plain "item" [Xml.plain "title" [Xml.text "a".toList]],
   Xml.plain "foo" [Xml.plain "channel" [Xml.plain "item" []]]]

end

/-! # Properties -/

/-! ## QString -/

theorem isDigit_iff_toNat (c : Char) : c.isDigit = true ↔ 48 ≤ c.toNat ∧ c.toNat ≤ 57 := by
  simp only [Char.isDigit, Bool.and_eq_true, decide_eq_true_eq, ge_iff_le, UInt32.le_def,
    BitVec.le_def]
  exact Iff.rfl

theorem isDigit_not_space (c : Char) (h : c.isDigit = true) : qIsSpace c = false := by
  have h' := (isDigit_iff_toNat c).mp h
  simp only [qIsSpace, Bool.or_eq_false_iff, Bool.and_eq_false_iff, decide_eq_false_iff_not,
    beq_eq_false_iff_ne, ne_eq]
  omega

theorem isDigit_ne_of_not_digit (c x : Char) (h : c.isDigit = true) (hx : x.isDigit = false) :
    c ≠ x := by
  rintro rfl
  rw [h] at hx
  exact Bool.noConfusion hx

theorem not_mem_of_all_digits (d : QString) (x : Char) (hd : d.all Char.isDigit = true)
    (hx : x.isDigit = false) : x ∉ d := by
  intro hmem
  have := (List.all_eq_true.mp hd) x hmem
  rw [hx] at this
  exact Bool.noConfusion this

theorem dropWhile_space_digits (d : QString) (hd : d.all Char.isDigit = true) :
    d.dropWhile qIsSpace = d := by
  cases d with
  | nil => rfl
  | cons x xs =>
    have hx : x.isDigit = true := (List.all_eq_true.mp hd) x (List.mem_cons_self _ _)
    simp [List.dropWhile, isDigit_not_space x hx]

theorem trim_digits (d : QString) (hd : d.all Char.isDigit = true) :
    ((d.dropWhile qIsSpace).reverse.dropWhile qIsSpace).reverse = d := by
  rw [dropWhile_space_digits d hd]
  have hr : d.reverse.all Char.isDigit = true := by
    rw [List.all_eq_true] at hd ⊢
    intro x hx
    exact hd x (List.mem_reverse.mp hx)
  rw [dropWhile_space_digits d.reverse hr, List.reverse_reverse]

theorem splitSign_digits (d : QString) (hd : d.all Char.isDigit = true) :
    splitSign d = (false, d) := by
  cases d with
  | nil => rfl
  | cons x xs =>
    have hx : x.isDigit = true := (List.all_eq_true.mp hd) x (List.mem_cons_self _ _)
    have h1 : x ≠ '-' := isDigit_ne_of_not_digit x '-' hx (by decide)
    have h2 : x ≠ '+' := isDigit_ne_of_not_digit x '+' hx (by decide)
    unfold splitSign
    split
    · rename_i heq; cases heq; exact absurd rfl h1
    · rename_i heq; cases heq; exact absurd rfl h2
    · rfl

/-- A non-empty string of digits whose value fits an `int` converts to that value. -/
theorem toInt_digits (d : QString) (hne : d ≠ []) (hd : d.all Char.isDigit = true)
    (hmax : (digitsValue d : Int) ≤ INT_MAX) : QString.toInt d = some (digitsValue d : Int) := by
  unfold QString.toInt
  simp only [trim_digits d hd, splitSign_digits d hd]
  have hmin : INT_MIN ≤ (digitsValue d : Int) := by
    have : (0 : Int) ≤ (digitsValue d : Int) := Int.ofNat_nonneg _
    unfold INT_MIN; omega
  simp [hne, hd, hmin, hmax]

theorem lastIndexOf_not_mem (s : QString) (c : Char) (h : c ∉ s) :
    QString.lastIndexOf s c = -1 := by
  induction s with
  | nil => rfl
  | cons x xs ih =>
    have hx : x ≠ c := fun e => h (e ▸ List.mem_cons_self _ _)
    have hxs : c ∉ xs := fun m => h (List.mem_cons_of_mem _ m)
    simp [QString.lastIndexOf, ih hxs, hx]

theorem lastIndexOf_append_cons (p d : QString) (c : Char) (h : c ∉ d) :
    QString.lastIndexOf (p ++ c :: d) c = p.length := by
  induction p with
  | nil => simp [QString.lastIndexOf, lastIndexOf_not_mem d c h]
  | cons x xs ih =>
    have h0 : (0 : Int) ≤ (xs.length : Int) := Int.ofNat_nonneg _
    show QString.lastIndexOf (x :: (xs ++ c :: d)) c = _
    rw [QString.lastIndexOf]
    simp only [ih]
    simp [h0]

theorem mid_to_end (s : QString) (k : Nat) (hk : k ≤ s.length) :
    QString.mid s (k : Int) (-1) = s.drop k := by
  unfold QString.mid
  by_cases h : (k : Int) ≥ (s.length : Int)
  · have : k = s.length := by omega
    subst this
    simp
  · simp only [h, if_false]
    have h0 : ¬ ((k : Int) < 0) := by omega
    have h1 : ((-1 : Int) < 0) := by omega
    simp only [h1, if_true, h0, if_false]
    have h2 : ¬ ((s.length : Int) - k + k > s.length) := by omega
    simp only [h2, if_false, Int.toNat_ofNat]
    have h3 : ((s.length : Int) - k).toNat = s.length - k := by omega
    rw [h3]
    apply List.take_of_length_le
    simp

theorem mid_slice (a m b : QString) :
    QString.mid (a ++ m ++ b) (a.length : Int) (m.length : Int) = m := by
  unfold QString.mid
  by_cases h : (a.length : Int) ≥ ((a ++ m ++ b).length : Int)
  · have hl : (a ++ m ++ b).length = a.length + m.length + b.length := by
      simp only [List.length_append]
    have : m.length = 0 := by omega
    have hm : m = [] := List.length_eq_zero.mp this
    rw [if_pos h, hm]
  · simp only [h, if_false]
    have hl : ((a ++ m ++ b).length : Int) = a.length + m.length + b.length := by
      simp only [List.length_append, Nat.cast_add]
    have h0 : ¬ ((a.length : Int) < 0) := by omega
    have h1 : ¬ ((m.length : Int) < 0) := by omega
    have h2 : ¬ ((m.length : Int) + a.length > ((a ++ m ++ b).length : Int)) := by omega
    simp only [h0, h1, h2, if_false, Int.toNat_ofNat]
    simp [List.append_assoc, List.drop_append_eq_append_drop, List.take_append_eq_append_take]

/-! ## parseProgrammeId -/

/-- C5: for every string `p` and every non-empty string `d` of decimal digits
whose value fits a 32-bit signed integer, `parseProgrammeId (p ++ "=" ++ d)` is
the value of `d`, and when `p` contains no "=", `parseProgrammeId (p ++ "/" ++ d)`
is the value of `d` as well. -/
theorem parseProgrammeId_digits_after_separator (p d : QString) (hne : d ≠ [])
    (hd : d.all Char.isDigit = true) (hmax : (digitsValue d : Int) ≤ INT_MAX) :
    ProgrammeFeedParser.parseProgrammeId (p ++ "=".toList ++ d) = (digitsValue d : Int)
    ∧ ('=' ∉ p →
        ProgrammeFeedParser.parseProgrammeId (p ++ "/".toList ++ d) = (digitsValue d : Int)) := by
  have heq : '=' ∉ d := not_mem_of_all_digits d '=' hd (by decide)
  have hsl : '/' ∉ d := not_mem_of_all_digits d '/' hd (by decide)
  have hlen : ∀ c : Char, p.length + 1 ≤ (p ++ c :: d).length := by
    intro c; simp [List.length_append]
  have hdrop : ∀ c : Char, (p ++ c :: d).drop (p.length + 1) = d := by
    intro c
    rw [show p ++ c :: d = (p ++ [c]) ++ d by simp]
    exact List.drop_left' (by simp)
  constructor
  · rw [show p ++ "=".toList ++ d = p ++ '=' :: d by simp]
    unfold ProgrammeFeedParser.parseProgrammeId
    simp only [lastIndexOf_append_cons p d '=' heq]
    have h0 : ¬ ((p.length : Int) < 0) := by omega
    simp only [h0, if_false]
    have := mid_to_end (p ++ '=' :: d) (p.length + 1) (hlen '=')
    rw [Nat.cast_add, Nat.cast_one] at this
    rw [this, hdrop, toInt_digits d hne hd hmax]
  · intro hp
    rw [show p ++ "/".toList ++ d = p ++ '/' :: d by simp]
    unfold ProgrammeFeedParser.parseProgrammeId
    have hno : '=' ∉ p ++ '/' :: d := by
      simp only [List.mem_append, List.mem_cons, not_or]
      exact ⟨hp, by decide, heq⟩
    simp only [lastIndexOf_not_mem _ '=' hno, lastIndexOf_append_cons p d '/' hsl]
    have h0 : ((-1 : Int) < 0) := by omega
    simp only [h0, if_true]
    have := mid_to_end (p ++ '/' :: d) (p.length + 1) (hlen '/')
    rw [Nat.cast_add, Nat.cast_one] at this
    rw [this, hdrop, toInt_digits d hne hd hmax]

set_option maxRecDepth 100000 in
/-- C5, the two links of the source comments: the first ends in "=8155949", the
second in "/852238" and has no "=". -/
theorem parseProgrammeId_digits_after_separator_witness :
    ProgrammeFeedParser.parseProgrammeId "http://tvkaista.com/search/?findid=8155949".toList
      = 8155949
    ∧ ProgrammeFeedParser.parseProgrammeId
        "http://services.tvkaista.com/feedbeta/seasonpasses/852238".toList = 852238 :=
  ⟨(parseProgrammeId_digits_after_separator "http://tvkaista.com/search/?findid".toList
      "8155949".toList (by decide) (by decide) (by decide)).1,
   (parseProgrammeId_digits_after_separator
      "http://services.tvkaista.com/feedbeta/seasonpasses".toList
      "852238".toList (by decide) (by decide) (by decide)).2 (by decide)⟩

theorem takeWhile_append_stop {α : Type} (f : α → Bool) (a b : List α) (c : α)
    (ha : ∀ x ∈ a, f x = true) (hc : f c = false) : (a ++ c :: b).takeWhile f = a := by
  induction a with
  | nil => simp [List.takeWhile, hc]
  | cons x xs ih =>
    have hx : f x = true := ha x (List.mem_cons_self _ _)
    have hxs : ∀ y ∈ xs, f y = true := fun y hy => ha y (List.mem_cons_of_mem _ hy)
    simp [List.takeWhile, hx, ih hxs]

theorem last_occurrence (s : QString) (c : Char) (h : c ∈ s) :
    ∃ p d, s = p ++ c :: d ∧ c ∉ d := by
  obtain ⟨as, bs, hs, hnot⟩ := List.eq_append_cons_of_mem (List.mem_reverse.mpr h)
  refine ⟨bs.reverse, as.reverse, ?_, fun hm => hnot (List.mem_reverse.mp hm)⟩
  have := congrArg List.reverse hs
  simpa using this

theorem textAfterLast_append_cons (p d : QString) (c : Char) (h : c ∉ d) :
    textAfterLast c (p ++ c :: d) = d := by
  unfold textAfterLast
  have hr : (p ++ c :: d).reverse = d.reverse ++ c :: p.reverse := by simp
  rw [hr, takeWhile_append_stop _ d.reverse p.reverse c, List.reverse_reverse]
  · intro x hx
    have : x ≠ c := fun e => h (e ▸ List.mem_reverse.mp hx)
    simp [this]
  · simp

/-- The substring `parseProgrammeId` converts is the one the specification names. -/
theorem mid_after_separator_eq_chosenSubstring (s : QString) :
    QString.mid s
      ((if QString.lastIndexOf s '=' < 0 then QString.lastIndexOf s '/'
        else QString.lastIndexOf s '=') + 1) (-1) = chosenSubstring s := by
  have hdrop : ∀ (p d : QString) (c : Char),
      QString.mid (p ++ c :: d) ((p.length : Int) + 1) (-1) = d := by
    intro p d c
    have := mid_to_end (p ++ c :: d) (p.length + 1) (by simp [List.length_append])
    rw [Nat.cast_add, Nat.cast_one] at this
    rw [this, show p ++ c :: d = (p ++ [c]) ++ d by simp]
    exact List.drop_left' (by simp)
  unfold chosenSubstring
  by_cases he : '=' ∈ s
  · obtain ⟨p, d, hs, hd⟩ := last_occurrence s '=' he
    subst hs
    have h0 : ¬ ((p.length : Int) < 0) := by omega
    rw [if_pos he, textAfterLast_append_cons p d '=' hd, lastIndexOf_append_cons p d '=' hd,
      if_neg h0, hdrop]
  · rw [if_neg he, lastIndexOf_not_mem s '=' he, if_pos (by omega)]
    by_cases hsl : '/' ∈ s
    · obtain ⟨p, d, hs, hd⟩ := last_occurrence s '/' hsl
      subst hs
      rw [if_pos hsl, textAfterLast_append_cons p d '/' hd, lastIndexOf_append_cons p d '/' hd,
        hdrop]
    · rw [if_neg hsl, lastIndexOf_not_mem s '/' hsl]
      have := mid_to_end s 0 (Nat.zero_le _)
      simpa using this

/-- C6: for every string, `parseProgrammeId` returns a value; the value is the
integer read from the chosen substring (the text after the last "=" if there is
one, else the text after the last "/" if there is one, else the whole string)
and it is -1 whenever that substring does not convert to an integer; "abc", the
empty string and "a=1/2" all give -1. -/
theorem parseProgrammeId_total_and_sentinel (s : QString) :
    (∃ n : Int, ProgrammeFeedParser.parseProgrammeId s = n)
    ∧ ProgrammeFeedParser.parseProgrammeId s = (QString.toInt (chosenSubstring s)).getD (-1)
    ∧ (QString.toInt (chosenSubstring s) = none → ProgrammeFeedParser.parseProgrammeId s = -1)
    ∧ ProgrammeFeedParser.parseProgrammeId "abc".toList = -1
    ∧ ProgrammeFeedParser.parseProgrammeId "".toList = -1
    ∧ ProgrammeFeedParser.parseProgrammeId "a=1/2".toList = -1 := by
  have key : ProgrammeFeedParser.parseProgrammeId s
      = (QString.toInt (chosenSubstring s)).getD (-1) := by
    unfold ProgrammeFeedParser.parseProgrammeId
    simp only [mid_after_separator_eq_chosenSubstring s]
    cases QString.toInt (chosenSubstring s) <;> rfl
  refine ⟨⟨_, rfl⟩, key, ?_, by decide, by decide, by decide⟩
  intro hnone
  rw [key, hnone]
  rfl

/-- C6 at "a=1/2": the text after the last "=" is "1/2", which is no integer. -/
theorem parseProgrammeId_total_and_sentinel_witness :
    QString.toInt (chosenSubstring "a=1/2".toList) = none
    ∧ ProgrammeFeedParser.parseProgrammeId "a=1/2".toList = -1 :=
  ⟨by decide, (parseProgrammeId_total_and_sentinel "a=1/2".toList).2.2.1 (by decide)⟩

theorem indexOf_absent (s needle : QString) (h : ¬ needle <:+: s) :
    QString.indexOf s needle = -1 := by
  induction s with
  | nil =>
    have : needle.isPrefixOf [] = false := by
      rw [Bool.eq_false_iff]
      intro hp
      exact h (List.isPrefixOf_iff_prefix.mp hp).isInfix
    simp [QString.indexOf, this]
  | cons x xs ih =>
    have h1 : needle.isPrefixOf (x :: xs) = false := by
      rw [Bool.eq_false_iff]
      intro hp
      exact h (List.isPrefixOf_iff_prefix.mp hp).isInfix
    have h2 : ¬ needle <:+: xs := fun hi => h (List.infix_cons hi)
    simp [QString.indexOf, h1, ih h2]

theorem channels_no_straddle (q rest : QString) (hq : q ≠ [])
    (h : ¬ "channels/".toList <:+: q) :
    "channels/".toList.isPrefixOf (q ++ "channels/".toList ++ rest) = false := by
  rw [Bool.eq_false_iff]
  intro hp
  rcases q with _ | ⟨a1, _ | ⟨a2, _ | ⟨a3, _ | ⟨a4, _ | ⟨a5, _ | ⟨a6, _ | ⟨a7, _ | ⟨a8, _ | ⟨a9, q⟩⟩⟩⟩⟩⟩⟩⟩⟩
  · exact hq rfl
  all_goals simp [List.isPrefixOf] at hp
  obtain ⟨rfl, rfl, rfl, rfl, rfl, rfl, rfl, rfl, rfl⟩ := hp
  exact h ⟨[], q, rfl⟩

theorem indexOf_channels_first (p rest : QString) (h : ¬ "channels/".toList <:+: p) :
    QString.indexOf (p ++ "channels/".toList ++ rest) "channels/".toList = p.length := by
  induction p with
  | nil =>
    show QString.indexOf ('c' :: ("hannels/".toList ++ rest)) "channels/".toList = 0
    have : "channels/".toList.isPrefixOf ('c' :: ("hannels/".toList ++ rest)) = true := by
      simp [List.isPrefixOf]
    rw [QString.indexOf, if_pos this]
  | cons x xs ih =>
    have h1 := channels_no_straddle (x :: xs) rest (List.cons_ne_nil _ _) h
    have h2 : ¬ "channels/".toList <:+: xs := fun hi => h (List.infix_cons hi)
    have h0 : (0 : Int) ≤ (xs.length : Int) := Int.ofNat_nonneg _
    show QString.indexOf (x :: (xs ++ "channels/".toList ++ rest)) "channels/".toList = _
    rw [QString.indexOf]
    rw [show x :: (xs ++ "channels/".toList ++ rest) = (x :: xs) ++ "channels/".toList ++ rest
      from rfl, h1]
    simp only [ih h2]
    simp [h0]

theorem indexOfChar0_not_mem (s : QString) (c : Char) (h : c ∉ s) :
    QString.indexOfChar0 s c = -1 := by
  induction s with
  | nil => rfl
  | cons x xs ih =>
    have hx : x ≠ c := fun e => h (e ▸ List.mem_cons_self _ _)
    have hxs : c ∉ xs := fun m => h (List.mem_cons_of_mem _ m)
    simp [QString.indexOfChar0, ih hxs, hx]

theorem indexOfChar0_append_cons (d t : QString) (c : Char) (h : c ∉ d) :
    QString.indexOfChar0 (d ++ c :: t) c = d.length := by
  induction d with
  | nil => simp [QString.indexOfChar0]
  | cons x xs ih =>
    have hx : x ≠ c := fun e => h (e ▸ List.mem_cons_self _ _)
    have hxs : c ∉ xs := fun m => h (List.mem_cons_of_mem _ m)
    have h0 : (0 : Int) ≤ (xs.length : Int) := Int.ofNat_nonneg _
    show QString.indexOfChar0 (x :: (xs ++ c :: t)) c = _
    rw [QString.indexOfChar0]
    simp only [ih hxs]
    simp [hx, h0]

/-- `indexOf(c, from)` at a position inside the string looks at the text from there on. -/
theorem indexOfChar_at (a b : QString) (c : Char) (hb : b ≠ []) :
    QString.indexOfChar (a ++ b) c (a.length : Int)
      = (if 0 ≤ QString.indexOfChar0 b c then QString.indexOfChar0 b c + a.length else -1) := by
  unfold QString.indexOfChar
  have h0 : ¬ ((a.length : Int) < 0) := by omega
  have hb' : 0 < b.length := List.length_pos.mpr hb
  have h1 : (a.length : Int) < ((a ++ b).length : Int) := by
    simp only [List.length_append, Nat.cast_add]; omega
  simp only [h0, if_false, h1, if_true, Int.toNat_ofNat, List.drop_left]

theorem indexOfChar_at_end (a : QString) (c : Char) :
    QString.indexOfChar a c (a.length : Int) = -1 := by
  unfold QString.indexOfChar
  have h0 : ¬ ((a.length : Int) < 0) := by omega
  simp [h0]


/-! ## parseChannelId -/

/-- C7: for every string `p` that does not contain "channels/", every non-empty
string `d` of decimal digits whose value fits a 32-bit signed integer and every
string `t`, `parseChannelId (p ++ "channels/" ++ d ++ "/" ++ t)` is the value of `d`. -/
theorem parseChannelId_digits_after_channels (p d t : QString)
    (hp : ¬ "channels/".toList <:+: p) (hne : d ≠ [])
    (hd : d.all Char.isDigit = true) (hmax : (digitsValue d : Int) ≤ INT_MAX) :
    ProgrammeFeedParser.parseChannelId (p ++ "channels/".toList ++ d ++ "/".toList ++ t)
      = (digitsValue d : Int) := by
  have hsl : '/' ∉ d := not_mem_of_all_digits d '/' hd (by decide)
  have hs : p ++ "channels/".toList ++ d ++ "/".toList ++ t
      = (p ++ "channels/".toList) ++ d ++ ('/' :: t) := by simp
  have hlen : (((p ++ "channels/".toList).length : Nat) : Int) = (p.length : Int) + 9 := by
    simp [List.length_append]
  unfold ProgrammeFeedParser.parseChannelId
  rw [hs]
  have hidx : QString.indexOf ((p ++ "channels/".toList) ++ d ++ ('/' :: t)) "channels/".toList
      = p.length := by
    rw [List.append_assoc (p ++ "channels/".toList)]
    exact indexOf_channels_first p (d ++ '/' :: t) hp
  have h0 : ¬ ((p.length : Int) < 0) := by omega
  simp only [hidx, h0, if_false]
  have hpos2 : QString.indexOfChar ((p ++ "channels/".toList) ++ d ++ ('/' :: t)) '/'
      ((p.length : Int) + 9) = (d.length : Int) + ((p.length : Int) + 9) := by
    rw [← hlen, List.append_assoc (p ++ "channels/".toList),
      indexOfChar_at _ _ _ (by simp), indexOfChar0_append_cons d t '/' hsl]
    have : (0 : Int) ≤ (d.length : Int) := Int.ofNat_nonneg _
    simp [this]
  have h1 : ¬ ((d.length : Int) + ((p.length : Int) + 9) < 0) := by omega
  simp only [hpos2, h1, if_false]
  have hsub : (d.length : Int) + ((p.length : Int) + 9) - ((p.length : Int) + 9) = d.length := by
    omega
  rw [hsub, ← hlen, mid_slice, toInt_digits d hne hd hmax]

set_option maxRecDepth 100000 in
/-- C7 at the link of the source comment. -/
theorem parseChannelId_digits_after_channels_witness :
    ProgrammeFeedParser.parseChannelId
      "http://tvkaista.com/feed/channels/1855486/flv.mediarss".toList = 1855486 :=
  parseChannelId_digits_after_channels "http://tvkaista.com/feed/".toList "1855486".toList
    "flv.mediarss".toList (by decide) (by decide) (by decide) (by decide)

/-- No "/" at or after a position inside the string: `indexOf` finds none. -/
theorem indexOfChar_none (a b : QString) (c : Char) (h : c ∉ b) :
    QString.indexOfChar (a ++ b) c (a.length : Int) = -1 := by
  by_cases hb : b = []
  · subst hb
    rw [List.append_nil]
    exact indexOfChar_at_end a c
  · rw [indexOfChar_at a b c hb, indexOfChar0_not_mem b c h]
    rfl

/-- C8: `parseChannelId` always returns a value, and the value is -1 when the
string does not contain "channels/", when no "/" follows the first "channels/",
and when the text between the first "channels/" and the next "/" does not
convert to an integer; "http://x/feed/channels/1855486" and "channels//x" give -1. -/
theorem parseChannelId_sentinel (s : QString) :
    (∃ n : Int, ProgrammeFeedParser.parseChannelId s = n)
    ∧ (¬ "channels/".toList <:+: s → ProgrammeFeedParser.parseChannelId s = -1)
    ∧ (∀ p r : QString, s = p ++ "channels/".toList ++ r → ¬ "channels/".toList <:+: p →
        '/' ∉ r → ProgrammeFeedParser.parseChannelId s = -1)
    ∧ (∀ p m t : QString, s = p ++ "channels/".toList ++ m ++ "/".toList ++ t →
        ¬ "channels/".toList <:+: p → '/' ∉ m → QString.toInt m = none →
        ProgrammeFeedParser.parseChannelId s = -1)
    ∧ ProgrammeFeedParser.parseChannelId "http://x/feed/channels/1855486".toList = -1
    ∧ ProgrammeFeedParser.parseChannelId "channels//x".toList = -1 := by
  refine ⟨⟨_, rfl⟩, ?_, ?_, ?_, by decide, by decide⟩
  · intro h
    unfold ProgrammeFeedParser.parseChannelId
    simp only [indexOf_absent s _ h]
    rw [if_pos (by omega)]
  · intro p r hs hp hr
    subst hs
    have hlen : (((p ++ "channels/".toList).length : Nat) : Int) = (p.length : Int) + 9 := by
      simp [List.length_append]
    unfold ProgrammeFeedParser.parseChannelId
    have h0 : ¬ ((p.length : Int) < 0) := by omega
    simp only [indexOf_channels_first p r hp, h0, if_false]
    rw [← hlen, indexOfChar_none _ r '/' hr]
    simp
  · intro p m t hs hp hm hnone
    have hs' : s = (p ++ "channels/".toList) ++ m ++ ('/' :: t) := by rw [hs]; simp
    subst hs'
    have hlen : (((p ++ "channels/".toList).length : Nat) : Int) = (p.length : Int) + 9 := by
      simp [List.length_append]
    unfold ProgrammeFeedParser.parseChannelId
    have hidx : QString.indexOf ((p ++ "channels/".toList) ++ m ++ ('/' :: t))
        "channels/".toList = p.length := by
      rw [List.append_assoc (p ++ "channels/".toList)]
      exact indexOf_channels_first p (m ++ '/' :: t) hp
    have h0 : ¬ ((p.length : Int) < 0) := by omega
    simp only [hidx, h0, if_false]
    have hpos2 : QString.indexOfChar ((p ++ "channels/".toList) ++ m ++ ('/' :: t)) '/'
        ((p.length : Int) + 9) = (m.length : Int) + ((p.length : Int) + 9) := by
      rw [← hlen, List.append_assoc (p ++ "channels/".toList),
        indexOfChar_at _ _ _ (by simp), indexOfChar0_append_cons m t '/' hm]
      have : (0 : Int) ≤ (m.length : Int) := Int.ofNat_nonneg _
      simp [this]
    have h1 : ¬ ((m.length : Int) + ((p.length : Int) + 9) < 0) := by omega
    simp only [hpos2, h1, if_false]
    have hsub : (m.length : Int) + ((p.length : Int) + 9) - ((p.length : Int) + 9)
        = m.length := by omega
    rw [hsub, ← hlen, mid_slice, hnone]

set_option maxRecDepth 100000 in
/-- C8 at "http://x/feed" (no "channels/"), at "http://x/feed/channels/1855486"
(no "/" after the digits) and at "channels//x" (empty text between). -/
theorem parseChannelId_sentinel_witness :
    ProgrammeFeedParser.parseChannelId "http://x/feed".toList = -1
    ∧ ProgrammeFeedParser.parseChannelId "http://x/feed/channels/1855486".toList = -1
    ∧ ProgrammeFeedParser.parseChannelId "channels//x".toList = -1 :=
  ⟨(parseChannelId_sentinel "http://x/feed".toList).2.1 (by decide),
   (parseChannelId_sentinel "http://x/feed/channels/1855486".toList).2.2.1
      "http://x/feed/".toList "1855486".toList (by decide) (by decide) (by decide),
   (parseChannelId_sentinel "channels//x".toList).2.2.2.1
      [] [] "x".toList (by decide) (by decide) (by decide) (by decide)⟩

section

variable [QCharTables]

/-! ## QChar -/

theorem rxDigit_ascii (c : Char) (h : c.toNat < 128) : rxDigit c = c.isDigit :=
  QCharTables.isDigit_ascii c h

theorem rxDigit_of_isDigit (c : Char) (h : c.isDigit = true) : rxDigit c = true := by
  have h' := (isDigit_iff_toNat c).mp h
  rw [rxDigit_ascii c (by omega), h]

theorem all_rxDigit_of_isDigit (d : QString) (h : d.all Char.isDigit = true) :
    d.all rxDigit = true := by
  rw [List.all_eq_true] at h ⊢
  intro c hc
  exact rxDigit_of_isDigit c (h c hc)

theorem rxWord_ascii (c : Char) (h : c.toNat < 128) :
    rxWord c = (c.isAlphanum || c == '_') := by
  unfold rxWord
  rw [QCharTables.isLetterOrNumber_ascii c h, QCharTables.isMark_ascii c h, Bool.or_false]

theorem all_rxWord_ascii (w : QString)
    (h : w.all (fun c => decide (c.toNat < 128) && (c.isAlphanum || c == '_')) = true) :
    w.all rxWord = true := by
  rw [List.all_eq_true] at h ⊢
  intro c hc
  have hc' := h c hc
  rw [Bool.and_eq_true, decide_eq_true_eq] at hc'
  rw [rxWord_ascii c hc'.1]
  exact hc'.2

theorem takeWhile_rxDigit_space (t : QString) : (' ' :: t).takeWhile rxDigit = [] := by
  have h : rxDigit ' ' = false := by rw [rxDigit_ascii ' ' (by decide)]; rfl
  simp [List.takeWhile, h]

theorem takeWhile_rxDigit_colon (t : QString) : (':' :: t).takeWhile rxDigit = [] := by
  have h : rxDigit ':' = false := by rw [rxDigit_ascii ':' (by decide)]; rfl
  simp [List.takeWhile, h]

/-! ## QRegExp -/

theorem firstDown_top {α : Type} (f : Nat → Option α) (lo k : Nat) (r : α) (hlo : lo ≤ k)
    (hf : f k = some r) : firstDown f lo k = some r := by
  cases k with
  | zero =>
    have : lo = 0 := by omega
    simp [firstDown, this, hf]
  | succ k =>
    have : ¬ (k + 1 < lo) := by omega
    simp [firstDown, this, hf]

theorem firstDown_some {α : Type} (f : Nat → Option α) (lo k : Nat) (r : α)
    (h : firstDown f lo k = some r) : ∃ j, lo ≤ j ∧ j ≤ k ∧ f j = some r := by
  induction k with
  | zero =>
    unfold firstDown at h
    split at h
    · rename_i h0; exact ⟨0, by omega, le_refl _, h⟩
    · exact Option.noConfusion h
  | succ k ih =>
    unfold firstDown at h
    split at h
    · exact Option.noConfusion h
    · rename_i hlo
      cases hf : f (k + 1) with
      | some r' =>
        rw [hf] at h
        exact ⟨k + 1, by omega, le_refl _, by rw [hf]; exact h⟩
      | none =>
        rw [hf] at h
        obtain ⟨j, h1, h2, h3⟩ := ih h
        exact ⟨j, h1, by omega, h3⟩

theorem takeWhile_append_all {α : Type} (f : α → Bool) (a b : List α)
    (ha : a.all f = true) : (a ++ b).takeWhile f = a ++ b.takeWhile f := by
  induction a with
  | nil => rfl
  | cons x xs ih =>
    simp only [List.all_cons, Bool.and_eq_true] at ha
    simp [List.takeWhile, ha.1, ih ha.2]

/-- A group followed by the rest of the pattern: when the group text `cs` is in
the class, has an allowed length, and either fills the upper bound or is
followed by a character outside the class, the greedy choice is `cs`. -/
theorem rxMatchHere_cap (cls : Char → Bool) (lo : Nat) (hi : Option Nat) (rest : List RxItem)
    (cs tail : QString) (caps : List QString)
    (hcs : cs.all cls = true) (hlo : lo ≤ cs.length)
    (hstop : hi = some cs.length
      ∨ ((∀ h, hi = some h → cs.length ≤ h) ∧ tail.takeWhile cls = []))
    (hrest : rxMatchHere rest tail = some caps) :
    rxMatchHere (RxItem.cap cls lo hi :: rest) (cs ++ tail) = some (cs :: caps) := by
  have havail : ((cs ++ tail).takeWhile cls).length = cs.length + (tail.takeWhile cls).length := by
    rw [takeWhile_append_all cls cs tail hcs, List.length_append]
  have hfin : (rxMatchHere rest ((cs ++ tail).drop cs.length)).map
      (fun caps => (cs ++ tail).take cs.length :: caps) = some (cs :: caps) := by
    simp [List.drop_left, List.take_left, hrest]
  cases hi with
  | none =>
    have h2 : tail.takeWhile cls = [] := by
      rcases hstop with h | ⟨_, h2⟩
      · exact Option.noConfusion h
      · exact h2
    simp only [rxMatchHere, havail, h2, List.length_nil, Nat.add_zero]
    exact firstDown_top _ _ _ _ hlo hfin
  | some h =>
    have htop : min h ((cs ++ tail).takeWhile cls).length = cs.length := by
      rcases hstop with h0 | ⟨h1, h2⟩
      · cases h0
        rw [havail]; omega
      · have := h1 h rfl
        rw [havail, h2, List.length_nil]; omega
    simp only [rxMatchHere, htop]
    exact firstDown_top _ _ _ _ hlo hfin

theorem rxMatchHere_lit (c : Char) (rest : List RxItem) (tail : QString) :
    rxMatchHere (RxItem.lit c :: rest) (c :: tail) = rxMatchHere rest tail := by
  simp [rxMatchHere]

theorem dateTimeText_nested (D Mon Y H M S t : QString) :
    dateTimeText D Mon Y H M S ++ t
      = D ++ ' ' :: (Mon ++ ' ' :: (Y ++ ' ' :: (H ++ ':' :: (M ++ ':' :: (S ++ t))))) := by
  simp [dateTimeText]

/-- The date-time pattern matches a text "D Mon YYYY HH:MM:SS" at its head,
whatever follows it, and the groups are the six fields. -/
theorem dateTime_matchHere (D Mon Y H M S t : QString) (hf : dateTimeFields D Mon Y H M S) :
    rxMatchHere ProgrammeFeedParser.m_dateTimeRegexp.items (dateTimeText D Mon Y H M S ++ t)
      = some [D, Mon, Y, H, M, S] := by
  obtain ⟨⟨hD, hD1, hD2⟩, ⟨hMon, hMonl⟩, ⟨hY, hY1⟩, ⟨hH, hHl⟩, ⟨hM, hMl⟩, ⟨hS, hSl⟩⟩ := hf
  rw [dateTimeText_nested]
  unfold ProgrammeFeedParser.m_dateTimeRegexp
  apply rxMatchHere_cap _ _ _ _ _ _ _ hD hD1
    (Or.inr ⟨fun h hh => by cases hh; exact hD2, takeWhile_rxDigit_space _⟩)
  rw [rxMatchHere_lit]
  apply rxMatchHere_cap _ _ _ _ _ _ _ hMon (by omega) (Or.inl (by rw [hMonl]))
  rw [rxMatchHere_lit]
  apply rxMatchHere_cap _ _ _ _ _ _ _ hY hY1
    (Or.inr ⟨fun h hh => Option.noConfusion hh, takeWhile_rxDigit_space _⟩)
  rw [rxMatchHere_lit]
  apply rxMatchHere_cap _ _ _ _ _ _ _ hH (by omega) (Or.inl (by rw [hHl]))
  rw [rxMatchHere_lit]
  apply rxMatchHere_cap _ _ _ _ _ _ _ hM (by omega) (Or.inl (by rw [hMl]))
  rw [rxMatchHere_lit]
  apply rxMatchHere_cap _ _ _ _ _ _ _ hS (by omega) (Or.inl (by rw [hSl]))
  simp [rxMatchHere]

theorem rxSearch_head (items : List RxItem) (s : QString) (caps : List QString)
    (h : rxMatchHere items s = some caps) : rxSearch items s = some (0, caps) := by
  cases s with
  | nil => simp [rxSearch, h]
  | cons x xs => simp [rxSearch, h]

theorem monthNumber_of_monthNames (Mon : QString) (h : Mon ∈ monthNames) :
    ProgrammeFeedParser.monthNumber Mon = some ((monthNames.indexOf Mon : Nat) + 1 : Int) := by
  simp only [monthNames, List.mem_cons, List.mem_singleton, List.not_mem_nil, or_false] at h
  rcases h with h | h | h | h | h | h | h | h | h | h | h | h <;> subst h <;> decide

theorem monthNumber_none (Mon : QString) (h : Mon ∉ monthNames) :
    ProgrammeFeedParser.monthNumber Mon = none := by
  simp only [monthNames, List.mem_cons, List.mem_singleton, List.not_mem_nil, or_false,
    not_or] at h
  obtain ⟨h1, h2, h3, h4, h5, h6, h7, h8, h9, h10, h11, h12⟩ := h
  unfold ProgrammeFeedParser.monthNumber
  rw [if_neg h1, if_neg h2, if_neg h3, if_neg h4, if_neg h5, if_neg h6, if_neg h7, if_neg h8,
    if_neg h9, if_neg h10, if_neg h11, if_neg h12]

theorem isValidYMD_of_existingDate (y m d : Int) (h : existingDate y m d) :
    QDate.isValidYMD y m d = true := by
  obtain ⟨hy, hm1, hm12, hd1, hd⟩ := h
  have hy0 : y ≠ 0 := by omega
  have hy1 : ¬ (y < 1) := by omega
  unfold QDate.isValidYMD
  simp only [hy0, if_false, Bool.and_eq_true, Bool.or_eq_true, decide_eq_true_eq]
  refine ⟨⟨⟨by omega, by omega⟩, hm12⟩, ?_⟩
  unfold daysInMonth at hd
  unfold QDate.monthDays QDate.isLeapYear
  simp only [hy1, if_false]
  by_cases h2 : m = 2
  · simp only [h2, if_true] at hd ⊢
    by_cases hleap : (y % 4 = 0 ∧ y % 100 ≠ 0) ∨ y % 400 = 0
    · rw [if_pos hleap] at hd
      by_cases h29 : d = 29
      · right
        refine ⟨⟨h29, trivial⟩, ?_⟩
        simpa using hleap
      · left; omega
    · rw [if_neg hleap] at hd
      left; exact hd
  · simp only [h2, if_false] at hd ⊢
    left; exact hd

theorem monthNames_fields (Mon : QString) (h : Mon ∈ monthNames) :
    Mon.all rxWord = true ∧ Mon.length = 3 := by
  simp only [monthNames, List.mem_cons, List.mem_singleton, List.not_mem_nil, or_false] at h
  rcases h with h | h | h | h | h | h | h | h | h | h | h | h <;> subst h <;>
    exact ⟨all_rxWord_ascii _ (by decide), by decide⟩

theorem daysInMonth_le (y m : Int) : daysInMonth y m ≤ 31 := by
  unfold daysInMonth
  split_ifs <;> omega

theorem toIntD_digits (d : QString) (hne : d ≠ []) (hd : d.all Char.isDigit = true)
    (hmax : (digitsValue d : Int) ≤ INT_MAX) : QString.toIntD d = (digitsValue d : Int) := by
  unfold QString.toIntD
  rw [toInt_digits d hne hd hmax]
  rfl

theorem ne_nil_of_length_pos (d : QString) (h : 1 ≤ d.length) : d ≠ [] := by
  intro e; subst e; simp at h

/-- What `parseDateTime` computes once the pattern has matched at the head of
the string with the six fields as groups. -/
theorem parseDateTime_of_match (s D Mon Y H M S : QString)
    (h : rxMatchHere ProgrammeFeedParser.m_dateTimeRegexp.items s = some [D, Mon, Y, H, M, S]) :
    ProgrammeFeedParser.parseDateTime s =
      match ProgrammeFeedParser.monthNumber Mon with
      | none => QDateTime.null
      | some month =>
        QDateTime.toLocalTime
          (QDateTime.ofDateTime (QDate.ofYMD (QString.toIntD Y) month (QString.toIntD D))
            (QTime.ofHMS (QString.toIntD H) (QString.toIntD M) (QString.toIntD S))
            TimeSpec.UTC) := by
  have hs := rxSearch_head _ _ _ h
  unfold ProgrammeFeedParser.parseDateTime QRegExp.indexIn
  have hc : ProgrammeFeedParser.m_dateTimeRegexp.caret = false := rfl
  simp only [hc, hs, Option.map_some', RxMatch.cap]
  rfl

/-- The six fields have the shape the date-time pattern asks for when the
numbers are written with the digits 0 to 9 and the month word with ASCII word
characters. -/
theorem dateTimeFields_ascii (D Mon Y H M S : QString)
    (hD : D.all Char.isDigit = true ∧ 1 ≤ D.length ∧ D.length ≤ 2)
    (hMon : Mon.all (fun c => decide (c.toNat < 128) && (c.isAlphanum || c == '_')) = true
      ∧ Mon.length = 3)
    (hY : Y.all Char.isDigit = true ∧ 1 ≤ Y.length)
    (hH : H.all Char.isDigit = true ∧ H.length = 2)
    (hM : M.all Char.isDigit = true ∧ M.length = 2)
    (hS : S.all Char.isDigit = true ∧ S.length = 2) : dateTimeFields D Mon Y H M S :=
  ⟨⟨all_rxDigit_of_isDigit D hD.1, hD.2⟩, ⟨all_rxWord_ascii Mon hMon.1, hMon.2⟩,
    ⟨all_rxDigit_of_isDigit Y hY.1, hY.2⟩, ⟨all_rxDigit_of_isDigit H hH.1, hH.2⟩,
    ⟨all_rxDigit_of_isDigit M hM.1, hM.2⟩, ⟨all_rxDigit_of_isDigit S hS.1, hS.2⟩⟩

/-- A year that does not fit an `int`: whatever the tables, the timestamp
`parseDateTime` returns for "5 Jan 2147483648 10:00:00" has the null date. -/
theorem parseDateTime_year_overflow :
    (ProgrammeFeedParser.parseDateTime "5 Jan 2147483648 10:00:00".toList).date
      = QDate.null := by
  have hf : dateTimeFields "5".toList "Jan".toList "2147483648".toList "10".toList
      "00".toList "00".toList :=
    dateTimeFields_ascii _ _ _ _ _ _ (by decide) (by decide) (by decide) (by decide)
      (by decide) (by decide)
  have hm := dateTime_matchHere _ _ _ _ _ _ [] hf
  rw [List.append_nil] at hm
  have hs : "5 Jan 2147483648 10:00:00".toList
      = dateTimeText "5".toList "Jan".toList "2147483648".toList "10".toList "00".toList
          "00".toList := by decide
  rw [hs, parseDateTime_of_match _ _ _ _ _ _ _ hm]
  have hmon : ProgrammeFeedParser.monthNumber "Jan".toList = some 1 := by decide
  have hy : QString.toIntD "2147483648".toList = 0 := by decide
  have hd : QString.toIntD "5".toList = 5 := by decide
  simp only [hmon, hy, hd]
  rfl

/-- C9, amended: for every text "D Mon YYYY HH:MM:SS" written with the digits 0
to 9, with D of 1 or 2 digits, Mon one of Jan..Dec, a year from 1583 to 9999,
HH, MM, SS of 2 digits each, whose fields denote an existing calendar date and a
time of day, `parseDateTime` returns a non-null timestamp whose instant has, in
UTC, the year YYYY, the month at the position of Mon in Jan..Dec, the day D, and
the valid time HH:MM:SS. -/
theorem parseDateTime_valid (D Mon Y H M S : QString)
    (hD : D.all Char.isDigit = true) (hDl : 1 ≤ D.length ∧ D.length ≤ 2)
    (hMon : Mon ∈ monthNames)
    (hY : Y.all Char.isDigit = true) (hYl : 1 ≤ Y.length)
    (hH : H.all Char.isDigit = true) (hHl : H.length = 2)
    (hM : M.all Char.isDigit = true) (hMl : M.length = 2)
    (hS : S.all Char.isDigit = true) (hSl : S.length = 2)
    (hyear : 1583 ≤ digitsValue Y ∧ digitsValue Y ≤ 9999)
    (hdate : existingDate (digitsValue Y) ((monthNames.indexOf Mon : Nat) + 1) (digitsValue D))
    (htime : digitsValue H < 24 ∧ digitsValue M < 60 ∧ digitsValue S < 60) :
    ProgrammeFeedParser.parseDateTime (dateTimeText D Mon Y H M S) ≠ QDateTime.null
    ∧ (ProgrammeFeedParser.parseDateTime (dateTimeText D Mon Y H M S)).date
        = QDate.valid (digitsValue Y) ((monthNames.indexOf Mon : Nat) + 1) (digitsValue D)
    ∧ (ProgrammeFeedParser.parseDateTime (dateTimeText D Mon Y H M S)).time.isValid = true
    ∧ (ProgrammeFeedParser.parseDateTime (dateTimeText D Mon Y H M S)).time.isNull = false
    ∧ (ProgrammeFeedParser.parseDateTime (dateTimeText D Mon Y H M S)).time.hour
        = (digitsValue H : Int)
    ∧ (ProgrammeFeedParser.parseDateTime (dateTimeText D Mon Y H M S)).time.minute
        = (digitsValue M : Int)
    ∧ (ProgrammeFeedParser.parseDateTime (dateTimeText D Mon Y H M S)).time.second
        = (digitsValue S : Int) := by
  have hf : dateTimeFields D Mon Y H M S :=
    ⟨⟨all_rxDigit_of_isDigit D hD, hDl.1, hDl.2⟩, monthNames_fields Mon hMon,
      ⟨all_rxDigit_of_isDigit Y hY, hYl⟩, ⟨all_rxDigit_of_isDigit H hH, hHl⟩,
      ⟨all_rxDigit_of_isDigit M hM, hMl⟩, ⟨all_rxDigit_of_isDigit S hS, hSl⟩⟩
  have hm := dateTime_matchHere D Mon Y H M S [] hf
  rw [List.append_nil] at hm
  have hd31 : (digitsValue D : Int) ≤ 31 := le_trans hdate.2.2.2.2 (daysInMonth_le _ _)
  obtain ⟨hh, hmi, hs⟩ := htime
  have e1 := toIntD_digits D (ne_nil_of_length_pos D hDl.1) hD (by unfold INT_MAX; omega)
  have e2 := toIntD_digits Y (ne_nil_of_length_pos Y hYl) hY (by unfold INT_MAX; omega)
  have e3 := toIntD_digits H (ne_nil_of_length_pos H (by omega)) hH (by unfold INT_MAX; omega)
  have e4 := toIntD_digits M (ne_nil_of_length_pos M (by omega)) hM (by unfold INT_MAX; omega)
  have e5 := toIntD_digits S (ne_nil_of_length_pos S (by omega)) hS (by unfold INT_MAX; omega)
  have hval : QTime.isValidHMS (digitsValue H) (digitsValue M) (digitsValue S) = true := by
    simp only [QTime.isValidHMS, Bool.and_eq_true, decide_eq_true_eq]
    omega
  have hcommon : QDate.commonYear (digitsValue Y) = true := by
    simp only [QDate.commonYear, Bool.and_eq_true, decide_eq_true_eq]
    omega
  have htv : (QTime.ofHMS (digitsValue H) (digitsValue M) (digitsValue S)).isValid = true := by
    simp only [QTime.ofHMS, hval, if_true, QTime.isValid, Bool.and_eq_true, decide_eq_true_eq]
    omega
  have hres : ProgrammeFeedParser.parseDateTime (dateTimeText D Mon Y H M S)
      = ⟨QDate.valid (digitsValue Y) ((monthNames.indexOf Mon : Nat) + 1) (digitsValue D),
         QTime.ofHMS (digitsValue H) (digitsValue M) (digitsValue S), TimeSpec.LocalTime⟩ := by
    rw [parseDateTime_of_match _ D Mon Y H M S hm, monthNumber_of_monthNames Mon hMon]
    simp only [e1, e2, e3, e4, e5, QDate.ofYMD, hcommon,
      isValidYMD_of_existingDate _ _ _ hdate, if_true, QDateTime.ofDateTime, htv,
      QDateTime.toLocalTime]
  rw [hres]
  refine ⟨?_, rfl, htv, ?_, ?_, ?_, ?_⟩
  · intro hnull
    have := congrArg QDateTime.date hnull
    exact QDate.noConfusion this
  · simp only [QTime.ofHMS, hval, if_true, QTime.isNull]
    rw [beq_eq_false_iff_ne]; omega
  · simp only [QTime.ofHMS, hval, if_true, QTime.hour]; omega
  · simp only [QTime.ofHMS, hval, if_true, QTime.minute]; omega
  · simp only [QTime.ofHMS, hval, if_true, QTime.second]; omega

theorem all_take_of_le_takeWhile {α : Type} (f : α → Bool) (s : List α) (j : Nat)
    (h : j ≤ (s.takeWhile f).length) : (s.take j).all f = true := by
  induction s generalizing j with
  | nil => simp
  | cons x xs ih =>
    cases j with
    | zero => simp
    | succ j =>
      cases hx : f x with
      | false => simp [List.takeWhile, hx] at h
      | true =>
        simp only [List.takeWhile, hx, List.length_cons] at h
        simp only [List.take_succ_cons, List.all_cons, hx, Bool.true_and]
        exact ih j (by omega)

theorem rxMatchHere_cap_some (cls : Char → Bool) (lo : Nat) (hi : Option Nat)
    (rest : List RxItem) (s : QString) (caps : List QString)
    (h : rxMatchHere (RxItem.cap cls lo hi :: rest) s = some caps) :
    ∃ cs tail caps', s = cs ++ tail ∧ caps = cs :: caps' ∧ cs.all cls = true ∧ lo ≤ cs.length
      ∧ (∀ n, hi = some n → cs.length ≤ n) ∧ rxMatchHere rest tail = some caps' := by
  simp only [rxMatchHere] at h
  obtain ⟨j, hlo, htop, hf⟩ := firstDown_some _ _ _ _ h
  cases hr : rxMatchHere rest (s.drop j) with
  | none => simp [hr] at hf
  | some caps' =>
    simp only [hr, Option.map_some', Option.some.injEq] at hf
    have hjavail : j ≤ (s.takeWhile cls).length := by
      cases hi with
      | none => exact htop
      | some n => simp only at htop; omega
    have hjlen : j ≤ s.length := le_trans hjavail (by
      exact (List.takeWhile_sublist (l := s) cls).length_le)
    refine ⟨s.take j, s.drop j, caps', (List.take_append_drop j s).symm, hf.symm,
      all_take_of_le_takeWhile cls s j hjavail, ?_, ?_, hr⟩
    · rw [List.length_take]; omega
    · intro n hn
      subst hn
      simp only at htop
      rw [List.length_take]; omega

theorem rxMatchHere_lit_some (c : Char) (rest : List RxItem) (s : QString)
    (caps : List QString) (h : rxMatchHere (RxItem.lit c :: rest) s = some caps) :
    ∃ tail, s = c :: tail ∧ rxMatchHere rest tail = some caps := by
  cases s with
  | nil => simp [rxMatchHere] at h
  | cons x xs =>
    simp only [rxMatchHere] at h
    split at h
    · rename_i hx; subst hx; exact ⟨xs, rfl, h⟩
    · exact Option.noConfusion h

/-- Whenever the date-time pattern matches at the head of a string, the string
starts with a text "D Mon YYYY HH:MM:SS" whose fields are the groups. -/
theorem dateTime_matchHere_sound (s : QString) (caps : List QString)
    (h : rxMatchHere ProgrammeFeedParser.m_dateTimeRegexp.items s = some caps) :
    ∃ D Mon Y H M S t, caps = [D, Mon, Y, H, M, S] ∧ s = dateTimeText D Mon Y H M S ++ t
      ∧ dateTimeFields D Mon Y H M S := by
  unfold ProgrammeFeedParser.m_dateTimeRegexp at h
  obtain ⟨D, t1, c1, rfl, rfl, hD, hD1, hD2, g1⟩ := rxMatchHere_cap_some _ _ _ _ _ _ h
  obtain ⟨t2, rfl, g2⟩ := rxMatchHere_lit_some _ _ _ _ g1
  obtain ⟨Mon, t3, c2, rfl, rfl, hMon, hMon1, hMon2, g3⟩ := rxMatchHere_cap_some _ _ _ _ _ _ g2
  obtain ⟨t4, rfl, g4⟩ := rxMatchHere_lit_some _ _ _ _ g3
  obtain ⟨Y, t5, c3, rfl, rfl, hY, hY1, _, g5⟩ := rxMatchHere_cap_some _ _ _ _ _ _ g4
  obtain ⟨t6, rfl, g6⟩ := rxMatchHere_lit_some _ _ _ _ g5
  obtain ⟨H, t7, c4, rfl, rfl, hH, hH1, hH2, g7⟩ := rxMatchHere_cap_some _ _ _ _ _ _ g6
  obtain ⟨t8, rfl, g8⟩ := rxMatchHere_lit_some _ _ _ _ g7
  obtain ⟨M, t9, c5, rfl, rfl, hM, hM1, hM2, g9⟩ := rxMatchHere_cap_some _ _ _ _ _ _ g8
  obtain ⟨t10, rfl, g10⟩ := rxMatchHere_lit_some _ _ _ _ g9
  obtain ⟨S, t11, c6, rfl, rfl, hS, hS1, hS2, g11⟩ := rxMatchHere_cap_some _ _ _ _ _ _ g10
  simp only [rxMatchHere, Option.some.injEq] at g11
  subst g11
  refine ⟨D, Mon, Y, H, M, S, t11, rfl, ?_, ?_⟩
  · rw [dateTimeText_nested]
  · have a2 := hD2 2 rfl
    have a3 := hMon2 3 rfl
    have a4 := hH2 2 rfl
    have a5 := hM2 2 rfl
    have a6 := hS2 2 rfl
    exact ⟨⟨hD, hD1, a2⟩, ⟨hMon, by omega⟩, ⟨hY, hY1⟩, ⟨hH, by omega⟩, ⟨hM, by omega⟩,
      ⟨hS, by omega⟩⟩

theorem rxSearch_sound (items : List RxItem) (s : QString) (r : Nat × List QString)
    (h : rxSearch items s = some r) :
    ∃ p tail, s = p ++ tail ∧ rxMatchHere items tail = some r.2 := by
  induction s generalizing r with
  | nil =>
    simp only [rxSearch] at h
    cases hm : rxMatchHere items [] with
    | none => simp [hm] at h
    | some caps =>
      simp only [hm, Option.map_some', Option.some.injEq] at h
      subst h
      exact ⟨[], [], rfl, hm⟩
  | cons x xs ih =>
    simp only [rxSearch] at h
    cases hm : rxMatchHere items (x :: xs) with
    | some caps =>
      simp only [hm, Option.some.injEq] at h
      subst h
      exact ⟨[], x :: xs, rfl, hm⟩
    | none =>
      simp only [hm] at h
      cases hr : rxSearch items xs with
      | none => simp [hr] at h
      | some r' =>
        simp only [hr, Option.map_some', Option.some.injEq] at h
        subst h
        obtain ⟨p, tail, hs, ht⟩ := ih r' hr
        exact ⟨x :: p, tail, by rw [hs]; rfl, ht⟩

/-- A match reported by `indexIn` for the date-time pattern is an occurrence of a
text "D Mon YYYY HH:MM:SS" in the string. -/
theorem indexIn_dateTime_sound (s : QString) (m : RxMatch)
    (h : ProgrammeFeedParser.m_dateTimeRegexp.indexIn s = some m) :
    ∃ p t D Mon Y H M S, s = p ++ dateTimeText D Mon Y H M S ++ t
      ∧ dateTimeFields D Mon Y H M S ∧ m.caps = [D, Mon, Y, H, M, S] := by
  unfold QRegExp.indexIn at h
  have hc : ProgrammeFeedParser.m_dateTimeRegexp.caret = false := rfl
  simp only [hc] at h
  cases hr : rxSearch ProgrammeFeedParser.m_dateTimeRegexp.items s with
  | none => simp [hr] at h
  | some r =>
    simp only [hr, Option.map_some', Option.some.injEq, Bool.false_eq_true, if_false] at h
    subst h
    obtain ⟨p, tail, hs, ht⟩ := rxSearch_sound _ _ _ hr
    obtain ⟨D, Mon, Y, H, M, S, t, hcaps, htail, hf⟩ := dateTime_matchHere_sound _ _ ht
    exact ⟨p, t, D, Mon, Y, H, M, S, by rw [hs, htail, List.append_assoc], hf, hcaps⟩

theorem rxSearch_complete (items : List RxItem) (p tail : QString) (caps : List QString)
    (h : rxMatchHere items tail = some caps) : ∃ r, rxSearch items (p ++ tail) = some r := by
  induction p with
  | nil => exact ⟨_, rxSearch_head items tail caps h⟩
  | cons x xs ih =>
    obtain ⟨r, hr⟩ := ih
    show ∃ r, rxSearch items (x :: (xs ++ tail)) = some r
    simp only [rxSearch]
    cases hm : rxMatchHere items (x :: (xs ++ tail)) with
    | some caps' => exact ⟨_, rfl⟩
    | none => exact ⟨_, by rw [hr]; rfl⟩

/-- The string contains a text "D Mon YYYY HH:MM:SS" exactly when `indexIn` finds
a match of the date-time pattern. -/
theorem containsDateTime_iff (s : QString) :
    containsDateTime s ↔ (ProgrammeFeedParser.m_dateTimeRegexp.indexIn s).isSome = true := by
  constructor
  · rintro ⟨p, t, D, Mon, Y, H, M, S, hs, hf⟩
    have hm := dateTime_matchHere D Mon Y H M S t hf
    obtain ⟨r, hr⟩ := rxSearch_complete _ p _ _ hm
    have hc : ProgrammeFeedParser.m_dateTimeRegexp.caret = false := rfl
    rw [hs, List.append_assoc]
    unfold QRegExp.indexIn
    simp [hc, hr]
  · intro h
    cases hm : ProgrammeFeedParser.m_dateTimeRegexp.indexIn s with
    | none => rw [hm] at h; exact Bool.noConfusion h
    | some m =>
      obtain ⟨p, t, D, Mon, Y, H, M, S, hs, hf, _⟩ := indexIn_dateTime_sound s m hm
      exact ⟨p, t, D, Mon, Y, H, M, S, hs, hf⟩

theorem dateTime_matchHere_nondigit (x : Char) (xs : QString) (hx : rxDigit x = false) :
    rxMatchHere ProgrammeFeedParser.m_dateTimeRegexp.items (x :: xs) = none := by
  unfold ProgrammeFeedParser.m_dateTimeRegexp
  simp [rxMatchHere, List.takeWhile, hx, firstDown]

/-- The search passes over a prefix without digits: a match starts with a digit. -/
theorem dateTime_search_skip (p w : QString) (hp : ∀ c ∈ p, rxDigit c = false) :
    (rxSearch ProgrammeFeedParser.m_dateTimeRegexp.items (p ++ w)).map Prod.snd
      = (rxSearch ProgrammeFeedParser.m_dateTimeRegexp.items w).map Prod.snd := by
  induction p with
  | nil => rfl
  | cons x xs ih =>
    have hx : rxDigit x = false := hp x (List.mem_cons_self _ _)
    have hxs : ∀ c ∈ xs, rxDigit c = false := fun c hc => hp c (List.mem_cons_of_mem _ hc)
    show (rxSearch _ (x :: (xs ++ w))).map Prod.snd = _
    simp only [rxSearch, dateTime_matchHere_nondigit x _ hx]
    rw [← ih hxs]
    cases rxSearch ProgrammeFeedParser.m_dateTimeRegexp.items (xs ++ w) <;> rfl

/-- The result of `parseDateTime` is a function of the groups of the leftmost match. -/
theorem parseDateTime_eq_of_caps (s : QString) :
    ProgrammeFeedParser.parseDateTime s =
      match (rxSearch ProgrammeFeedParser.m_dateTimeRegexp.items s).map Prod.snd with
      | none => QDateTime.null
      | some caps =>
        match ProgrammeFeedParser.monthNumber (caps.getD 1 []) with
        | none => QDateTime.null
        | some month =>
          QDateTime.toLocalTime
            (QDateTime.ofDateTime
              (QDate.ofYMD (QString.toIntD (caps.getD 2 [])) month
                (QString.toIntD (caps.getD 0 [])))
              (QTime.ofHMS (QString.toIntD (caps.getD 3 [])) (QString.toIntD (caps.getD 4 []))
                (QString.toIntD (caps.getD 5 []))) TimeSpec.UTC) := by
  unfold ProgrammeFeedParser.parseDateTime QRegExp.indexIn
  have hc : ProgrammeFeedParser.m_dateTimeRegexp.caret = false := rfl
  simp only [hc]
  cases rxSearch ProgrammeFeedParser.m_dateTimeRegexp.items s with
  | none => rfl
  | some r => rfl

/-- After a prefix without a character of the class `\d`, a text
"D Mon YYYY HH:MM:SS" whose month word is not one of Jan..Dec gives the null
timestamp. -/
theorem parseDateTime_null_of_month (p t D Mon Y H M S : QString)
    (hp : ∀ c ∈ p, rxDigit c = false) (hf : dateTimeFields D Mon Y H M S)
    (hmon : Mon ∉ monthNames) :
    ProgrammeFeedParser.parseDateTime (p ++ dateTimeText D Mon Y H M S ++ t)
      = QDateTime.null := by
  have hm := rxSearch_head _ _ _ (dateTime_matchHere D Mon Y H M S t hf)
  have hskip := dateTime_search_skip p (dateTimeText D Mon Y H M S ++ t) hp
  rw [hm] at hskip
  rw [parseDateTime_eq_of_caps, List.append_assoc, hskip]
  simp only [Option.map_some', List.getD_cons_succ, List.getD_cons_zero,
    monthNumber_none Mon hmon]

/-- C10: `parseDateTime` returns the null timestamp when the string contains no
match of the date-time pattern, and when the month word of the match is not one
of Jan..Dec (said once of the match `indexIn` reports, once of a text
"D Mon YYYY HH:MM:SS" that follows a prefix without a character of the class
`\d`); the comparison is case-sensitive: "5 Xyz 2020 10:00:00",
"5 jan 2020 10:00:00" and "5 JAN 2020 10:00:00" all give null. -/
theorem parseDateTime_null (s : QString) :
    (¬ containsDateTime s → ProgrammeFeedParser.parseDateTime s = QDateTime.null)
    ∧ (∀ m : RxMatch, ProgrammeFeedParser.m_dateTimeRegexp.indexIn s = some m →
        m.cap 2 ∉ monthNames → ProgrammeFeedParser.parseDateTime s = QDateTime.null)
    ∧ (∀ p t D Mon Y H M S : QString, s = p ++ dateTimeText D Mon Y H M S ++ t →
        (∀ c ∈ p, rxDigit c = false) → dateTimeFields D Mon Y H M S → Mon ∉ monthNames →
        ProgrammeFeedParser.parseDateTime s = QDateTime.null)
    ∧ ProgrammeFeedParser.parseDateTime "5 Xyz 2020 10:00:00".toList = QDateTime.null
    ∧ ProgrammeFeedParser.parseDateTime "5 jan 2020 10:00:00".toList = QDateTime.null
    ∧ ProgrammeFeedParser.parseDateTime "5 JAN 2020 10:00:00".toList = QDateTime.null := by
  have hex : ∀ Mon : QString,
      Mon.all (fun c => decide (c.toNat < 128) && (c.isAlphanum || c == '_')) = true
        ∧ Mon.length = 3 →
      Mon ∉ monthNames →
      ProgrammeFeedParser.parseDateTime
          ([] ++ dateTimeText "5".toList Mon "2020".toList "10".toList "00".toList "00".toList
            ++ [])
        = QDateTime.null := fun Mon hMon hno =>
    parseDateTime_null_of_month [] [] _ Mon _ _ _ _ (fun c hc => absurd hc (List.not_mem_nil c))
      (dateTimeFields_ascii _ _ _ _ _ _ (by decide) hMon (by decide) (by decide) (by decide)
        (by decide)) hno
  refine ⟨?_, ?_, ?_, hex "Xyz".toList (by decide) (by decide),
    hex "jan".toList (by decide) (by decide), hex "JAN".toList (by decide) (by decide)⟩
  · intro hno
    have hnone : ProgrammeFeedParser.m_dateTimeRegexp.indexIn s = none := by
      cases hm : ProgrammeFeedParser.m_dateTimeRegexp.indexIn s with
      | none => rfl
      | some m => exact absurd ((containsDateTime_iff s).mpr (by rw [hm]; rfl)) hno
    unfold ProgrammeFeedParser.parseDateTime
    rw [hnone]
  · intro m hm hmon
    unfold ProgrammeFeedParser.parseDateTime
    rw [hm]
    simp only [monthNumber_none _ hmon]
  · intro p t D Mon Y H M S hs hp hf hmon
    rw [hs]
    exact parseDateTime_null_of_month p t D Mon Y H M S hp hf hmon

/-! ## QXmlStreamReader: every call reads forward -/

theorem readNextStartElementFrom_length (ts : List Token) :
    (readNextStartElementFrom ts).2.pending.length ≤ ts.length
    ∧ ((readNextStartElementFrom ts).1 = true →
        (readNextStartElementFrom ts).2.pending.length < ts.length) := by
  induction ts with
  | nil => simp [readNextStartElementFrom, QXmlStreamReader.invalid]
  | cons t rest ih =>
    cases t <;> simp only [readNextStartElementFrom, List.length_cons] <;>
      exact ⟨by omega, fun h => by omega⟩

theorem skipFrom_length (depth : Nat) (cur : Option Token) (ts : List Token) :
    (skipFrom depth cur ts).pending.length ≤ ts.length := by
  induction ts generalizing depth cur with
  | nil => cases depth <;> simp [skipFrom, QXmlStreamReader.invalid]
  | cons t rest ih =>
    cases depth with
    | zero => simp [skipFrom]
    | succ d =>
      cases t <;> simp only [skipFrom, List.length_cons] <;>
        exact Nat.le_succ_of_le (ih _ _)

theorem readElementTextFrom_length (acc : QString) (ts : List Token) :
    (readElementTextFrom acc ts).2.pending.length ≤ ts.length := by
  induction ts generalizing acc with
  | nil => simp [readElementTextFrom, QXmlStreamReader.invalid]
  | cons t rest ih =>
    cases t <;> simp only [readElementTextFrom, List.length_cons, QXmlStreamReader.invalid,
      List.length_nil] <;>
      first
        | exact Nat.le_succ_of_le (ih _)
        | exact Nat.le_succ _
        | exact Nat.zero_le _

theorem readElementText_length (r : QXmlStreamReader) :
    r.readElementText.2.pending.length ≤ r.pending.length := by
  unfold QXmlStreamReader.readElementText
  split
  · exact readElementTextFrom_length _ _
  · exact le_refl _

theorem skipCurrentElement_length (r : QXmlStreamReader) :
    r.skipCurrentElement.pending.length ≤ r.pending.length :=
  skipFrom_length _ _ _

/-! ## The loops end within the fuel -/

theorem mediaGroupChild_reader (self : ProgrammeFeedParser) (programme : Programme) :
    (ProgrammeFeedParser.mediaGroupChild self programme).1.m_reader
      = self.m_reader.skipCurrentElement := by
  unfold ProgrammeFeedParser.mediaGroupChild
  split_ifs <;> (try split) <;> rfl

theorem parseMediaGroupElement_total (fuel : Nat) (self : ProgrammeFeedParser)
    (programme : Programme) (h : self.m_reader.pending.length < fuel) :
    ∃ r, ProgrammeFeedParser.parseMediaGroupElement fuel self programme = some r
      ∧ r.1.m_reader.pending.length ≤ self.m_reader.pending.length := by
  induction fuel generalizing self programme with
  | zero => exact absurd h (Nat.not_lt_zero _)
  | succ fuel ih =>
    unfold ProgrammeFeedParser.parseMediaGroupElement
    have hlen := readNextStartElementFrom_length self.m_reader.pending
    unfold QXmlStreamReader.readNextStartElement
    cases hr : readNextStartElementFrom self.m_reader.pending with
    | mk more reader =>
      rw [hr] at hlen
      cases more with
      | false => exact ⟨_, rfl, hlen.1⟩
      | true =>
        have hlt := hlen.2 rfl
        simp only at hlt ⊢
        cases hc : ProgrammeFeedParser.mediaGroupChild { self with m_reader := reader } programme with
        | mk self' programme' =>
          have hrd := mediaGroupChild_reader { self with m_reader := reader } programme
          rw [hc] at hrd
          simp only at hrd
          have hskip := skipCurrentElement_length reader
          obtain ⟨r, hr', hle⟩ := ih self' programme' (by rw [hrd]; omega)
          exact ⟨r, hr', by rw [hrd] at hle; omega⟩

theorem itemChild_total (fuel : Nat) (self : ProgrammeFeedParser) (programme : Programme)
    (h : self.m_reader.pending.length < fuel) :
    ∃ r, ProgrammeFeedParser.itemChild fuel self programme = some r
      ∧ r.1.m_reader.pending.length ≤ self.m_reader.pending.length := by
  unfold ProgrammeFeedParser.itemChild
  have ht := readElementText_length self.m_reader
  have hs := skipCurrentElement_length self.m_reader
  split_ifs
  · exact ⟨_, rfl, ht⟩
  · exact ⟨_, rfl, ht⟩
  · exact ⟨_, rfl, ht⟩
  · exact ⟨_, rfl, hs⟩
  · exact ⟨_, rfl, ht⟩
  · exact parseMediaGroupElement_total fuel self programme h
  · exact ⟨_, rfl, hs⟩

theorem parseItemLoop_total (fuel : Nat) (self : ProgrammeFeedParser)
    (programme : Programme) (h : self.m_reader.pending.length < fuel) :
    ∃ r, ProgrammeFeedParser.parseItemLoop fuel self programme = some r
      ∧ r.1.m_reader.pending.length ≤ self.m_reader.pending.length := by
  induction fuel generalizing self programme with
  | zero => exact absurd h (Nat.not_lt_zero _)
  | succ fuel ih =>
    unfold ProgrammeFeedParser.parseItemLoop
    have hlen := readNextStartElementFrom_length self.m_reader.pending
    unfold QXmlStreamReader.readNextStartElement
    cases hr : readNextStartElementFrom self.m_reader.pending with
    | mk more reader =>
      rw [hr] at hlen
      cases more with
      | false => exact ⟨_, rfl, hlen.1⟩
      | true =>
        have hlt := hlen.2 rfl
        simp only at hlt ⊢
        obtain ⟨r1, hr1, hle1⟩ := itemChild_total fuel { self with m_reader := reader } programme
          (by simp only; omega)
        simp only at hle1
        rw [hr1]
        obtain ⟨r, hr', hle⟩ := ih r1.1 r1.2 (by omega)
        exact ⟨r, hr', by omega⟩

theorem parseItemElement_total (newProgramme : Programme) (fuel : Nat)
    (self : ProgrammeFeedParser) (h : self.m_reader.pending.length < fuel) :
    ∃ r, ProgrammeFeedParser.parseItemElement newProgramme fuel self = some r
      ∧ r.m_reader.pending.length ≤ self.m_reader.pending.length := by
  unfold ProgrammeFeedParser.parseItemElement
  obtain ⟨r, hr, hle⟩ := parseItemLoop_total fuel self newProgramme h
  rw [hr]
  exact ⟨_, rfl, hle⟩

theorem channelChild_total (newProgramme : Programme) (fuel : Nat)
    (self : ProgrammeFeedParser) (h : self.m_reader.pending.length < fuel) :
    ∃ r, ProgrammeFeedParser.channelChild newProgramme fuel self = some r
      ∧ r.m_reader.pending.length ≤ self.m_reader.pending.length := by
  unfold ProgrammeFeedParser.channelChild
  split_ifs
  · exact parseItemElement_total newProgramme fuel self h
  · exact ⟨_, rfl, skipCurrentElement_length self.m_reader⟩

theorem parseChannelElement_total (newProgramme : Programme) (fuel : Nat)
    (self : ProgrammeFeedParser) (h : self.m_reader.pending.length < fuel) :
    ∃ r, ProgrammeFeedParser.parseChannelElement newProgramme fuel self = some r
      ∧ r.m_reader.pending.length ≤ self.m_reader.pending.length := by
  induction fuel generalizing self with
  | zero => exact absurd h (Nat.not_lt_zero _)
  | succ fuel ih =>
    unfold ProgrammeFeedParser.parseChannelElement
    have hlen := readNextStartElementFrom_length self.m_reader.pending
    unfold QXmlStreamReader.readNextStartElement
    cases hr : readNextStartElementFrom self.m_reader.pending with
    | mk more reader =>
      rw [hr] at hlen
      cases more with
      | false => exact ⟨_, rfl, hlen.1⟩
      | true =>
        have hlt := hlen.2 rfl
        simp only at hlt ⊢
        obtain ⟨r1, hr1, hle1⟩ := channelChild_total newProgramme fuel
          { self with m_reader := reader } (by simp only; omega)
        simp only at hle1
        rw [hr1]
        obtain ⟨r, hr', hle⟩ := ih r1 (by omega)
        exact ⟨r, hr', by omega⟩

theorem rootChild_total (newProgramme : Programme) (fuel : Nat)
    (self : ProgrammeFeedParser) (h : self.m_reader.pending.length < fuel) :
    ∃ r, ProgrammeFeedParser.rootChild newProgramme fuel self = some r
      ∧ r.m_reader.pending.length ≤ self.m_reader.pending.length := by
  unfold ProgrammeFeedParser.rootChild
  split_ifs
  · exact parseChannelElement_total newProgramme fuel self h
  · exact ⟨_, rfl, skipCurrentElement_length self.m_reader⟩

theorem parseLoop_total (newProgramme : Programme) (fuel : Nat)
    (self : ProgrammeFeedParser) (h : self.m_reader.pending.length < fuel) :
    ∃ r, ProgrammeFeedParser.parseLoop newProgramme fuel self = some r
      ∧ r.m_reader.pending.length ≤ self.m_reader.pending.length := by
  induction fuel generalizing self with
  | zero => exact absurd h (Nat.not_lt_zero _)
  | succ fuel ih =>
    unfold ProgrammeFeedParser.parseLoop
    have hlen := readNextStartElementFrom_length self.m_reader.pending
    unfold QXmlStreamReader.readNextStartElement
    cases hr : readNextStartElementFrom self.m_reader.pending with
    | mk more reader =>
      rw [hr] at hlen
      cases more with
      | false => exact ⟨_, rfl, hlen.1⟩
      | true =>
        have hlt := hlen.2 rfl
        simp only at hlt ⊢
        obtain ⟨r1, hr1, hle1⟩ := rootChild_total newProgramme fuel
          { self with m_reader := reader } (by simp only; omega)
        simp only at hle1
        rw [hr1]
        obtain ⟨r, hr', hle⟩ := ih r1 (by omega)
        exact ⟨r, hr', by omega⟩

/-! ## parse: success and failure -/

theorem readNextStartElementFrom_topLevel (device : List Token) :
    (topLevelName device = none → (readNextStartElementFrom device).1 = false)
    ∧ (∀ n, topLevelName device = some n →
        (readNextStartElementFrom device).1 = true
        ∧ (readNextStartElementFrom device).2.name = n) := by
  induction device with
  | nil => simp [topLevelName, readNextStartElementFrom]
  | cons t rest ih =>
    cases t <;>
      simp [topLevelName, readNextStartElementFrom, List.find?, Token.isTag,
        QXmlStreamReader.name] <;>
      simpa [topLevelName] using ih

/-- C1: `parse` always returns; it returns failure exactly when the document has
no top-level element or the tag of its top-level element (its local name, which
is what `m_reader.name()` gives) is not "rss", and then `lastError()` is a
non-empty message; when the top-level element is "rss" it returns success
whatever tokens follow the start tag of the root. -/
theorem parse_fails_iff_no_rss_root (newProgramme : Programme) (self : ProgrammeFeedParser)
    (device : List Token) :
    ∃ ok self', ProgrammeFeedParser.parse newProgramme self device = some (ok, self')
      ∧ (ok = false ↔
          (topLevelName device = none
            ∨ ∃ n, topLevelName device = some n ∧ n ≠ "rss".toList))
      ∧ (ok = false → self'.lastError ≠ [])
      ∧ (topLevelName device = some "rss".toList → ok = true) := by
  have htop := readNextStartElementFrom_topLevel device
  have hlen := readNextStartElementFrom_length device
  unfold ProgrammeFeedParser.parse ProgrammeFeedParser.parseWith
  simp only [QXmlStreamReader.readNextStartElement, QXmlStreamReader.setDevice]
  cases hr : readNextStartElementFrom device with
  | mk more reader =>
    rw [hr] at htop hlen
    cases more with
    | false =>
      refine ⟨false, _, rfl, ?_, ?_, ?_⟩
      · constructor
        · intro _
          cases ht : topLevelName device with
          | none => exact Or.inl rfl
          | some n => exact absurd (htop.2 n ht).1 (by simp)
        · intro _; rfl
      · intro _; simp [ProgrammeFeedParser.lastError]
      · intro ht; exact absurd (htop.2 _ ht).1 (by simp)
    | true =>
      have hsome : ∃ n, topLevelName device = some n := by
        cases ht : topLevelName device with
        | none => exact absurd (htop.1 ht) (by simp)
        | some n => exact ⟨n, rfl⟩
      obtain ⟨n, hn⟩ := hsome
      have hname : reader.name = n := (htop.2 n hn).2
      by_cases hrss : reader.name = "rss".toList
      · simp only [hrss, ne_eq, not_true_eq_false, if_false]
        obtain ⟨r, hr', _⟩ := parseLoop_total newProgramme (device.length + 1)
          { self with m_reader := reader, m_programmes := [] }
          (by have := hlen.1; simp only at this ⊢; omega)
        rw [hr']
        refine ⟨true, r, rfl, ?_, ?_, ?_⟩
        · constructor
          · intro h; exact Bool.noConfusion h
          · rintro (h | ⟨m, hm, hne⟩)
            · rw [hn] at h; exact Option.noConfusion h
            · rw [hn] at hm; cases hm; exact absurd (hname ▸ hrss) hne
        · intro h; exact Bool.noConfusion h
        · intro _; rfl
      · simp only [ne_eq, hrss, not_false_eq_true, if_true]
        refine ⟨false, _, rfl, ?_, ?_, ?_⟩
        · constructor
          · intro _; exact Or.inr ⟨n, hn, hname ▸ hrss⟩
          · intro _; rfl
        · intro _; simp [ProgrammeFeedParser.lastError]
        · intro ht; rw [hn] at ht; cases ht; exact absurd hname hrss

/-! ## What the walkers do does not depend on what the object held before -/

theorem mediaGroupChild_rebase (e : QString) (ps : List Programme) (ts : List Thumbnail)
    (s : ProgrammeFeedParser) (p : Programme) :
    ProgrammeFeedParser.mediaGroupChild (s.rebase e ps ts) p
      = (((ProgrammeFeedParser.mediaGroupChild s p).1).rebase e ps ts,
         (ProgrammeFeedParser.mediaGroupChild s p).2) := by
  unfold ProgrammeFeedParser.mediaGroupChild
  simp only [ProgrammeFeedParser.rebase]
  split_ifs <;> (try split) <;> simp [List.append_assoc]

theorem parseMediaGroupElement_rebase (e : QString) (ps : List Programme)
    (ts : List Thumbnail) (fuel : Nat) (s : ProgrammeFeedParser) (p : Programme) :
    ProgrammeFeedParser.parseMediaGroupElement fuel (s.rebase e ps ts) p
      = (ProgrammeFeedParser.parseMediaGroupElement fuel s p).map
          (fun r => (r.1.rebase e ps ts, r.2)) := by
  induction fuel generalizing s p with
  | zero => rfl
  | succ fuel ih =>
    unfold ProgrammeFeedParser.parseMediaGroupElement
    have hrd : (s.rebase e ps ts).m_reader = s.m_reader := rfl
    rw [hrd]
    cases hr : s.m_reader.readNextStartElement with
    | mk more reader =>
      cases more with
      | false => rfl
      | true =>
        simp only
        have hb := mediaGroupChild_rebase e ps ts { s with m_reader := reader } p
        have hst : ({ s.rebase e ps ts with m_reader := reader } : ProgrammeFeedParser)
            = ({ s with m_reader := reader } : ProgrammeFeedParser).rebase e ps ts := rfl
        rw [hst, hb]
        exact ih _ _

theorem itemChild_rebase (e : QString) (ps : List Programme) (ts : List Thumbnail)
    (fuel : Nat) (s : ProgrammeFeedParser) (p : Programme) :
    ProgrammeFeedParser.itemChild fuel (s.rebase e ps ts) p
      = (ProgrammeFeedParser.itemChild fuel s p).map (fun r => (r.1.rebase e ps ts, r.2)) := by
  unfold ProgrammeFeedParser.itemChild
  have hrd : (s.rebase e ps ts).m_reader = s.m_reader := rfl
  simp only [hrd]
  split_ifs
  · rfl
  · rfl
  · rfl
  · rfl
  · rfl
  · exact parseMediaGroupElement_rebase e ps ts fuel s p
  · rfl

theorem parseItemLoop_rebase (e : QString) (ps : List Programme)
    (ts : List Thumbnail) (fuel : Nat) (s : ProgrammeFeedParser) (p : Programme) :
    ProgrammeFeedParser.parseItemLoop fuel (s.rebase e ps ts) p
      = (ProgrammeFeedParser.parseItemLoop fuel s p).map
          (fun r => (r.1.rebase e ps ts, r.2)) := by
  induction fuel generalizing s p with
  | zero => rfl
  | succ fuel ih =>
    unfold ProgrammeFeedParser.parseItemLoop
    have hrd : (s.rebase e ps ts).m_reader = s.m_reader := rfl
    rw [hrd]
    cases hr : s.m_reader.readNextStartElement with
    | mk more reader =>
      cases more with
      | false => rfl
      | true =>
        simp only
        have hb := itemChild_rebase e ps ts fuel { s with m_reader := reader } p
        have hst : ({ s.rebase e ps ts with m_reader := reader } : ProgrammeFeedParser)
            = ({ s with m_reader := reader } : ProgrammeFeedParser).rebase e ps ts := rfl
        rw [hst, hb]
        cases ProgrammeFeedParser.itemChild fuel { s with m_reader := reader } p with
        | none => rfl
        | some r => exact ih _ _

theorem parseItemElement_rebase (newProgramme : Programme) (e : QString)
    (ps : List Programme) (ts : List Thumbnail) (fuel : Nat) (s : ProgrammeFeedParser) :
    ProgrammeFeedParser.parseItemElement newProgramme fuel (s.rebase e ps ts)
      = (ProgrammeFeedParser.parseItemElement newProgramme fuel s).map
          (fun r => r.rebase e ps ts) := by
  unfold ProgrammeFeedParser.parseItemElement
  rw [parseItemLoop_rebase]
  cases ProgrammeFeedParser.parseItemLoop fuel s newProgramme with
  | none => rfl
  | some r => simp [ProgrammeFeedParser.rebase, List.append_assoc]

theorem channelChild_rebase (newProgramme : Programme) (e : QString)
    (ps : List Programme) (ts : List Thumbnail) (fuel : Nat) (s : ProgrammeFeedParser) :
    ProgrammeFeedParser.channelChild newProgramme fuel (s.rebase e ps ts)
      = (ProgrammeFeedParser.channelChild newProgramme fuel s).map
          (fun r => r.rebase e ps ts) := by
  unfold ProgrammeFeedParser.channelChild
  have hrd : (s.rebase e ps ts).m_reader = s.m_reader := rfl
  simp only [hrd]
  split_ifs
  · exact parseItemElement_rebase newProgramme e ps ts fuel s
  · rfl

theorem parseChannelElement_rebase (newProgramme : Programme) (e : QString)
    (ps : List Programme) (ts : List Thumbnail) (fuel : Nat) (s : ProgrammeFeedParser) :
    ProgrammeFeedParser.parseChannelElement newProgramme fuel (s.rebase e ps ts)
      = (ProgrammeFeedParser.parseChannelElement newProgramme fuel s).map
          (fun r => r.rebase e ps ts) := by
  induction fuel generalizing s with
  | zero => rfl
  | succ fuel ih =>
    unfold ProgrammeFeedParser.parseChannelElement
    have hrd : (s.rebase e ps ts).m_reader = s.m_reader := rfl
    rw [hrd]
    cases hr : s.m_reader.readNextStartElement with
    | mk more reader =>
      cases more with
      | false => rfl
      | true =>
        simp only
        have hb := channelChild_rebase newProgramme e ps ts fuel { s with m_reader := reader }
        have hst : ({ s.rebase e ps ts with m_reader := reader } : ProgrammeFeedParser)
            = ({ s with m_reader := reader } : ProgrammeFeedParser).rebase e ps ts := rfl
        rw [hst, hb]
        cases ProgrammeFeedParser.channelChild newProgramme fuel { s with m_reader := reader } with
        | none => rfl
        | some r => exact ih _

theorem rootChild_rebase (newProgramme : Programme) (e : QString)
    (ps : List Programme) (ts : List Thumbnail) (fuel : Nat) (s : ProgrammeFeedParser) :
    ProgrammeFeedParser.rootChild newProgramme fuel (s.rebase e ps ts)
      = (ProgrammeFeedParser.rootChild newProgramme fuel s).map
          (fun r => r.rebase e ps ts) := by
  unfold ProgrammeFeedParser.rootChild
  have hrd : (s.rebase e ps ts).m_reader = s.m_reader := rfl
  simp only [hrd]
  split_ifs
  · exact parseChannelElement_rebase newProgramme e ps ts fuel s
  · rfl

theorem parseLoop_rebase (newProgramme : Programme) (e : QString)
    (ps : List Programme) (ts : List Thumbnail) (fuel : Nat) (s : ProgrammeFeedParser) :
    ProgrammeFeedParser.parseLoop newProgramme fuel (s.rebase e ps ts)
      = (ProgrammeFeedParser.parseLoop newProgramme fuel s).map
          (fun r => r.rebase e ps ts) := by
  induction fuel generalizing s with
  | zero => rfl
  | succ fuel ih =>
    unfold ProgrammeFeedParser.parseLoop
    have hrd : (s.rebase e ps ts).m_reader = s.m_reader := rfl
    rw [hrd]
    cases hr : s.m_reader.readNextStartElement with
    | mk more reader =>
      cases more with
      | false => rfl
      | true =>
        simp only
        have hb := rootChild_rebase newProgramme e ps ts fuel { s with m_reader := reader }
        have hst : ({ s.rebase e ps ts with m_reader := reader } : ProgrammeFeedParser)
            = ({ s with m_reader := reader } : ProgrammeFeedParser).rebase e ps ts := rfl
        rw [hst, hb]
        cases ProgrammeFeedParser.rootChild newProgramme fuel { s with m_reader := reader } with
        | none => rfl
        | some r => exact ih _

/-- A parse on any object, told by the parse of the same device on a fresh one:
the same result and programmes, the thumbnails appended to those held before,
and the error text replaced only by a failure. -/
theorem parse_on_any_object (newProgramme : Programme) (self : ProgrammeFeedParser)
    (device : List Token) :
    ProgrammeFeedParser.parse newProgramme self device
      = (ProgrammeFeedParser.parse newProgramme ProgrammeFeedParser.new device).map
          (fun r => (r.1, ⟨r.2.m_reader, if r.1 then self.m_error else r.2.m_error,
                           r.2.m_programmes, self.m_thumbnails ++ r.2.m_thumbnails⟩)) := by
  unfold ProgrammeFeedParser.parse ProgrammeFeedParser.parseWith
  simp only [ProgrammeFeedParser.new]
  cases hr : (QXmlStreamReader.setDevice device).readNextStartElement with
  | mk more reader =>
    cases more with
    | false => simp
    | true =>
      simp only
      split_ifs
      · simp
      · have hst : ({ m_reader := reader, m_error := self.m_error, m_programmes := [],
                      m_thumbnails := self.m_thumbnails } : ProgrammeFeedParser)
            = ({ m_reader := reader, m_error := [], m_programmes := [],
                 m_thumbnails := [] } : ProgrammeFeedParser).rebase self.m_error []
                 self.m_thumbnails := by
          simp [ProgrammeFeedParser.rebase]
        rw [hst, parseLoop_rebase]
        cases ProgrammeFeedParser.parseLoop newProgramme (device.length + 1)
            { m_reader := reader, m_error := [], m_programmes := [], m_thumbnails := [] } with
        | none => rfl
        | some r => simp [ProgrammeFeedParser.rebase]

/-- `parse` returns for every object and every device: the fuel is enough. -/
theorem parse_total (newProgramme : Programme) (self : ProgrammeFeedParser)
    (device : List Token) :
    ∃ r, ProgrammeFeedParser.parse newProgramme self device = some r := by
  have hlen := readNextStartElementFrom_length device
  unfold ProgrammeFeedParser.parse ProgrammeFeedParser.parseWith
  simp only [QXmlStreamReader.readNextStartElement, QXmlStreamReader.setDevice]
  cases hr : readNextStartElementFrom device with
  | mk more reader =>
    rw [hr] at hlen
    cases more with
    | false => exact ⟨_, rfl⟩
    | true =>
      simp only
      split_ifs
      · exact ⟨_, rfl⟩
      · obtain ⟨r, hr', _⟩ := parseLoop_total newProgramme (device.length + 1)
          { self with m_reader := reader, m_programmes := [] }
          (by have := hlen.1; simp only at this ⊢; omega)
        rw [hr']
        exact ⟨_, rfl⟩

/-- C4: when two documents are parsed one after the other on the same object,
`programmes()` after the second parse is what parsing the second document on a
fresh parser gives, and `thumbnails()` after the second parse is `thumbnails()`
after the first parse followed by the thumbnails of the second document, so the
earlier list is a prefix of the later one. -/
theorem second_parse_clears_programmes_keeps_thumbnails (newProgramme : Programme)
    (self : ProgrammeFeedParser) (d1 d2 : List Token) :
    ∃ ok1 s1 ok2 s2 okF sF,
      ProgrammeFeedParser.parse newProgramme self d1 = some (ok1, s1)
      ∧ ProgrammeFeedParser.parse newProgramme s1 d2 = some (ok2, s2)
      ∧ ProgrammeFeedParser.parse newProgramme ProgrammeFeedParser.new d2 = some (okF, sF)
      ∧ ok2 = okF
      ∧ s2.programmes = sF.programmes
      ∧ s2.thumbnails = s1.thumbnails ++ sF.thumbnails
      ∧ s1.thumbnails <+: s2.thumbnails := by
  obtain ⟨⟨ok1, s1⟩, h1⟩ := parse_total newProgramme self d1
  obtain ⟨⟨okF, sF⟩, hF⟩ := parse_total newProgramme ProgrammeFeedParser.new d2
  have h2 := parse_on_any_object newProgramme s1 d2
  rw [hF] at h2
  simp only [Option.map_some'] at h2
  exact ⟨ok1, s1, okF, _, okF, sF, h1, h2, hF, rfl, rfl, rfl, List.prefix_append _ _⟩

/-! ## The reader on the tokens of a tree -/

theorem tokens_element (pfx name : QString) (attrs : QXmlStreamAttributes)
    (children : List Xml) :
    Xml.tokens (Xml.element pfx name attrs children)
      = Token.startElement pfx name attrs
          :: (Xml.tokensOfList children ++ [Token.endElement]) := by
  simp only [Xml.tokens]

theorem tokensOfList_cons (x : Xml) (xs : List Xml) :
    Xml.tokensOfList (x :: xs) = Xml.tokens x ++ Xml.tokensOfList xs := by
  simp only [Xml.tokensOfList]

theorem tokensOfList_nil : Xml.tokensOfList [] = [] := by
  simp only [Xml.tokensOfList]

/-- The tokens of an element in front of more tokens, written from its start tag on. -/
theorem tokens_element_append (pfx name : QString) (attrs : QXmlStreamAttributes)
    (children : List Xml) (rest : List Token) :
    Xml.tokens (Xml.element pfx name attrs children) ++ rest
      = Token.startElement pfx name attrs
          :: (Xml.tokensOfList children ++ Token.endElement :: rest) := by
  rw [tokens_element]
  simp

theorem skipFrom_current (depth : Nat) (c c' : Option Token) (ts : List Token) :
    skipFrom (depth + 1) c ts = skipFrom (depth + 1) c' ts := by
  cases ts with
  | nil => rfl
  | cons t rest => cases t <;> rfl

theorem skipFrom_leaf (t : Token) (depth : Nat) (c : Option Token) (rest : List Token)
    (ht : t.isTag = false) :
    skipFrom (depth + 1) c (t :: rest) = skipFrom (depth + 1) c rest := by
  cases t <;> first
    | exact Bool.noConfusion ht
    | exact skipFrom_current depth _ _ rest

mutual
theorem skipFrom_tokens (x : Xml) (depth : Nat) (c : Option Token) (rest : List Token) :
    skipFrom (depth + 1) c (Xml.tokens x ++ rest) = skipFrom (depth + 1) c rest := by
  cases x with
  | element pfx name attrs children =>
    rw [tokens_element_append]
    show skipFrom (depth + 2) _ (Xml.tokensOfList children ++ Token.endElement :: rest) = _
    rw [skipFrom_tokensOfList children (depth + 1)]
    show skipFrom (depth + 1) _ rest = _
    exact skipFrom_current _ _ _ _
  | text s => exact skipFrom_leaf _ _ _ _ rfl
  | entity s => exact skipFrom_leaf _ _ _ _ rfl
  | comment => exact skipFrom_leaf _ _ _ _ rfl
  | pi => exact skipFrom_leaf _ _ _ _ rfl
theorem skipFrom_tokensOfList (xs : List Xml) (depth : Nat) (c : Option Token)
    (rest : List Token) :
    skipFrom (depth + 1) c (Xml.tokensOfList xs ++ rest) = skipFrom (depth + 1) c rest := by
  cases xs with
  | nil => rfl
  | cons x xs =>
    rw [tokensOfList_cons, List.append_assoc, skipFrom_tokens x depth,
      skipFrom_tokensOfList xs depth]
end

/-- Skipping the current element passes its children and its end tag. -/
theorem skipCurrentElement_children (kids : List Xml) (c : Option Token) (rest : List Token) :
    QXmlStreamReader.skipCurrentElement ⟨Xml.tokensOfList kids ++ Token.endElement :: rest, c⟩
      = ⟨rest, some Token.endElement⟩ := by
  unfold QXmlStreamReader.skipCurrentElement
  simp only
  rw [skipFrom_tokensOfList kids 0]
  simp only [skipFrom]

theorem readNextStartElementFrom_leaf (x : Xml) (hx : x.isElement = false) (rest : List Token) :
    readNextStartElementFrom (Xml.tokens x ++ rest) = readNextStartElementFrom rest := by
  cases x with
  | element pfx name attrs children => exact Bool.noConfusion hx
  | text s => rfl
  | entity s => rfl
  | comment => rfl
  | pi => rfl

theorem readElementTextFrom_leaves (kids : List Xml)
    (hk : kids.all (fun k => !k.isElement) = true) (acc : QString) (rest : List Token) :
    readElementTextFrom acc (Xml.tokensOfList kids ++ Token.endElement :: rest)
      = (acc ++ Xml.textOf kids, ⟨rest, some Token.endElement⟩) := by
  induction kids generalizing acc with
  | nil => simp [Xml.tokensOfList, readElementTextFrom, Xml.textOf]
  | cons x xs ih =>
    simp only [List.all_cons, Bool.and_eq_true] at hk
    rw [tokensOfList_cons, List.append_assoc]
    cases x with
    | element pfx name attrs children => simp [Xml.isElement] at hk
    | text s =>
      show readElementTextFrom (acc ++ s) (Xml.tokensOfList xs ++ Token.endElement :: rest) = _
      rw [ih hk.2]
      simp [Xml.textOf]
    | entity s =>
      show readElementTextFrom (acc ++ s) (Xml.tokensOfList xs ++ Token.endElement :: rest) = _
      rw [ih hk.2]
      simp [Xml.textOf]
    | comment =>
      show readElementTextFrom acc (Xml.tokensOfList xs ++ Token.endElement :: rest) = _
      rw [ih hk.2]
      simp [Xml.textOf]
    | pi =>
      show readElementTextFrom acc (Xml.tokensOfList xs ++ Token.endElement :: rest) = _
      rw [ih hk.2]
      simp [Xml.textOf]

theorem readNextStartElementFrom_element (pfx name : QString) (attrs : QXmlStreamAttributes)
    (sub : List Xml) (rest : List Token) :
    readNextStartElementFrom (Xml.tokens (Xml.element pfx name attrs sub) ++ rest)
      = (true, ⟨Xml.tokensOfList sub ++ Token.endElement :: rest,
                some (Token.startElement pfx name attrs)⟩) := by
  rw [tokens_element_append]
  rfl

/-! ## The media-group walker on a tree -/

theorem parseMediaGroupElement_reader (fuel : Nat) (ts1 ts2 : List Token)
    (c1 c2 : Option Token) (e : QString) (ps : List Programme) (th : List Thumbnail)
    (p : Programme) (h : readNextStartElementFrom ts1 = readNextStartElementFrom ts2) :
    ProgrammeFeedParser.parseMediaGroupElement fuel ⟨⟨ts1, c1⟩, e, ps, th⟩ p
      = ProgrammeFeedParser.parseMediaGroupElement fuel ⟨⟨ts2, c2⟩, e, ps, th⟩ p := by
  cases fuel with
  | zero => rfl
  | succ fuel =>
    unfold ProgrammeFeedParser.parseMediaGroupElement
    simp only [QXmlStreamReader.readNextStartElement, h]

theorem mediaGroupChild_element (pfx name : QString) (attrs : QXmlStreamAttributes)
    (sub : List Xml) (rest : List Token) (e : QString) (ps : List Programme)
    (th : List Thumbnail) (p : Programme) :
    ProgrammeFeedParser.mediaGroupChild
        ⟨⟨Xml.tokensOfList sub ++ Token.endElement :: rest,
          some (Token.startElement pfx name attrs)⟩, e, ps, th⟩ p
      = (⟨⟨rest, some Token.endElement⟩, e, ps,
          th ++ (groupChildThumbnail (Xml.element pfx name attrs sub)).toList⟩,
         groupChildProgramme p (Xml.element pfx name attrs sub)) := by
  unfold ProgrammeFeedParser.mediaGroupChild groupChildThumbnail groupChildProgramme
  simp only [QXmlStreamReader.qualifiedName, QXmlStreamReader.attributes, qualifiedNameOf,
    skipCurrentElement_children]
  split_ifs <;> (try split) <;> simp_all

theorem parseMediaGroupElement_children (kids : List Xml) :
    ∀ (fuel : Nat) (c : Option Token) (rest : List Token) (e : QString)
      (ps : List Programme) (th : List Thumbnail) (p : Programme),
      (Xml.tokensOfList kids).length < fuel →
      ProgrammeFeedParser.parseMediaGroupElement fuel
          ⟨⟨Xml.tokensOfList kids ++ Token.endElement :: rest, c⟩, e, ps, th⟩ p
        = some (⟨⟨rest, some Token.endElement⟩, e, ps, th ++ groupThumbnails kids⟩,
                groupProgramme p kids) := by
  induction kids with
  | nil =>
    intro fuel c rest e ps th p hfuel
    cases fuel with
    | zero => exact absurd hfuel (Nat.not_lt_zero _)
    | succ fuel =>
      unfold ProgrammeFeedParser.parseMediaGroupElement
      simp [tokensOfList_nil, QXmlStreamReader.readNextStartElement, readNextStartElementFrom,
        groupThumbnails, groupProgramme]
  | cons x xs ih =>
    intro fuel c rest e ps th p hfuel
    rw [tokensOfList_cons, List.length_append] at hfuel
    rw [tokensOfList_cons, List.append_assoc]
    cases hx : x.isElement with
    | false =>
      rw [parseMediaGroupElement_reader fuel _ (Xml.tokensOfList xs ++ Token.endElement :: rest)
        c c e ps th p (readNextStartElementFrom_leaf x hx _)]
      rw [ih fuel c rest e ps th p (by omega)]
      cases x <;> first
        | exact Bool.noConfusion hx
        | rfl
    | true =>
      cases x with
      | element pfx name attrs sub =>
        cases fuel with
        | zero => exact absurd hfuel (Nat.not_lt_zero _)
        | succ fuel =>
          rw [tokens_element, List.length_cons] at hfuel
          unfold ProgrammeFeedParser.parseMediaGroupElement
          simp only [QXmlStreamReader.readNextStartElement, readNextStartElementFrom_element,
            mediaGroupChild_element]
          rw [ih fuel _ rest e ps _ _ (by omega)]
          simp only [groupThumbnails, groupProgramme, List.filterMap_cons, List.foldl_cons]
          cases groupChildThumbnail (Xml.element pfx name attrs sub) <;> simp
      | text s => exact Bool.noConfusion hx
      | entity s => exact Bool.noConfusion hx
      | comment => exact Bool.noConfusion hx
      | pi => exact Bool.noConfusion hx

/-! ## The item walker on a tree -/

theorem parseItemLoop_reader (fuel : Nat) (ts1 ts2 : List Token)
    (c1 c2 : Option Token) (e : QString) (ps : List Programme) (th : List Thumbnail)
    (p : Programme) (h : readNextStartElementFrom ts1 = readNextStartElementFrom ts2) :
    ProgrammeFeedParser.parseItemLoop fuel ⟨⟨ts1, c1⟩, e, ps, th⟩ p
      = ProgrammeFeedParser.parseItemLoop fuel ⟨⟨ts2, c2⟩, e, ps, th⟩ p := by
  cases fuel with
  | zero => rfl
  | succ fuel =>
    unfold ProgrammeFeedParser.parseItemLoop
    simp only [QXmlStreamReader.readNextStartElement, h]

theorem readElementText_leaves (pfx name : QString) (attrs : QXmlStreamAttributes)
    (sub : List Xml) (rest : List Token)
    (hk : sub.all (fun k => !k.isElement) = true) :
    QXmlStreamReader.readElementText
        ⟨Xml.tokensOfList sub ++ Token.endElement :: rest,
          some (Token.startElement pfx name attrs)⟩
      = (Xml.textOf sub, ⟨rest, some Token.endElement⟩) := by
  unfold QXmlStreamReader.readElementText
  simp only
  rw [readElementTextFrom_leaves sub hk]
  rfl

theorem itemChild_element (pfx name : QString) (attrs : QXmlStreamAttributes)
    (sub : List Xml) (fuel : Nat) (rest : List Token) (e : QString) (ps : List Programme)
    (th : List Thumbnail) (p : Programme)
    (hclean : (!isTextField pfx name || sub.all (fun k => !k.isElement)) = true)
    (hfuel : (Xml.tokensOfList sub).length < fuel) :
    ProgrammeFeedParser.itemChild fuel
        ⟨⟨Xml.tokensOfList sub ++ Token.endElement :: rest,
          some (Token.startElement pfx name attrs)⟩, e, ps, th⟩ p
      = some (⟨⟨rest, some Token.endElement⟩, e, ps,
                th ++ itemChildThumbnails (Xml.element pfx name attrs sub)⟩,
              itemChildProgramme p (Xml.element pfx name attrs sub)) := by
  unfold ProgrammeFeedParser.itemChild itemChildThumbnails itemChildProgramme
  have hq : QXmlStreamReader.qualifiedName
      ⟨Xml.tokensOfList sub ++ Token.endElement :: rest,
        some (Token.startElement pfx name attrs)⟩ = qualifiedNameOf pfx name := rfl
  have hn : QXmlStreamReader.name
      ⟨Xml.tokensOfList sub ++ Token.endElement :: rest,
        some (Token.startElement pfx name attrs)⟩ = name := rfl
  have ha : QXmlStreamReader.attributes
      ⟨Xml.tokensOfList sub ++ Token.endElement :: rest,
        some (Token.startElement pfx name attrs)⟩ = attrs := rfl
  simp only [hq, hn, ha, skipCurrentElement_children]
  have htext : isTextField pfx name = true →
      QXmlStreamReader.readElementText
        ⟨Xml.tokensOfList sub ++ Token.endElement :: rest,
          some (Token.startElement pfx name attrs)⟩
      = (Xml.textOf sub, ⟨rest, some Token.endElement⟩) := by
    intro hf
    apply readElementText_leaves
    simpa [hf] using hclean
  split_ifs with h1 h2 h3 h4 h5 h6
  · rw [htext (by simp [isTextField, h1])]; simp
  · rw [htext (by simp [isTextField, h2])]; simp
  · rw [htext (by simp [isTextField, h3])]; simp
  · simp
  · rw [htext (by simp [isTextField, h5])]; simp
  · rw [parseMediaGroupElement_children sub fuel _ rest e ps th p hfuel]
  · simp

theorem parseItemLoop_children (kids : List Xml) :
    ∀ (fuel : Nat) (c : Option Token) (rest : List Token) (e : QString)
      (ps : List Programme) (th : List Thumbnail) (p : Programme),
      itemFieldsAreText kids = true →
      (Xml.tokensOfList kids).length < fuel →
      ProgrammeFeedParser.parseItemLoop fuel
          ⟨⟨Xml.tokensOfList kids ++ Token.endElement :: rest, c⟩, e, ps, th⟩ p
        = some (⟨⟨rest, some Token.endElement⟩, e, ps, th ++ itemThumbnails kids⟩,
                kids.foldl itemChildProgramme p) := by
  induction kids with
  | nil =>
    intro fuel c rest e ps th p _ hfuel
    cases fuel with
    | zero => exact absurd hfuel (Nat.not_lt_zero _)
    | succ fuel =>
      unfold ProgrammeFeedParser.parseItemLoop
      simp [tokensOfList_nil, QXmlStreamReader.readNextStartElement, readNextStartElementFrom,
        itemThumbnails]
  | cons x xs ih =>
    intro fuel c rest e ps th p hclean hfuel
    rw [tokensOfList_cons, List.length_append] at hfuel
    rw [tokensOfList_cons, List.append_assoc]
    unfold itemFieldsAreText at hclean
    rw [List.all_cons, Bool.and_eq_true] at hclean
    have hxs : itemFieldsAreText xs = true := hclean.2
    cases hx : x.isElement with
    | false =>
      rw [parseItemLoop_reader fuel _ (Xml.tokensOfList xs ++ Token.endElement :: rest)
        c c e ps th p (readNextStartElementFrom_leaf x hx _)]
      rw [ih fuel c rest e ps th p hxs (by omega)]
      cases x <;> first
        | exact Bool.noConfusion hx
        | rfl
    | true =>
      cases x with
      | element pfx name attrs sub =>
        cases fuel with
        | zero => exact absurd hfuel (Nat.not_lt_zero _)
        | succ fuel =>
          rw [tokens_element, List.length_cons, List.length_append] at hfuel
          unfold ProgrammeFeedParser.parseItemLoop
          simp only [QXmlStreamReader.readNextStartElement, readNextStartElementFrom_element]
          rw [itemChild_element pfx name attrs sub fuel _ e ps th p hclean.1 (by omega)]
          simp only
          rw [ih fuel _ rest e ps _ _ hxs (by omega)]
          simp [itemThumbnails]
      | text s => exact Bool.noConfusion hx
      | entity s => exact Bool.noConfusion hx
      | comment => exact Bool.noConfusion hx
      | pi => exact Bool.noConfusion hx

theorem parseItemElement_children (newProgramme : Programme) (kids : List Xml) (fuel : Nat)
    (c : Option Token) (rest : List Token) (e : QString) (ps : List Programme)
    (th : List Thumbnail) (hclean : itemFieldsAreText kids = true)
    (hfuel : (Xml.tokensOfList kids).length < fuel) :
    ProgrammeFeedParser.parseItemElement newProgramme fuel
        ⟨⟨Xml.tokensOfList kids ++ Token.endElement :: rest, c⟩, e, ps, th⟩
      = some ⟨⟨rest, some Token.endElement⟩, e, ps ++ [itemProgramme newProgramme kids],
              th ++ itemThumbnails kids⟩ := by
  unfold ProgrammeFeedParser.parseItemElement
  rw [parseItemLoop_children kids fuel c rest e ps th newProgramme hclean hfuel]
  rfl

/-! ## The channel walker and the root loop on a tree -/

theorem childrenNamed_cons_element (n pfx name : QString) (attrs : QXmlStreamAttributes)
    (sub : List Xml) (xs : List Xml) :
    childrenNamed n (Xml.element pfx name attrs sub :: xs)
      = if name = n then sub :: childrenNamed n xs else childrenNamed n xs := by
  unfold childrenNamed
  rw [List.filterMap_cons]
  split_ifs with h <;> simp [h]

theorem childrenNamed_cons_leaf (n : QString) (x : Xml) (xs : List Xml)
    (hx : x.isElement = false) : childrenNamed n (x :: xs) = childrenNamed n xs := by
  unfold childrenNamed
  cases x <;> first
    | exact Bool.noConfusion hx
    | rfl

theorem parseChannelElement_reader (newProgramme : Programme) (fuel : Nat)
    (ts1 ts2 : List Token) (c1 c2 : Option Token) (e : QString) (ps : List Programme)
    (th : List Thumbnail) (h : readNextStartElementFrom ts1 = readNextStartElementFrom ts2) :
    ProgrammeFeedParser.parseChannelElement newProgramme fuel ⟨⟨ts1, c1⟩, e, ps, th⟩
      = ProgrammeFeedParser.parseChannelElement newProgramme fuel ⟨⟨ts2, c2⟩, e, ps, th⟩ := by
  cases fuel with
  | zero => rfl
  | succ fuel =>
    unfold ProgrammeFeedParser.parseChannelElement
    simp only [QXmlStreamReader.readNextStartElement, h]

theorem channelChild_element (newProgramme : Programme) (pfx name : QString)
    (attrs : QXmlStreamAttributes) (sub : List Xml) (fuel : Nat) (rest : List Token)
    (e : QString) (ps : List Programme) (th : List Thumbnail)
    (hclean : name = "item".toList → itemFieldsAreText sub = true)
    (hfuel : (Xml.tokensOfList sub).length < fuel) :
    ProgrammeFeedParser.channelChild newProgramme fuel
        ⟨⟨Xml.tokensOfList sub ++ Token.endElement :: rest,
          some (Token.startElement pfx name attrs)⟩, e, ps, th⟩
      = some ⟨⟨rest, some Token.endElement⟩, e,
          ps ++ (childrenNamed "item".toList [Xml.element pfx name attrs sub]).map
                  (itemProgramme newProgramme),
          th ++ ((childrenNamed "item".toList [Xml.element pfx name attrs sub]).map
                  itemThumbnails).flatten⟩ := by
  unfold ProgrammeFeedParser.channelChild
  have hn : QXmlStreamReader.name
      ⟨Xml.tokensOfList sub ++ Token.endElement :: rest,
        some (Token.startElement pfx name attrs)⟩ = name := rfl
  simp only [hn, skipCurrentElement_children, childrenNamed_cons_element]
  split_ifs with h
  · rw [parseItemElement_children newProgramme sub fuel _ rest e ps th (hclean h) hfuel]
    simp [childrenNamed]
  · simp [childrenNamed]

theorem parseChannelElement_children (newProgramme : Programme) (kids : List Xml) :
    ∀ (fuel : Nat) (c : Option Token) (rest : List Token) (e : QString)
      (ps : List Programme) (th : List Thumbnail),
      (∀ it ∈ childrenNamed "item".toList kids, itemFieldsAreText it = true) →
      (Xml.tokensOfList kids).length < fuel →
      ProgrammeFeedParser.parseChannelElement newProgramme fuel
          ⟨⟨Xml.tokensOfList kids ++ Token.endElement :: rest, c⟩, e, ps, th⟩
        = some ⟨⟨rest, some Token.endElement⟩, e,
            ps ++ (childrenNamed "item".toList kids).map (itemProgramme newProgramme),
            th ++ ((childrenNamed "item".toList kids).map itemThumbnails).flatten⟩ := by
  induction kids with
  | nil =>
    intro fuel c rest e ps th _ hfuel
    cases fuel with
    | zero => exact absurd hfuel (Nat.not_lt_zero _)
    | succ fuel =>
      unfold ProgrammeFeedParser.parseChannelElement
      simp [tokensOfList_nil, QXmlStreamReader.readNextStartElement, readNextStartElementFrom,
        childrenNamed]
  | cons x xs ih =>
    intro fuel c rest e ps th hclean hfuel
    rw [tokensOfList_cons, List.length_append] at hfuel
    rw [tokensOfList_cons, List.append_assoc]
    cases hx : x.isElement with
    | false =>
      rw [childrenNamed_cons_leaf _ x xs hx] at hclean ⊢
      rw [parseChannelElement_reader newProgramme fuel _
        (Xml.tokensOfList xs ++ Token.endElement :: rest)
        c c e ps th (readNextStartElementFrom_leaf x hx _)]
      exact ih fuel c rest e ps th hclean (by omega)
    | true =>
      cases x with
      | element pfx name attrs sub =>
        cases fuel with
        | zero => exact absurd hfuel (Nat.not_lt_zero _)
        | succ fuel =>
          rw [tokens_element, List.length_cons, List.length_append] at hfuel
          rw [childrenNamed_cons_element] at hclean
          have h1 : name = "item".toList → itemFieldsAreText sub = true := by
            intro hn
            rw [if_pos hn] at hclean
            exact hclean sub (List.mem_cons_self _ _)
          have h2 : ∀ it ∈ childrenNamed "item".toList xs, itemFieldsAreText it = true := by
            intro it hit
            apply hclean
            split_ifs
            · exact List.mem_cons_of_mem _ hit
            · exact hit
          unfold ProgrammeFeedParser.parseChannelElement
          simp only [QXmlStreamReader.readNextStartElement, readNextStartElementFrom_element]
          rw [channelChild_element newProgramme pfx name attrs sub fuel _ e ps th h1 (by omega)]
          simp only
          rw [ih fuel _ rest e _ _ h2 (by omega)]
          simp only [childrenNamed_cons_element]
          split_ifs <;> simp [childrenNamed]
      | text s => exact Bool.noConfusion hx
      | entity s => exact Bool.noConfusion hx
      | comment => exact Bool.noConfusion hx
      | pi => exact Bool.noConfusion hx

theorem itemsOf_cons_element (pfx name : QString) (attrs : QXmlStreamAttributes)
    (sub : List Xml) (xs : List Xml) :
    itemsOf (Xml.element pfx name attrs sub :: xs)
      = if name = "channel".toList then childrenNamed "item".toList sub ++ itemsOf xs
        else itemsOf xs := by
  unfold itemsOf
  rw [childrenNamed_cons_element]
  split_ifs <;> simp

theorem itemsOf_cons_leaf (x : Xml) (xs : List Xml) (hx : x.isElement = false) :
    itemsOf (x :: xs) = itemsOf xs := by
  unfold itemsOf
  rw [childrenNamed_cons_leaf _ x xs hx]

theorem parseLoop_reader (newProgramme : Programme) (fuel : Nat)
    (ts1 ts2 : List Token) (c1 c2 : Option Token) (e : QString) (ps : List Programme)
    (th : List Thumbnail) (h : readNextStartElementFrom ts1 = readNextStartElementFrom ts2) :
    ProgrammeFeedParser.parseLoop newProgramme fuel ⟨⟨ts1, c1⟩, e, ps, th⟩
      = ProgrammeFeedParser.parseLoop newProgramme fuel ⟨⟨ts2, c2⟩, e, ps, th⟩ := by
  cases fuel with
  | zero => rfl
  | succ fuel =>
    unfold ProgrammeFeedParser.parseLoop
    simp only [QXmlStreamReader.readNextStartElement, h]

theorem rootChild_element (newProgramme : Programme) (pfx name : QString)
    (attrs : QXmlStreamAttributes) (sub : List Xml) (fuel : Nat) (rest : List Token)
    (e : QString) (ps : List Programme) (th : List Thumbnail)
    (hclean : name = "channel".toList →
      ∀ it ∈ childrenNamed "item".toList sub, itemFieldsAreText it = true)
    (hfuel : (Xml.tokensOfList sub).length < fuel) :
    ProgrammeFeedParser.rootChild newProgramme fuel
        ⟨⟨Xml.tokensOfList sub ++ Token.endElement :: rest,
          some (Token.startElement pfx name attrs)⟩, e, ps, th⟩
      = some ⟨⟨rest, some Token.endElement⟩, e,
          ps ++ (itemsOf [Xml.element pfx name attrs sub]).map (itemProgramme newProgramme),
          th ++ ((itemsOf [Xml.element pfx name attrs sub]).map itemThumbnails).flatten⟩ := by
  unfold ProgrammeFeedParser.rootChild
  have hn : QXmlStreamReader.name
      ⟨Xml.tokensOfList sub ++ Token.endElement :: rest,
        some (Token.startElement pfx name attrs)⟩ = name := rfl
  simp only [hn, skipCurrentElement_children, itemsOf_cons_element]
  split_ifs with h
  · rw [parseChannelElement_children newProgramme sub fuel _ rest e ps th (hclean h) hfuel]
    simp [itemsOf, childrenNamed]
  · simp [itemsOf, childrenNamed]

theorem parseLoop_children (newProgramme : Programme) (kids : List Xml) :
    ∀ (fuel : Nat) (c : Option Token) (rest : List Token) (e : QString)
      (ps : List Programme) (th : List Thumbnail),
      (∀ it ∈ itemsOf kids, itemFieldsAreText it = true) →
      (Xml.tokensOfList kids).length < fuel →
      ProgrammeFeedParser.parseLoop newProgramme fuel
          ⟨⟨Xml.tokensOfList kids ++ Token.endElement :: rest, c⟩, e, ps, th⟩
        = some ⟨⟨rest, some Token.endElement⟩, e,
            ps ++ (itemsOf kids).map (itemProgramme newProgramme),
            th ++ ((itemsOf kids).map itemThumbnails).flatten⟩ := by
  induction kids with
  | nil =>
    intro fuel c rest e ps th _ hfuel
    cases fuel with
    | zero => exact absurd hfuel (Nat.not_lt_zero _)
    | succ fuel =>
      unfold ProgrammeFeedParser.parseLoop
      simp [tokensOfList_nil, QXmlStreamReader.readNextStartElement, readNextStartElementFrom,
        itemsOf, childrenNamed]
  | cons x xs ih =>
    intro fuel c rest e ps th hclean hfuel
    rw [tokensOfList_cons, List.length_append] at hfuel
    rw [tokensOfList_cons, List.append_assoc]
    cases hx : x.isElement with
    | false =>
      rw [itemsOf_cons_leaf x xs hx] at hclean ⊢
      rw [parseLoop_reader newProgramme fuel _
        (Xml.tokensOfList xs ++ Token.endElement :: rest)
        c c e ps th (readNextStartElementFrom_leaf x hx _)]
      exact ih fuel c rest e ps th hclean (by omega)
    | true =>
      cases x with
      | element pfx name attrs sub =>
        cases fuel with
        | zero => exact absurd hfuel (Nat.not_lt_zero _)
        | succ fuel =>
          rw [tokens_element, List.length_cons, List.length_append] at hfuel
          rw [itemsOf_cons_element] at hclean
          have h1 : name = "channel".toList →
              ∀ it ∈ childrenNamed "item".toList sub, itemFieldsAreText it = true := by
            intro hn it hit
            rw [if_pos hn] at hclean
            exact hclean it (List.mem_append_left _ hit)
          have h2 : ∀ it ∈ itemsOf xs, itemFieldsAreText it = true := by
            intro it hit
            apply hclean
            split_ifs
            · exact List.mem_append_right _ hit
            · exact hit
          unfold ProgrammeFeedParser.parseLoop
          simp only [QXmlStreamReader.readNextStartElement, readNextStartElementFrom_element]
          rw [rootChild_element newProgramme pfx name attrs sub fuel _ e ps th h1 (by omega)]
          simp only
          rw [ih fuel _ rest e _ _ h2 (by omega)]
          simp only [itemsOf_cons_element]
          split_ifs <;> simp [itemsOf, childrenNamed]
      | text s => exact Bool.noConfusion hx
      | entity s => exact Bool.noConfusion hx
      | comment => exact Bool.noConfusion hx
      | pi => exact Bool.noConfusion hx

theorem readNextStartElementFrom_prolog (pre rest : List Token)
    (hpre : ∀ t ∈ pre, t.isTag = false) :
    readNextStartElementFrom (pre ++ rest) = readNextStartElementFrom rest := by
  induction pre with
  | nil => rfl
  | cons t ts ih =>
    have ht : t.isTag = false := hpre t (List.mem_cons_self _ _)
    have hts : ∀ u ∈ ts, u.isTag = false := fun u hu => hpre u (List.mem_cons_of_mem _ hu)
    rw [List.cons_append]
    cases t <;> first
      | exact Bool.noConfusion ht
      | exact ih hts

/-- The parse of a feed rooted at "rss" whose items hold their text fields as
character data, told on the tree of the document. -/
theorem parse_document (newProgramme : Programme) (self : ProgrammeFeedParser)
    (pre post : List Token) (pfx : QString) (attrs : QXmlStreamAttributes) (kids : List Xml)
    (hpre : ∀ t ∈ pre, t.isTag = false)
    (hclean : ∀ it ∈ itemsOf kids, itemFieldsAreText it = true) :
    ProgrammeFeedParser.parse newProgramme self
        (documentTokens pre (Xml.element pfx "rss".toList attrs kids) post)
      = some (true, ⟨⟨post, some Token.endElement⟩, self.m_error,
                (itemsOf kids).map (itemProgramme newProgramme),
                self.m_thumbnails ++ ((itemsOf kids).map itemThumbnails).flatten⟩) := by
  unfold ProgrammeFeedParser.parse ProgrammeFeedParser.parseWith
  have hdev : documentTokens pre (Xml.element pfx "rss".toList attrs kids) post
      = pre ++ (Xml.tokens (Xml.element pfx "rss".toList attrs kids) ++ post) := by
    unfold documentTokens; rw [List.append_assoc]
  have hlen : (Xml.tokensOfList kids).length
      < (documentTokens pre (Xml.element pfx "rss".toList attrs kids) post).length + 1 := by
    rw [hdev, tokens_element]
    simp only [List.length_append, List.length_cons]
    omega
  simp only [QXmlStreamReader.readNextStartElement, QXmlStreamReader.setDevice]
  rw [hdev, readNextStartElementFrom_prolog pre _ hpre, readNextStartElementFrom_element]
  simp only [QXmlStreamReader.name, ne_eq, not_true_eq_false, if_false]
  rw [← hdev, parseLoop_children newProgramme kids _ _ post self.m_error [] self.m_thumbnails
    hclean hlen]
  simp

/-! ## The record of an item -/

theorem recordOfItem_eq (newProgramme : Programme) (kids : List Xml)
    (hclean : itemFieldsAreText kids = true) :
    recordOfItem newProgramme kids = some (itemProgramme newProgramme kids) := by
  unfold recordOfItem
  rw [parseItemElement_children newProgramme kids _ none [] [] [] [] hclean (by omega)]
  rfl

theorem groupProgramme_fields (kids : List Xml) (p : Programme) :
    (groupProgramme p kids).title = p.title
    ∧ (groupProgramme p kids).description = p.description
    ∧ (groupProgramme p kids).id = p.id
    ∧ (groupProgramme p kids).channelId = p.channelId
    ∧ (groupProgramme p kids).startDateTime = p.startDateTime := by
  induction kids generalizing p with
  | nil => exact ⟨rfl, rfl, rfl, rfl, rfl⟩
  | cons x xs ih =>
    have hx : (groupChildProgramme p x).title = p.title
        ∧ (groupChildProgramme p x).description = p.description
        ∧ (groupChildProgramme p x).id = p.id
        ∧ (groupChildProgramme p x).channelId = p.channelId
        ∧ (groupChildProgramme p x).startDateTime = p.startDateTime := by
      cases x with
      | element pfx name attrs sub =>
        simp only [groupChildProgramme]
        split_ifs
        · cases QString.toInt (QXmlStreamAttributes.value attrs "duration".toList) <;>
            exact ⟨rfl, rfl, rfl, rfl, rfl⟩
        · exact ⟨rfl, rfl, rfl, rfl, rfl⟩
      | text s => exact ⟨rfl, rfl, rfl, rfl, rfl⟩
      | entity s => exact ⟨rfl, rfl, rfl, rfl, rfl⟩
      | comment => exact ⟨rfl, rfl, rfl, rfl, rfl⟩
      | pi => exact ⟨rfl, rfl, rfl, rfl, rfl⟩
    have := ih (groupChildProgramme p x)
    unfold groupProgramme at this ⊢
    rw [List.foldl_cons]
    obtain ⟨a1, a2, a3, a4, a5⟩ := this
    obtain ⟨b1, b2, b3, b4, b5⟩ := hx
    exact ⟨a1.trans b1, a2.trans b2, a3.trans b3, a4.trans b4, a5.trans b5⟩

theorem qualifiedNameOf_link (pfx name : QString)
    (h : qualifiedNameOf pfx name = "link".toList) : pfx = [] ∧ name = "link".toList := by
  unfold qualifiedNameOf at h
  split_ifs at h with hp
  · exact ⟨hp, h⟩
  · exfalso
    have hmem : ':' ∈ pfx ++ ':' :: name := by simp
    rw [h] at hmem
    exact absurd hmem (by decide)

/-- Within a fold over the children, a field that only the children of one kind
set, and set whatever it was, has the value of the last child of that kind. -/
theorem foldl_last_wins {α : Type} (f : Programme → Xml → Programme) (g : Programme → α)
    (isK : Xml → Bool) (v : Xml → α)
    (h1 : ∀ p x, isK x = true → g (f p x) = v x)
    (h2 : ∀ p x, isK x = false → g (f p x) = g p) (kids : List Xml) (p : Programme) :
    g (kids.foldl f p) = match (kids.filter isK).getLast? with
      | some x => v x
      | none => g p := by
  induction kids generalizing p with
  | nil => rfl
  | cons x xs ih =>
    rw [List.foldl_cons, ih (f p x)]
    cases hx : isK x with
    | false =>
      rw [List.filter_cons_of_neg (by simp [hx]), h2 p x hx]
    | true =>
      rw [List.filter_cons_of_pos (by simp [hx])]
      cases hl : xs.filter isK with
      | nil => simp [h1 p x hx]
      | cons y ys =>
        rw [List.getLast?_cons_cons]
        cases hg : (y :: ys).getLast? with
        | none => simp at hg
        | some z => rfl

theorem itemProgramme_title (newProgramme : Programme) (kids : List Xml) :
    (itemProgramme newProgramme kids).title
      = match (kids.filter (Xml.hasName "title".toList)).getLast? with
        | some x => x.characterData
        | none => newProgramme.title := by
  apply foldl_last_wins itemChildProgramme (fun p => p.title)
  · intro p x hx
    cases x with
    | element pfx name attrs sub =>
      have hn : name = "title".toList := by simpa [Xml.hasName] using hx
      simp only [itemChildProgramme, hn, if_true, Xml.characterData]
    | text s => exact Bool.noConfusion hx
    | entity s => exact Bool.noConfusion hx
    | comment => exact Bool.noConfusion hx
    | pi => exact Bool.noConfusion hx
  · intro p x hx
    cases x with
    | element pfx name attrs sub =>
      have hn : ¬ name = "title".toList := by simpa [Xml.hasName] using hx
      simp only [itemChildProgramme, hn, if_false]
      split_ifs <;> first
        | rfl
        | exact (groupProgramme_fields sub p).1
    | text s => rfl
    | entity s => rfl
    | comment => rfl
    | pi => rfl

theorem itemProgramme_description (newProgramme : Programme) (kids : List Xml) :
    (itemProgramme newProgramme kids).description
      = match (kids.filter (Xml.hasName "description".toList)).getLast? with
        | some x => x.characterData
        | none => newProgramme.description := by
  apply foldl_last_wins itemChildProgramme (fun p => p.description)
  · intro p x hx
    cases x with
    | element pfx name attrs sub =>
      have hn : name = "description".toList := by simpa [Xml.hasName] using hx
      subst hn
      have h1 : ¬ "description".toList = "title".toList := by decide
      simp only [itemChildProgramme, h1, if_false, if_true, Xml.characterData]
    | text s => exact Bool.noConfusion hx
    | entity s => exact Bool.noConfusion hx
    | comment => exact Bool.noConfusion hx
    | pi => exact Bool.noConfusion hx
  · intro p x hx
    cases x with
    | element pfx name attrs sub =>
      have hn : ¬ name = "description".toList := by simpa [Xml.hasName] using hx
      simp only [itemChildProgramme, hn, if_false]
      split_ifs <;> first
        | rfl
        | exact (groupProgramme_fields sub p).2.1
    | text s => rfl
    | entity s => rfl
    | comment => rfl
    | pi => rfl

theorem itemProgramme_id (newProgramme : Programme) (kids : List Xml) :
    (itemProgramme newProgramme kids).id
      = match (kids.filter (Xml.hasQualifiedName "link".toList)).getLast? with
        | some x => ProgrammeFeedParser.parseProgrammeId x.characterData
        | none => newProgramme.id := by
  apply foldl_last_wins itemChildProgramme (fun p => p.id) _
    (fun x => ProgrammeFeedParser.parseProgrammeId x.characterData)
  · intro p x hx
    cases x with
    | element pfx name attrs sub =>
      have hq : qualifiedNameOf pfx name = "link".toList := by
        simpa [Xml.hasQualifiedName] using hx
      have hn := (qualifiedNameOf_link pfx name hq).2
      have h1 : ¬ name = "title".toList := by rw [hn]; decide
      have h2 : ¬ name = "description".toList := by rw [hn]; decide
      simp only [itemChildProgramme, h1, h2, hq, if_false, if_true, Xml.characterData]
    | text s => exact Bool.noConfusion hx
    | entity s => exact Bool.noConfusion hx
    | comment => exact Bool.noConfusion hx
    | pi => exact Bool.noConfusion hx
  · intro p x hx
    cases x with
    | element pfx name attrs sub =>
      have hq : ¬ qualifiedNameOf pfx name = "link".toList := by
        simpa [Xml.hasQualifiedName] using hx
      simp only [itemChildProgramme, hq, if_false]
      split_ifs <;> first
        | rfl
        | exact (groupProgramme_fields sub p).2.2.1
    | text s => rfl
    | entity s => rfl
    | comment => rfl
    | pi => rfl

theorem itemProgramme_channelId (newProgramme : Programme) (kids : List Xml) :
    (itemProgramme newProgramme kids).channelId
      = match (kids.filter (Xml.hasName "source".toList)).getLast? with
        | some x => ProgrammeFeedParser.parseChannelId (x.attribute "url".toList)
        | none => newProgramme.channelId := by
  apply foldl_last_wins itemChildProgramme (fun p => p.channelId) _
    (fun x => ProgrammeFeedParser.parseChannelId (x.attribute "url".toList))
  · intro p x hx
    cases x with
    | element pfx name attrs sub =>
      have hn : name = "source".toList := by simpa [Xml.hasName] using hx
      have h1 : ¬ name = "title".toList := by rw [hn]; decide
      have h2 : ¬ name = "description".toList := by rw [hn]; decide
      have h3 : ¬ qualifiedNameOf pfx name = "link".toList := by
        intro hq
        have := (qualifiedNameOf_link pfx name hq).2
        rw [hn] at this
        exact absurd this (by decide)
      simp only [itemChildProgramme]
      rw [if_neg h1, if_neg h2, if_neg h3, if_pos hn]
      rfl
    | text s => exact Bool.noConfusion hx
    | entity s => exact Bool.noConfusion hx
    | comment => exact Bool.noConfusion hx
    | pi => exact Bool.noConfusion hx
  · intro p x hx
    cases x with
    | element pfx name attrs sub =>
      have hn : ¬ name = "source".toList := by simpa [Xml.hasName] using hx
      simp only [itemChildProgramme, hn, if_false]
      split_ifs <;> first
        | rfl
        | exact (groupProgramme_fields sub p).2.2.2.1
    | text s => rfl
    | entity s => rfl
    | comment => rfl
    | pi => rfl

theorem itemProgramme_startDateTime (newProgramme : Programme) (kids : List Xml) :
    (itemProgramme newProgramme kids).startDateTime
      = match (kids.filter (Xml.hasName "pubDate".toList)).getLast? with
        | some x => ProgrammeFeedParser.parseDateTime x.characterData
        | none => newProgramme.startDateTime := by
  apply foldl_last_wins itemChildProgramme (fun p => p.startDateTime) _
    (fun x => ProgrammeFeedParser.parseDateTime x.characterData)
  · intro p x hx
    cases x with
    | element pfx name attrs sub =>
      have hn : name = "pubDate".toList := by simpa [Xml.hasName] using hx
      have h1 : ¬ name = "title".toList := by rw [hn]; decide
      have h2 : ¬ name = "description".toList := by rw [hn]; decide
      have h3 : ¬ qualifiedNameOf pfx name = "link".toList := by
        intro hq
        have := (qualifiedNameOf_link pfx name hq).2
        rw [hn] at this
        exact absurd this (by decide)
      have h4 : ¬ name = "source".toList := by rw [hn]; decide
      simp only [itemChildProgramme]
      rw [if_neg h1, if_neg h2, if_neg h3, if_neg h4, if_pos hn]
      rfl
    | text s => exact Bool.noConfusion hx
    | entity s => exact Bool.noConfusion hx
    | comment => exact Bool.noConfusion hx
    | pi => exact Bool.noConfusion hx
  · intro p x hx
    cases x with
    | element pfx name attrs sub =>
      have hn : ¬ name = "pubDate".toList := by simpa [Xml.hasName] using hx
      simp only [itemChildProgramme, hn, if_false]
      split_ifs <;> first
        | rfl
        | exact (groupProgramme_fields sub p).2.2.2.2
    | text s => rfl
    | entity s => rfl
    | comment => rfl
    | pi => rfl

/-! ## programmes() -/

/-- C2, amended: for every feed rooted at "rss" in which no title, description,
link or pubDate child of an item has a child element, `parse` succeeds and
`programmes()` then holds exactly one record per item under the channels, in
document order, the i-th record being the one the item walker builds from the
i-th item; every item gives a record, whatever its fields. -/
theorem programmes_one_per_item (newProgramme : Programme) (self : ProgrammeFeedParser)
    (pre post : List Token) (pfx : QString) (attrs : QXmlStreamAttributes) (kids : List Xml)
    (hpre : ∀ t ∈ pre, t.isTag = false)
    (hclean : ∀ it ∈ itemsOf kids, itemFieldsAreText it = true) :
    ∃ self', ProgrammeFeedParser.parse newProgramme self
        (documentTokens pre (Xml.element pfx "rss".toList attrs kids) post) = some (true, self')
      ∧ self'.programmes.length = (itemsOf kids).length
      ∧ self'.programmes.map some = (itemsOf kids).map (recordOfItem newProgramme) := by
  refine ⟨_, parse_document newProgramme self pre post pfx attrs kids hpre hclean, ?_, ?_⟩
  · simp [ProgrammeFeedParser.programmes]
  · simp only [ProgrammeFeedParser.programmes, List.map_map]
    apply List.map_congr_left
    intro it hit
    simp only [Function.comp_apply]
    rw [recordOfItem_eq newProgramme it (hclean it hit)]

/-! ## The fields of a record -/

/-- C3, amended: for every item that contains exactly one each of title,
description, source and pubDate (elements of that local name) and of link (an
element of qualified name "link"), in any order and among any other nodes, and
in which none of title, description, link and pubDate has a child element, the
record the item walker builds has title = text of title, description = text of
description, id = parseProgrammeId (text of link), channelId = parseChannelId
(value of the "url" attribute of source) and startDateTime = parseDateTime (text
of pubDate). -/
theorem item_record_fields (newProgramme : Programme) (kids : List Xml)
    (title description link source pubDate : Xml)
    (hclean : itemFieldsAreText kids = true)
    (ht : kids.filter (Xml.hasName "title".toList) = [title])
    (hd : kids.filter (Xml.hasName "description".toList) = [description])
    (hl : kids.filter (Xml.hasQualifiedName "link".toList) = [link])
    (hs : kids.filter (Xml.hasName "source".toList) = [source])
    (hp : kids.filter (Xml.hasName "pubDate".toList) = [pubDate]) :
    ∃ r, recordOfItem newProgramme kids = some r
      ∧ r.title = title.characterData
      ∧ r.description = description.characterData
      ∧ r.id = ProgrammeFeedParser.parseProgrammeId link.characterData
      ∧ r.channelId = ProgrammeFeedParser.parseChannelId (source.attribute "url".toList)
      ∧ r.startDateTime = ProgrammeFeedParser.parseDateTime pubDate.characterData := by
  refine ⟨_, recordOfItem_eq newProgramme kids hclean, ?_, ?_, ?_, ?_, ?_⟩
  · rw [itemProgramme_title, ht]; rfl
  · rw [itemProgramme_description, hd]; rfl
  · rw [itemProgramme_id, hl]; rfl
  · rw [itemProgramme_channelId, hs]; rfl
  · rw [itemProgramme_startDateTime, hp]; rfl

/-! ## parseTime -/

theorem timeText_nested (H M S t : QString) :
    timeText H M S ++ t = H ++ ':' :: (M ++ ':' :: (S ++ t)) := by
  simp [timeText]

/-- The time pattern matches a text "H:M:S" at the head of the string, and the
groups are the three fields, when the third field is the greedy choice: it has 2
digits or no digit follows it. -/
theorem time_matchHere (H M S t : QString) (hf : timeFields H M S)
    (hg : S.length = 2 ∨ t.takeWhile rxDigit = []) :
    rxMatchHere ProgrammeFeedParser.m_timeRegexp.items (timeText H M S ++ t)
      = some [H, M, S] := by
  obtain ⟨⟨hH, hH1, hH2⟩, ⟨hM, hM1, hM2⟩, ⟨hS, hS1, hS2⟩⟩ := hf
  rw [timeText_nested]
  unfold ProgrammeFeedParser.m_timeRegexp
  apply rxMatchHere_cap _ _ _ _ _ _ _ hH hH1
    (Or.inr ⟨fun h hh => by cases hh; exact hH2, takeWhile_rxDigit_colon _⟩)
  rw [rxMatchHere_lit]
  apply rxMatchHere_cap _ _ _ _ _ _ _ hM hM1
    (Or.inr ⟨fun h hh => by cases hh; exact hM2, takeWhile_rxDigit_colon _⟩)
  rw [rxMatchHere_lit]
  apply rxMatchHere_cap _ _ _ _ _ _ _ hS hS1
  · rcases hg with hg | hg
    · exact Or.inl (by rw [hg])
    · exact Or.inr ⟨fun h hh => by cases hh; exact hS2, hg⟩
  · simp [rxMatchHere]

/-- Whenever the time pattern matches at the head of a string, the string starts
with a text "H:M:S" whose fields are the groups. -/
theorem time_matchHere_sound (s : QString) (caps : List QString)
    (h : rxMatchHere ProgrammeFeedParser.m_timeRegexp.items s = some caps) :
    ∃ H M S t, caps = [H, M, S] ∧ s = timeText H M S ++ t ∧ timeFields H M S := by
  unfold ProgrammeFeedParser.m_timeRegexp at h
  obtain ⟨H, t1, c1, rfl, rfl, hH, hH1, hH2, g1⟩ := rxMatchHere_cap_some _ _ _ _ _ _ h
  obtain ⟨t2, rfl, g2⟩ := rxMatchHere_lit_some _ _ _ _ g1
  obtain ⟨M, t3, c2, rfl, rfl, hM, hM1, hM2, g3⟩ := rxMatchHere_cap_some _ _ _ _ _ _ g2
  obtain ⟨t4, rfl, g4⟩ := rxMatchHere_lit_some _ _ _ _ g3
  obtain ⟨S, t5, c3, rfl, rfl, hS, hS1, hS2, g5⟩ := rxMatchHere_cap_some _ _ _ _ _ _ g4
  simp only [rxMatchHere, Option.some.injEq] at g5
  subst g5
  exact ⟨H, M, S, t5, rfl, by rw [timeText_nested],
    ⟨hH, hH1, hH2 2 rfl⟩, ⟨hM, hM1, hM2 2 rfl⟩, ⟨hS, hS1, hS2 2 rfl⟩⟩

/-- The string starts with a text "H:M:S" exactly when `indexIn` finds a match of
the anchored time pattern. -/
theorem startsWithTime_iff (s : QString) :
    startsWithTime s ↔ (ProgrammeFeedParser.m_timeRegexp.indexIn s).isSome = true := by
  have hc : ProgrammeFeedParser.m_timeRegexp.caret = true := rfl
  constructor
  · rintro ⟨H, M, S, t, hs, hf⟩
    unfold QRegExp.indexIn
    simp only [hc, if_true]
    by_cases hg : S.length = 2 ∨ t.takeWhile rxDigit = []
    · rw [hs, time_matchHere H M S t hf hg]; rfl
    · rw [not_or] at hg
      obtain ⟨hg1, hg2⟩ := hg
      cases t with
      | nil => exact absurd rfl hg2
      | cons d t' =>
        have hd : rxDigit d = true := by
          cases hdig : rxDigit d with
          | true => rfl
          | false => exact absurd (by simp [List.takeWhile, hdig]) hg2
        have hlen : S.length = 1 := by have := hf.2.2.2.1; have := hf.2.2.2.2; omega
        have hf' : timeFields H M (S ++ [d]) := by
          refine ⟨hf.1, hf.2.1, ?_, ?_, ?_⟩
          · rw [List.all_append, hf.2.2.1]; simp [hd]
          · simp
          · simp [hlen]
        have hs' : s = timeText H M (S ++ [d]) ++ t' := by
          rw [hs]; simp [timeText]
        rw [hs', time_matchHere H M (S ++ [d]) t' hf' (Or.inl (by simp [hlen]))]; rfl
  · intro h
    unfold QRegExp.indexIn at h
    simp only [hc, if_true] at h
    cases hm : rxMatchHere ProgrammeFeedParser.m_timeRegexp.items s with
    | none => rw [hm] at h; exact Bool.noConfusion h
    | some caps =>
      obtain ⟨H, M, S, t, _, hs, hf⟩ := time_matchHere_sound s caps hm
      exact ⟨H, M, S, t, hs, hf⟩

/-- What `parseTime` computes once the pattern has matched with the three fields
as groups. -/
theorem parseTime_of_match (s H M S : QString)
    (h : rxMatchHere ProgrammeFeedParser.m_timeRegexp.items s = some [H, M, S]) :
    ProgrammeFeedParser.parseTime s
      = QTime.ofHMS (QString.toIntD H) (QString.toIntD M) (QString.toIntD S) := by
  unfold ProgrammeFeedParser.parseTime QRegExp.indexIn
  have hc : ProgrammeFeedParser.m_timeRegexp.caret = true := rfl
  simp only [hc, if_true, h, Option.map_some', RxMatch.cap]
  rfl

theorem digitsValue_le_99 (d : QString) (hd : d.all Char.isDigit = true) (hl : d.length ≤ 2) :
    digitsValue d ≤ 99 := by
  rcases d with _ | ⟨a, _ | ⟨b, _ | ⟨c, r⟩⟩⟩
  · simp [digitsValue]
  · simp only [List.all_cons, List.all_nil, Bool.and_true] at hd
    have := (isDigit_iff_toNat a).mp hd
    simp only [digitsValue, List.foldl]
    have h0 : '0'.toNat = 48 := rfl
    omega
  · simp only [List.all_cons, List.all_nil, Bool.and_true, Bool.and_eq_true] at hd
    have ha := (isDigit_iff_toNat a).mp hd.1
    have hb := (isDigit_iff_toNat b).mp hd.2
    simp only [digitsValue, List.foldl]
    have h0 : '0'.toNat = 48 := rfl
    omega
  · simp at hl

theorem time_matchHere_nondigit (x : Char) (xs : QString) (hx : rxDigit x = false) :
    rxMatchHere ProgrammeFeedParser.m_timeRegexp.items (x :: xs) = none := by
  unfold ProgrammeFeedParser.m_timeRegexp
  simp [rxMatchHere, List.takeWhile, hx, firstDown]

/-- The three fields have the shape the time pattern asks for when they are
written with the digits 0 to 9. -/
theorem timeFields_ascii (H M S : QString)
    (hH : H.all Char.isDigit = true ∧ 1 ≤ H.length ∧ H.length ≤ 2)
    (hM : M.all Char.isDigit = true ∧ 1 ≤ M.length ∧ M.length ≤ 2)
    (hS : S.all Char.isDigit = true ∧ 1 ≤ S.length ∧ S.length ≤ 2) : timeFields H M S :=
  ⟨⟨all_rxDigit_of_isDigit H hH.1, hH.2⟩, ⟨all_rxDigit_of_isDigit M hM.1, hM.2⟩,
    ⟨all_rxDigit_of_isDigit S hS.1, hS.2⟩⟩

/-- No time of day: whatever the tables, "24:00:00" starts with the time pattern
and `parseTime` returns the null time for it. -/
theorem parseTime_no_time_of_day :
    startsWithTime "24:00:00".toList
    ∧ ProgrammeFeedParser.parseTime "24:00:00".toList = QTime.null
    ∧ (ProgrammeFeedParser.parseTime "24:00:00".toList).isNull = true := by
  have hf : timeFields "24".toList "00".toList "00".toList :=
    timeFields_ascii _ _ _ (by decide) (by decide) (by decide)
  have hm := time_matchHere _ _ _ [] hf (Or.inl rfl)
  have hp : ProgrammeFeedParser.parseTime "24:00:00".toList = QTime.null := by
    rw [parseTime_of_match "24:00:00".toList _ _ _ hm]
    decide
  refine ⟨⟨"24".toList, "00".toList, "00".toList, [], rfl, hf⟩, hp, ?_⟩
  rw [hp]
  rfl

/-- C11, amended: when the string starts with a text "H:M:S" of 1 or 2 digits
each (the third field being what the greedy pattern takes: 2 digits, or 1 digit
not followed by a digit), `parseTime` returns `QTime(h, m, s)` for the values
`toInt` gives the three fields; so when the fields are written with the digits 0
to 9 and the three numbers are a time of day (hour < 24, minute < 60,
second < 60) it returns a valid, non-null time with that hour, minute and
second, and when the numbers are no time of day it returns the null time (a
field `toInt` does not convert counts as 0).  When the string does not start
with the pattern it returns the null time.  "09:30:05" gives 9h30m5s and
"not-a-time" gives null. -/
theorem parseTime_result (s : QString) :
    (∀ H M S t : QString, s = timeText H M S ++ t → timeFields H M S →
        (S.length = 2 ∨ t.takeWhile rxDigit = []) →
        ProgrammeFeedParser.parseTime s
          = QTime.ofHMS (QString.toIntD H) (QString.toIntD M) (QString.toIntD S)
        ∧ (H.all Char.isDigit = true → M.all Char.isDigit = true →
            S.all Char.isDigit = true →
          ((digitsValue H < 24 ∧ digitsValue M < 60 ∧ digitsValue S < 60) →
            (ProgrammeFeedParser.parseTime s).isValid = true
            ∧ (ProgrammeFeedParser.parseTime s).isNull = false
            ∧ (ProgrammeFeedParser.parseTime s).hour = (digitsValue H : Int)
            ∧ (ProgrammeFeedParser.parseTime s).minute = (digitsValue M : Int)
            ∧ (ProgrammeFeedParser.parseTime s).second = (digitsValue S : Int))
          ∧ (¬ (digitsValue H < 24 ∧ digitsValue M < 60 ∧ digitsValue S < 60) →
            ProgrammeFeedParser.parseTime s = QTime.null)))
    ∧ (¬ startsWithTime s → ProgrammeFeedParser.parseTime s = QTime.null)
    ∧ ((ProgrammeFeedParser.parseTime "09:30:05".toList).hour = 9
        ∧ (ProgrammeFeedParser.parseTime "09:30:05".toList).minute = 30
        ∧ (ProgrammeFeedParser.parseTime "09:30:05".toList).second = 5)
    ∧ ProgrammeFeedParser.parseTime "not-a-time".toList = QTime.null := by
  refine ⟨?_, ?_, ?_, ?_⟩
  · intro H M S t hs hf hg
    have hm := time_matchHere H M S t hf hg
    rw [← hs] at hm
    obtain ⟨⟨_, hH1, hH2⟩, ⟨_, hM1, hM2⟩, ⟨_, hS1, hS2⟩⟩ := hf
    refine ⟨parseTime_of_match s H M S hm, ?_⟩
    intro hH hM hS
    have bH := digitsValue_le_99 H hH hH2
    have bM := digitsValue_le_99 M hM hM2
    have bS := digitsValue_le_99 S hS hS2
    have e1 := toIntD_digits H (ne_nil_of_length_pos H hH1) hH (by unfold INT_MAX; omega)
    have e2 := toIntD_digits M (ne_nil_of_length_pos M hM1) hM (by unfold INT_MAX; omega)
    have e3 := toIntD_digits S (ne_nil_of_length_pos S hS1) hS (by unfold INT_MAX; omega)
    rw [parseTime_of_match s H M S hm, e1, e2, e3]
    constructor
    · rintro ⟨h1, h2, h3⟩
      have hval : QTime.isValidHMS (digitsValue H) (digitsValue M) (digitsValue S) = true := by
        simp only [QTime.isValidHMS, Bool.and_eq_true, decide_eq_true_eq]
        omega
      simp only [QTime.ofHMS, hval, if_true, QTime.isValid, QTime.isNull, QTime.hour,
        QTime.minute, QTime.second, Bool.and_eq_true, decide_eq_true_eq]
      refine ⟨⟨by omega, by omega⟩, ?_, by omega, by omega, by omega⟩
      rw [beq_eq_false_iff_ne]; omega
    · intro hbad
      have hval : QTime.isValidHMS (digitsValue H) (digitsValue M) (digitsValue S) = false := by
        rw [Bool.eq_false_iff]
        intro hv
        simp only [QTime.isValidHMS, Bool.and_eq_true, decide_eq_true_eq] at hv
        exact hbad ⟨by omega, by omega, by omega⟩
      simp [QTime.ofHMS, hval]
  · intro hno
    have hnone : ProgrammeFeedParser.m_timeRegexp.indexIn s = none := by
      cases hm : ProgrammeFeedParser.m_timeRegexp.indexIn s with
      | none => rfl
      | some m => exact absurd ((startsWithTime_iff s).mpr (by rw [hm]; rfl)) hno
    unfold ProgrammeFeedParser.parseTime
    rw [hnone]
  · have hf : timeFields "09".toList "30".toList "05".toList :=
      timeFields_ascii _ _ _ (by decide) (by decide) (by decide)
    have hm := time_matchHere _ _ _ [] hf (Or.inl rfl)
    have hp : ProgrammeFeedParser.parseTime "09:30:05".toList = QTime.ofHMS 9 30 5 := by
      rw [parseTime_of_match "09:30:05".toList _ _ _ hm]
      decide
    rw [hp]
    decide
  · have hx : rxDigit 'n' = false := by rw [rxDigit_ascii 'n' (by decide)]; rfl
    have hm := time_matchHere_nondigit 'n' "ot-a-time".toList hx
    have hc : ProgrammeFeedParser.m_timeRegexp.caret = true := rfl
    unfold ProgrammeFeedParser.parseTime QRegExp.indexIn
    simp only [hc, if_true]
    rw [show "not-a-time".toList = 'n' :: "ot-a-time".toList from rfl, hm]
    rfl

/-! ## The media-group walker and the duration -/

theorem mediaGroupChild_fields (self : ProgrammeFeedParser) (p : Programme) :
    (ProgrammeFeedParser.mediaGroupChild self p).2.title = p.title
    ∧ (ProgrammeFeedParser.mediaGroupChild self p).2.description = p.description
    ∧ (ProgrammeFeedParser.mediaGroupChild self p).2.id = p.id
    ∧ (ProgrammeFeedParser.mediaGroupChild self p).2.channelId = p.channelId
    ∧ (ProgrammeFeedParser.mediaGroupChild self p).2.startDateTime = p.startDateTime := by
  unfold ProgrammeFeedParser.mediaGroupChild
  split_ifs <;> (try split) <;> exact ⟨rfl, rfl, rfl, rfl, rfl⟩

theorem parseMediaGroupElement_fields (fuel : Nat) (self : ProgrammeFeedParser)
    (p : Programme) (r : ProgrammeFeedParser × Programme)
    (h : ProgrammeFeedParser.parseMediaGroupElement fuel self p = some r) :
    r.2.title = p.title ∧ r.2.description = p.description ∧ r.2.id = p.id
    ∧ r.2.channelId = p.channelId ∧ r.2.startDateTime = p.startDateTime := by
  induction fuel generalizing self p with
  | zero => exact Option.noConfusion h
  | succ fuel ih =>
    unfold ProgrammeFeedParser.parseMediaGroupElement at h
    cases hr : self.m_reader.readNextStartElement with
    | mk more reader =>
      rw [hr] at h
      cases more with
      | false =>
        simp only [Option.some.injEq] at h
        subst h
        exact ⟨rfl, rfl, rfl, rfl, rfl⟩
      | true =>
        simp only at h
        have hc := mediaGroupChild_fields { self with m_reader := reader } p
        cases hb : ProgrammeFeedParser.mediaGroupChild { self with m_reader := reader } p with
        | mk self' p' =>
          rw [hb] at h hc
          simp only at h hc
          obtain ⟨a1, a2, a3, a4, a5⟩ := ih self' p' h
          obtain ⟨b1, b2, b3, b4, b5⟩ := hc
          exact ⟨a1.trans b1, a2.trans b2, a3.trans b3, a4.trans b4, a5.trans b5⟩

theorem value_of_absent (attrs : QXmlStreamAttributes) (q : QString)
    (h : ∀ a ∈ attrs, a.1 ≠ q) : QXmlStreamAttributes.value attrs q = [] := by
  unfold QXmlStreamAttributes.value
  have : attrs.find? (fun a => decide (a.1 = q)) = none := by
    rw [List.find?_eq_none]
    intro a ha
    simpa using h a ha
  rw [this]

/-- C13: in the media-group walker a `media:content` child sets the duration of
the programme to the integer its "duration" attribute converts to, and leaves
the programme as it was when the attribute does not convert (a missing
attribute reads as the empty text, which does not convert); said of one turn of
the loop, and of the children of a `media:group` in a document; whatever the
children are, the walker returns and changes none of title, description, id,
channelId and startDateTime. -/
theorem media_content_sets_duration :
    (∀ (self : ProgrammeFeedParser) (p : Programme),
        self.m_reader.qualifiedName = "media:content".toList →
        (ProgrammeFeedParser.mediaGroupChild self p).2
          = match QString.toInt (self.m_reader.attributes.value "duration".toList) with
            | some duration => { p with duration := duration }
            | none => p)
    ∧ (∀ (p : Programme) (a b : List Xml) (pfx name : QString) (attrs : QXmlStreamAttributes)
        (sub : List Xml), qualifiedNameOf pfx name = "media:content".toList →
        groupProgramme p (a ++ Xml.element pfx name attrs sub :: b)
          = groupProgramme
              (match QString.toInt (attrs.value "duration".toList) with
                | some duration => { groupProgramme p a with duration := duration }
                | none => groupProgramme p a) b)
    ∧ (∀ (kids : List Xml) (fuel : Nat) (c : Option Token) (rest : List Token) (e : QString)
        (ps : List Programme) (th : List Thumbnail) (p : Programme),
        (Xml.tokensOfList kids).length < fuel →
        ∃ self', ProgrammeFeedParser.parseMediaGroupElement fuel
            ⟨⟨Xml.tokensOfList kids ++ Token.endElement :: rest, c⟩, e, ps, th⟩ p
          = some (self', groupProgramme p kids))
    ∧ (∀ (fuel : Nat) (self : ProgrammeFeedParser) (p : Programme),
        self.m_reader.pending.length < fuel →
        ∃ r, ProgrammeFeedParser.parseMediaGroupElement fuel self p = some r
          ∧ r.2.title = p.title ∧ r.2.description = p.description ∧ r.2.id = p.id
          ∧ r.2.channelId = p.channelId ∧ r.2.startDateTime = p.startDateTime)
    ∧ QString.toInt [] = none
    ∧ (∀ attrs : QXmlStreamAttributes, (∀ a ∈ attrs, a.1 ≠ "duration".toList) →
        QString.toInt (attrs.value "duration".toList) = none) := by
  refine ⟨?_, ?_, ?_, ?_, by decide, ?_⟩
  · intro self p hq
    unfold ProgrammeFeedParser.mediaGroupChild
    rw [if_pos hq]
    cases QString.toInt (self.m_reader.attributes.value "duration".toList) <;> rfl
  · intro p a b pfx name attrs sub hq
    unfold groupProgramme
    rw [List.foldl_append, List.foldl_cons]
    congr 1
    simp only [groupChildProgramme, hq, if_true]
  · intro kids fuel c rest e ps th p hfuel
    exact ⟨_, parseMediaGroupElement_children kids fuel c rest e ps th p hfuel⟩
  · intro fuel self p hfuel
    obtain ⟨r, hr, _⟩ := parseMediaGroupElement_total fuel self p hfuel
    exact ⟨r, hr, parseMediaGroupElement_fields fuel self p r hr⟩
  · intro attrs h
    rw [value_of_absent attrs _ h]
    decide

/-! ## The link of an item -/

theorem prefixed_link_not_group (pfx : QString) :
    ¬ pfx ++ ':' :: "link".toList = "media:group".toList := by
  intro h
  have := congrArg List.reverse h
  simp at this

/-- C14, amended: a child element of an item whose qualified name is exactly
"link" (no prefix) and which holds character data only sets the id of the
programme to `parseProgrammeId` of its text; a child of local name "link" that
carries a prefix (such as "atom:link") is skipped and leaves the programme as
it was. -/
theorem link_sets_id (fuel : Nat) (attrs : QXmlStreamAttributes) (sub : List Xml)
    (rest : List Token) (e : QString) (ps : List Programme) (th : List Thumbnail)
    (p : Programme) :
    (sub.all (fun k => !k.isElement) = true →
      ProgrammeFeedParser.itemChild fuel
          ⟨⟨Xml.tokensOfList sub ++ Token.endElement :: rest,
            some (Token.startElement [] "link".toList attrs)⟩, e, ps, th⟩ p
        = some (⟨⟨rest, some Token.endElement⟩, e, ps, th⟩,
                { p with id := ProgrammeFeedParser.parseProgrammeId (Xml.textOf sub) }))
    ∧ (∀ pfx : QString, pfx ≠ [] →
      ProgrammeFeedParser.itemChild fuel
          ⟨⟨Xml.tokensOfList sub ++ Token.endElement :: rest,
            some (Token.startElement pfx "link".toList attrs)⟩, e, ps, th⟩ p
        = some (⟨⟨rest, some Token.endElement⟩, e, ps, th⟩, p)) := by
  constructor
  · intro hk
    unfold ProgrammeFeedParser.itemChild
    have hn : QXmlStreamReader.name
        ⟨Xml.tokensOfList sub ++ Token.endElement :: rest,
          some (Token.startElement [] "link".toList attrs)⟩ = "link".toList := rfl
    have hq : QXmlStreamReader.qualifiedName
        ⟨Xml.tokensOfList sub ++ Token.endElement :: rest,
          some (Token.startElement [] "link".toList attrs)⟩ = "link".toList := rfl
    simp only [hn, hq]
    rw [if_neg (by decide), if_neg (by decide), if_pos trivial,
      readElementText_leaves [] "link".toList attrs sub rest hk]
  · intro pfx hp
    unfold ProgrammeFeedParser.itemChild
    have hn : QXmlStreamReader.name
        ⟨Xml.tokensOfList sub ++ Token.endElement :: rest,
          some (Token.startElement pfx "link".toList attrs)⟩ = "link".toList := rfl
    have hq : QXmlStreamReader.qualifiedName
        ⟨Xml.tokensOfList sub ++ Token.endElement :: rest,
          some (Token.startElement pfx "link".toList attrs)⟩ = pfx ++ ':' :: "link".toList := by
      simp [QXmlStreamReader.qualifiedName, hp]
    have hl : ¬ pfx ++ ':' :: "link".toList = "link".toList := by
      intro h
      have := congrArg List.length h
      simp at this
    simp only [hn, hq, skipCurrentElement_children]
    rw [if_neg (by decide), if_neg (by decide), if_neg hl, if_neg (by decide),
      if_neg (by decide), if_neg (prefixed_link_not_group pfx)]

/-! ## lastError() -/

theorem parse_error_text (newProgramme : Programme) (self : ProgrammeFeedParser)
    (device : List Token) (ok : Bool) (s' : ProgrammeFeedParser)
    (h : ProgrammeFeedParser.parse newProgramme self device = some (ok, s')) :
    (ok = true → s'.m_error = self.m_error)
    ∧ (ok = false → s'.m_error = "Invalid programme feed".toList
        ∨ s'.m_error = "Channel feed does not contain rss element".toList) := by
  constructor
  · intro hok
    subst hok
    rw [parse_on_any_object] at h
    cases hf : ProgrammeFeedParser.parse newProgramme ProgrammeFeedParser.new device with
    | none => rw [hf] at h; exact Option.noConfusion h
    | some r =>
      rw [hf] at h
      simp only [Option.map_some', Option.some.injEq, Prod.mk.injEq] at h
      obtain ⟨h1, h2⟩ := h
      rw [← h2]
      simp [h1]
  · intro hok
    subst hok
    unfold ProgrammeFeedParser.parse ProgrammeFeedParser.parseWith at h
    simp only at h
    cases hr : (QXmlStreamReader.setDevice device).readNextStartElement with
    | mk more reader =>
      rw [hr] at h
      cases more with
      | false =>
        simp only [Option.some.injEq, Prod.mk.injEq, true_and] at h
        subst h
        exact Or.inl rfl
      | true =>
        simp only at h
        split_ifs at h with hn
        · simp only [Option.some.injEq, Prod.mk.injEq, true_and] at h
          subst h
          exact Or.inr rfl
        · cases hl : ProgrammeFeedParser.parseLoop newProgramme (device.length + 1)
              { m_reader := reader, m_error := self.m_error, m_programmes := [],
                m_thumbnails := self.m_thumbnails } with
          | none => rw [hl] at h; exact Option.noConfusion h
          | some s =>
            rw [hl] at h
            simp at h

theorem parseAll_error_text (newProgramme : Programme) (devices : List (List Token)) :
    ∀ s0 : ProgrammeFeedParser, ∃ oks s',
      ProgrammeFeedParser.parseAll newProgramme s0 devices = some (oks, s')
      ∧ ((∀ ok ∈ oks, ok = true) → s'.m_error = s0.m_error) := by
  induction devices with
  | nil => intro s0; exact ⟨[], s0, rfl, fun _ => rfl⟩
  | cons d ds ih =>
    intro s0
    obtain ⟨⟨ok, s1⟩, h1⟩ := parse_total newProgramme s0 d
    obtain ⟨oks, s', h2, h3⟩ := ih s1
    refine ⟨ok :: oks, s', ?_, ?_⟩
    · simp only [ProgrammeFeedParser.parseAll, h1, h2]
    · intro hall
      have hok : ok = true := hall ok (List.mem_cons_self _ _)
      have := (parse_error_text newProgramme s0 d ok s1 h1).1 hok
      rw [h3 (fun b hb => hall b (List.mem_cons_of_mem _ hb)), this]

/-- C15: a `parse` that succeeds leaves the stored error text as it was; a
`parse` that fails stores one of its two messages; hence after a failing call
followed by any number of successful calls `lastError()` still returns the
message of the failing call; the three accessors only read the object. -/
theorem lastError_kept_by_success (newProgramme : Programme) (self : ProgrammeFeedParser) :
    (∀ (device : List Token) (s' : ProgrammeFeedParser),
        ProgrammeFeedParser.parse newProgramme self device = some (true, s') →
        s'.lastError = self.lastError)
    ∧ (∀ (device : List Token) (s' : ProgrammeFeedParser),
        ProgrammeFeedParser.parse newProgramme self device = some (false, s') →
        s'.lastError = "Invalid programme feed".toList
        ∨ s'.lastError = "Channel feed does not contain rss element".toList)
    ∧ (∀ (device : List Token) (devices : List (List Token)) (s0 : ProgrammeFeedParser),
        ProgrammeFeedParser.parse newProgramme self device = some (false, s0) →
        ∃ oks s', ProgrammeFeedParser.parseAll newProgramme s0 devices = some (oks, s')
          ∧ ((∀ ok ∈ oks, ok = true) → s'.lastError = s0.lastError))
    ∧ (self.lastError = self.m_error ∧ self.programmes = self.m_programmes
        ∧ self.thumbnails = self.m_thumbnails) := by
  refine ⟨?_, ?_, ?_, rfl, rfl, rfl⟩
  · intro device s' h
    exact (parse_error_text newProgramme self device true s' h).1 rfl
  · intro device s' h
    exact (parse_error_text newProgramme self device false s' h).2 rfl
  · intro device devices s0 _
    exact parseAll_error_text newProgramme devices s0

/-! ## A failing parse -/

theorem parse_failure_state (newProgramme : Programme) (self : ProgrammeFeedParser)
    (device : List Token) (s' : ProgrammeFeedParser)
    (h : ProgrammeFeedParser.parse newProgramme self device = some (false, s')) :
    s'.m_programmes = [] ∧ s'.m_thumbnails = self.m_thumbnails := by
  unfold ProgrammeFeedParser.parse ProgrammeFeedParser.parseWith at h
  simp only at h
  cases hr : (QXmlStreamReader.setDevice device).readNextStartElement with
  | mk more reader =>
    rw [hr] at h
    cases more with
    | false =>
      simp only [Option.some.injEq, Prod.mk.injEq, true_and] at h
      subst h
      exact ⟨rfl, rfl⟩
    | true =>
      simp only at h
      split_ifs at h with hn
      · simp only [Option.some.injEq, Prod.mk.injEq, true_and] at h
        subst h
        exact ⟨rfl, rfl⟩
      · cases hl : ProgrammeFeedParser.parseLoop newProgramme (device.length + 1)
            { m_reader := reader, m_error := self.m_error, m_programmes := [],
              m_thumbnails := self.m_thumbnails } with
        | none => rw [hl] at h; exact Option.noConfusion h
        | some s =>
          rw [hl] at h
          simp at h

theorem parse_fails_of_topLevel (newProgramme : Programme) (self : ProgrammeFeedParser)
    (device : List Token) (h : topLevelName device ≠ some "rss".toList) :
    ∃ s', ProgrammeFeedParser.parse newProgramme self device = some (false, s') := by
  have htop := readNextStartElementFrom_topLevel device
  unfold ProgrammeFeedParser.parse ProgrammeFeedParser.parseWith
  simp only [QXmlStreamReader.readNextStartElement, QXmlStreamReader.setDevice]
  cases hr : readNextStartElementFrom device with
  | mk more reader =>
    rw [hr] at htop
    cases more with
    | false => exact ⟨_, rfl⟩
    | true =>
      have hname : reader.name ≠ "rss".toList := by
        cases ht : topLevelName device with
        | none => exact absurd (htop.1 ht) (by simp)
        | some n =>
          have := (htop.2 n ht).2
          simp only at this
          rw [this]
          intro hn
          exact h (by rw [ht, hn])
      simp only [hname, ne_eq, not_false_eq_true, if_true]
      exact ⟨_, rfl⟩

/-- C17: when `parse` fails, which it does whenever the document has no
top-level element or its top-level element is not "rss", `programmes()` is the
empty list afterwards, whatever the object held before, and `thumbnails()` is
what it was before the call. -/
theorem failed_parse_clears_programmes (newProgramme : Programme)
    (self : ProgrammeFeedParser) (device : List Token) :
    (∀ s', ProgrammeFeedParser.parse newProgramme self device = some (false, s') →
        s'.programmes = [] ∧ s'.thumbnails = self.thumbnails)
    ∧ (topLevelName device ≠ some "rss".toList →
        ∃ s', ProgrammeFeedParser.parse newProgramme self device = some (false, s')
          ∧ s'.programmes = [] ∧ s'.thumbnails = self.thumbnails) := by
  constructor
  · intro s' h
    exact parse_failure_state newProgramme self device s' h
  · intro h
    obtain ⟨s', hs⟩ := parse_fails_of_topLevel newProgramme self device h
    exact ⟨s', hs, parse_failure_state newProgramme self device s' hs⟩

/-! ## parseDateTime searches the string -/

end

/-! ## The range of the identifiers -/

theorem toInt_range (s : QString) (v : Int) (h : QString.toInt s = some v) :
    INT_MIN ≤ v ∧ v ≤ INT_MAX := by
  unfold QString.toInt at h
  simp only at h
  split_ifs at h <;> first
    | exact Option.noConfusion h
    | (simp only [Option.some.injEq] at h; subst h; assumption)

theorem toInt_digits_overflow (d : QString) (hd : d.all Char.isDigit = true)
    (hbig : INT_MAX < (digitsValue d : Int)) : QString.toInt d = none := by
  unfold QString.toInt
  simp only [trim_digits d hd, splitSign_digits d hd, Bool.false_eq_true, if_false]
  split_ifs with h1 h2
  · exact absurd h2.2 (by omega)
  · rfl
  · rfl

theorem parseProgrammeId_range (s : QString) :
    INT_MIN ≤ ProgrammeFeedParser.parseProgrammeId s
    ∧ ProgrammeFeedParser.parseProgrammeId s ≤ INT_MAX := by
  unfold ProgrammeFeedParser.parseProgrammeId
  simp only
  split
  · unfold INT_MIN INT_MAX; omega
  · rename_i v hv
    exact toInt_range _ v hv

theorem parseChannelId_range (s : QString) :
    INT_MIN ≤ ProgrammeFeedParser.parseChannelId s
    ∧ ProgrammeFeedParser.parseChannelId s ≤ INT_MAX := by
  have hm : INT_MIN ≤ (-1 : Int) ∧ (-1 : Int) ≤ INT_MAX := by unfold INT_MIN INT_MAX; omega
  unfold ProgrammeFeedParser.parseChannelId
  simp only
  split_ifs
  · exact hm
  · exact hm
  · split
    · exact hm
    · rename_i v hv
      exact toInt_range _ v hv

/-- C20: for every string, `parseProgrammeId` and `parseChannelId` lie between
-2147483648 and 2147483647; and when the text they select is a string of digits
whose value is greater than 2147483647 the result is -1: so for the chosen
substring of `parseProgrammeId`, for a string p ++ "channels/" ++ d ++ "/" ++ t
whose p does not contain "channels/", for "x=2147483648" and for
"channels/99999999999/". -/
theorem ids_within_int (s : QString) :
    (INT_MIN ≤ ProgrammeFeedParser.parseProgrammeId s
      ∧ ProgrammeFeedParser.parseProgrammeId s ≤ INT_MAX)
    ∧ (INT_MIN ≤ ProgrammeFeedParser.parseChannelId s
      ∧ ProgrammeFeedParser.parseChannelId s ≤ INT_MAX)
    ∧ ((chosenSubstring s).all Char.isDigit = true →
        INT_MAX < (digitsValue (chosenSubstring s) : Int) →
        ProgrammeFeedParser.parseProgrammeId s = -1)
    ∧ (∀ p d t : QString, s = p ++ "channels/".toList ++ d ++ "/".toList ++ t →
        ¬ "channels/".toList <:+: p → d.all Char.isDigit = true →
        INT_MAX < (digitsValue d : Int) → ProgrammeFeedParser.parseChannelId s = -1)
    ∧ ProgrammeFeedParser.parseProgrammeId "x=2147483648".toList = -1
    ∧ ProgrammeFeedParser.parseChannelId "channels/99999999999/".toList = -1 := by
  refine ⟨parseProgrammeId_range s, parseChannelId_range s, ?_, ?_, by decide, by decide⟩
  · intro hd hbig
    unfold ProgrammeFeedParser.parseProgrammeId
    simp only [mid_after_separator_eq_chosenSubstring s,
      toInt_digits_overflow (chosenSubstring s) hd hbig]
  · intro p d t hs hp hd hbig
    have hsl : '/' ∉ d := not_mem_of_all_digits d '/' hd (by decide)
    have hs' : s = (p ++ "channels/".toList) ++ d ++ ('/' :: t) := by rw [hs]; simp
    subst hs'
    have hlen : (((p ++ "channels/".toList).length : Nat) : Int) = (p.length : Int) + 9 := by
      simp [List.length_append]
    unfold ProgrammeFeedParser.parseChannelId
    have hidx : QString.indexOf ((p ++ "channels/".toList) ++ d ++ ('/' :: t))
        "channels/".toList = p.length := by
      rw [List.append_assoc (p ++ "channels/".toList)]
      exact indexOf_channels_first p (d ++ '/' :: t) hp
    have h0 : ¬ ((p.length : Int) < 0) := by omega
    simp only [hidx, h0, if_false]
    have hpos2 : QString.indexOfChar ((p ++ "channels/".toList) ++ d ++ ('/' :: t)) '/'
        ((p.length : Int) + 9) = (d.length : Int) + ((p.length : Int) + 9) := by
      rw [← hlen, List.append_assoc (p ++ "channels/".toList),
        indexOfChar_at _ _ _ (by simp), indexOfChar0_append_cons d t '/' hsl]
      have : (0 : Int) ≤ (d.length : Int) := Int.ofNat_nonneg _
      simp [this]
    have h1 : ¬ ((d.length : Int) + ((p.length : Int) + 9) < 0) := by omega
    simp only [hpos2, h1, if_false]
    have hsub : (d.length : Int) + ((p.length : Int) + 9) - ((p.length : Int) + 9)
        = d.length := by omega
    rw [hsub, ← hlen, mid_slice, toInt_digits_overflow d hd hbig]

/-- C20 at "x=2147483648" and at "channels/99999999999/": both digit strings are
greater than 2147483647 and both results are -1. -/
theorem ids_within_int_witness :
    ProgrammeFeedParser.parseProgrammeId "x=2147483648".toList = -1
    ∧ ProgrammeFeedParser.parseChannelId "channels/99999999999/".toList = -1 :=
  ⟨(ids_within_int "x=2147483648".toList).2.2.1 (by decide) (by decide),
   (ids_within_int "channels/99999999999/".toList).2.2.2.1 [] "99999999999".toList []
     (by decide) (by decide) (by decide) (by decide)⟩

section

variable [QCharTables]

/-! ## The walkers on any tree -/

theorem readElementTextFrom_children (kids : List Xml) (acc : QString) (rest : List Token) :
    readElementTextFrom acc (Xml.tokensOfList kids ++ Token.endElement :: rest)
      = (acc ++ (Xml.readText kids).1, readerAfter (Xml.readText kids).2 rest) := by
  induction kids generalizing acc with
  | nil => simp [Xml.tokensOfList, readElementTextFrom, Xml.readText, readerAfter]
  | cons x xs ih =>
    rw [tokensOfList_cons, List.append_assoc]
    cases x with
    | element pfx name attrs children =>
      rw [tokens_element_append]
      simp [readElementTextFrom, Xml.readText, readerAfter]
    | text s =>
      show readElementTextFrom (acc ++ s) (Xml.tokensOfList xs ++ Token.endElement :: rest) = _
      rw [ih]
      simp [Xml.readText]
    | entity s =>
      show readElementTextFrom (acc ++ s) (Xml.tokensOfList xs ++ Token.endElement :: rest) = _
      rw [ih]
      simp [Xml.readText]
    | comment =>
      show readElementTextFrom acc (Xml.tokensOfList xs ++ Token.endElement :: rest) = _
      rw [ih]
      simp [Xml.readText]
    | pi =>
      show readElementTextFrom acc (Xml.tokensOfList xs ++ Token.endElement :: rest) = _
      rw [ih]
      simp [Xml.readText]

theorem readElementText_children (pfx name : QString) (attrs : QXmlStreamAttributes)
    (sub : List Xml) (rest : List Token) :
    QXmlStreamReader.readElementText
        ⟨Xml.tokensOfList sub ++ Token.endElement :: rest,
          some (Token.startElement pfx name attrs)⟩
      = ((Xml.readText sub).1, readerAfter (Xml.readText sub).2 rest) := by
  unfold QXmlStreamReader.readElementText
  simp only
  rw [readElementTextFrom_children sub]
  rfl

theorem itemChild_outcome (pfx name : QString) (attrs : QXmlStreamAttributes)
    (sub : List Xml) (fuel : Nat) (rest : List Token) (e : QString) (ps : List Programme)
    (th : List Thumbnail) (p : Programme)
    (hfuel : (Xml.tokensOfList sub).length < fuel) :
    ProgrammeFeedParser.itemChild fuel
        ⟨⟨Xml.tokensOfList sub ++ Token.endElement :: rest,
          some (Token.startElement pfx name attrs)⟩, e, ps, th⟩ p
      = some (⟨readerAfter (itemChildOutcome p (Xml.element pfx name attrs sub)).2.2 rest, e, ps,
                th ++ (itemChildOutcome p (Xml.element pfx name attrs sub)).1⟩,
              (itemChildOutcome p (Xml.element pfx name attrs sub)).2.1) := by
  unfold ProgrammeFeedParser.itemChild itemChildOutcome
  have hq : QXmlStreamReader.qualifiedName
      ⟨Xml.tokensOfList sub ++ Token.endElement :: rest,
        some (Token.startElement pfx name attrs)⟩ = qualifiedNameOf pfx name := rfl
  have hn : QXmlStreamReader.name
      ⟨Xml.tokensOfList sub ++ Token.endElement :: rest,
        some (Token.startElement pfx name attrs)⟩ = name := rfl
  have ha : QXmlStreamReader.attributes
      ⟨Xml.tokensOfList sub ++ Token.endElement :: rest,
        some (Token.startElement pfx name attrs)⟩ = attrs := rfl
  simp only [hq, hn, ha, skipCurrentElement_children, readElementText_children]
  split_ifs with h1 h2 h3 h4 h5 h6
  · simp
  · simp
  · simp
  · simp [readerAfter]
  · simp
  · rw [parseMediaGroupElement_children sub fuel _ rest e ps th p hfuel]
    simp [readerAfter]
  · simp [readerAfter]

theorem parseItemLoop_invalid (fuel : Nat) (e : QString) (ps : List Programme)
    (th : List Thumbnail) (p : Programme) :
    ProgrammeFeedParser.parseItemLoop (fuel + 1) ⟨QXmlStreamReader.invalid, e, ps, th⟩ p
      = some (⟨QXmlStreamReader.invalid, e, ps, th⟩, p) := by
  unfold ProgrammeFeedParser.parseItemLoop
  rfl

theorem parseItemLoop_walk (kids : List Xml) :
    ∀ (fuel : Nat) (c : Option Token) (rest : List Token) (e : QString)
      (ps : List Programme) (th : List Thumbnail) (p : Programme),
      (Xml.tokensOfList kids).length < fuel →
      ProgrammeFeedParser.parseItemLoop fuel
          ⟨⟨Xml.tokensOfList kids ++ Token.endElement :: rest, c⟩, e, ps, th⟩ p
        = some (⟨readerAfter (itemWalk kids p).2.2 rest, e, ps, th ++ (itemWalk kids p).1⟩,
                (itemWalk kids p).2.1) := by
  induction kids with
  | nil =>
    intro fuel c rest e ps th p hfuel
    cases fuel with
    | zero => exact absurd hfuel (Nat.not_lt_zero _)
    | succ fuel =>
      unfold ProgrammeFeedParser.parseItemLoop
      simp [tokensOfList_nil, QXmlStreamReader.readNextStartElement, readNextStartElementFrom,
        itemWalk, readerAfter]
  | cons x xs ih =>
    intro fuel c rest e ps th p hfuel
    rw [tokensOfList_cons, List.length_append] at hfuel
    rw [tokensOfList_cons, List.append_assoc]
    cases hx : x.isElement with
    | false =>
      rw [parseItemLoop_reader fuel _ (Xml.tokensOfList xs ++ Token.endElement :: rest)
        c c e ps th p (readNextStartElementFrom_leaf x hx _)]
      rw [ih fuel c rest e ps th p (by omega)]
      cases x <;> first
        | exact Bool.noConfusion hx
        | simp [itemWalk, itemChildOutcome]
    | true =>
      cases x with
      | element pfx name attrs sub =>
        cases fuel with
        | zero => exact absurd hfuel (Nat.not_lt_zero _)
        | succ fuel =>
          rw [tokens_element, List.length_cons, List.length_append] at hfuel
          unfold ProgrammeFeedParser.parseItemLoop
          simp only [QXmlStreamReader.readNextStartElement, readNextStartElementFrom_element]
          rw [itemChild_outcome pfx name attrs sub fuel _ e ps th p (by omega)]
          simp only
          cases hok : (itemChildOutcome p (Xml.element pfx name attrs sub)).2.2 with
          | true =>
            simp only [readerAfter, if_true]
            rw [ih fuel _ rest e ps _ _ (by omega)]
            simp [itemWalk, hok, readerAfter]
          | false =>
            simp only [readerAfter, Bool.false_eq_true, if_false]
            cases fuel with
            | zero => omega
            | succ fuel =>
              rw [parseItemLoop_invalid]
              simp [itemWalk, hok, readerAfter]
      | text s => exact Bool.noConfusion hx
      | entity s => exact Bool.noConfusion hx
      | comment => exact Bool.noConfusion hx
      | pi => exact Bool.noConfusion hx

theorem parseItemElement_walk (newProgramme : Programme) (kids : List Xml) (fuel : Nat)
    (c : Option Token) (rest : List Token) (e : QString) (ps : List Programme)
    (th : List Thumbnail) (hfuel : (Xml.tokensOfList kids).length < fuel) :
    ProgrammeFeedParser.parseItemElement newProgramme fuel
        ⟨⟨Xml.tokensOfList kids ++ Token.endElement :: rest, c⟩, e, ps, th⟩
      = some ⟨readerAfter (itemWalk kids newProgramme).2.2 rest, e,
              ps ++ [(itemWalk kids newProgramme).2.1],
              th ++ (itemWalk kids newProgramme).1⟩ := by
  unfold ProgrammeFeedParser.parseItemElement
  rw [parseItemLoop_walk kids fuel c rest e ps th newProgramme hfuel]

theorem parseChannelElement_invalid (newProgramme : Programme) (fuel : Nat) (e : QString)
    (ps : List Programme) (th : List Thumbnail) :
    ProgrammeFeedParser.parseChannelElement newProgramme (fuel + 1)
        ⟨QXmlStreamReader.invalid, e, ps, th⟩
      = some ⟨QXmlStreamReader.invalid, e, ps, th⟩ := by
  unfold ProgrammeFeedParser.parseChannelElement
  rfl

theorem parseChannelElement_walk (newProgramme : Programme) (kids : List Xml) :
    ∀ (fuel : Nat) (c : Option Token) (rest : List Token) (e : QString)
      (ps : List Programme) (th : List Thumbnail),
      (Xml.tokensOfList kids).length < fuel →
      ProgrammeFeedParser.parseChannelElement newProgramme fuel
          ⟨⟨Xml.tokensOfList kids ++ Token.endElement :: rest, c⟩, e, ps, th⟩
        = some ⟨readerAfter (channelWalk newProgramme kids).2.2 rest, e,
            ps ++ (channelWalk newProgramme kids).2.1,
            th ++ (channelWalk newProgramme kids).1⟩ := by
  induction kids with
  | nil =>
    intro fuel c rest e ps th hfuel
    cases fuel with
    | zero => exact absurd hfuel (Nat.not_lt_zero _)
    | succ fuel =>
      unfold ProgrammeFeedParser.parseChannelElement
      simp [tokensOfList_nil, QXmlStreamReader.readNextStartElement, readNextStartElementFrom,
        channelWalk, readerAfter]
  | cons x xs ih =>
    intro fuel c rest e ps th hfuel
    rw [tokensOfList_cons, List.length_append] at hfuel
    rw [tokensOfList_cons, List.append_assoc]
    cases hx : x.isElement with
    | false =>
      rw [parseChannelElement_reader newProgramme fuel _
        (Xml.tokensOfList xs ++ Token.endElement :: rest)
        c c e ps th (readNextStartElementFrom_leaf x hx _)]
      rw [ih fuel c rest e ps th (by omega)]
      cases x <;> first
        | exact Bool.noConfusion hx
        | simp [channelWalk]
    | true =>
      cases x with
      | element pfx name attrs sub =>
        cases fuel with
        | zero => exact absurd hfuel (Nat.not_lt_zero _)
        | succ fuel =>
          rw [tokens_element, List.length_cons, List.length_append] at hfuel
          unfold ProgrammeFeedParser.parseChannelElement
          simp only [QXmlStreamReader.readNextStartElement, readNextStartElementFrom_element]
          unfold ProgrammeFeedParser.channelChild
          have hn : QXmlStreamReader.name
              ⟨Xml.tokensOfList sub ++ Token.endElement ::
                (Xml.tokensOfList xs ++ Token.endElement :: rest),
                some (Token.startElement pfx name attrs)⟩ = name := rfl
          simp only [hn, skipCurrentElement_children]
          by_cases hitem : name = "item".toList
          · rw [if_pos hitem, parseItemElement_walk newProgramme sub fuel _ _ e ps th (by omega)]
            simp only
            cases hok : (itemWalk sub newProgramme).2.2 with
            | true =>
              simp only [readerAfter, if_true]
              rw [ih fuel _ rest e _ _ (by omega)]
              simp [channelWalk, hitem, hok, readerAfter]
            | false =>
              simp only [readerAfter, Bool.false_eq_true, if_false]
              cases fuel with
              | zero => omega
              | succ fuel =>
                rw [parseChannelElement_invalid]
                simp [channelWalk, hitem, hok, readerAfter]
          · rw [if_neg hitem]
            simp only
            rw [ih fuel _ rest e _ _ (by omega)]
            simp only [channelWalk, hitem, if_false]
      | text s => exact Bool.noConfusion hx
      | entity s => exact Bool.noConfusion hx
      | comment => exact Bool.noConfusion hx
      | pi => exact Bool.noConfusion hx

theorem parseLoop_invalid (newProgramme : Programme) (fuel : Nat) (e : QString)
    (ps : List Programme) (th : List Thumbnail) :
    ProgrammeFeedParser.parseLoop newProgramme (fuel + 1)
        ⟨QXmlStreamReader.invalid, e, ps, th⟩
      = some ⟨QXmlStreamReader.invalid, e, ps, th⟩ := by
  unfold ProgrammeFeedParser.parseLoop
  rfl

theorem parseLoop_walk (newProgramme : Programme) (kids : List Xml) :
    ∀ (fuel : Nat) (c : Option Token) (rest : List Token) (e : QString)
      (ps : List Programme) (th : List Thumbnail),
      (Xml.tokensOfList kids).length < fuel →
      ProgrammeFeedParser.parseLoop newProgramme fuel
          ⟨⟨Xml.tokensOfList kids ++ Token.endElement :: rest, c⟩, e, ps, th⟩
        = some ⟨readerAfter (rootWalk newProgramme kids).2.2 rest, e,
            ps ++ (rootWalk newProgramme kids).2.1,
            th ++ (rootWalk newProgramme kids).1⟩ := by
  induction kids with
  | nil =>
    intro fuel c rest e ps th hfuel
    cases fuel with
    | zero => exact absurd hfuel (Nat.not_lt_zero _)
    | succ fuel =>
      unfold ProgrammeFeedParser.parseLoop
      simp [tokensOfList_nil, QXmlStreamReader.readNextStartElement, readNextStartElementFrom,
        rootWalk, readerAfter]
  | cons x xs ih =>
    intro fuel c rest e ps th hfuel
    rw [tokensOfList_cons, List.length_append] at hfuel
    rw [tokensOfList_cons, List.append_assoc]
    cases hx : x.isElement with
    | false =>
      rw [parseLoop_reader newProgramme fuel _
        (Xml.tokensOfList xs ++ Token.endElement :: rest)
        c c e ps th (readNextStartElementFrom_leaf x hx _)]
      rw [ih fuel c rest e ps th (by omega)]
      cases x <;> first
        | exact Bool.noConfusion hx
        | simp [rootWalk]
    | true =>
      cases x with
      | element pfx name attrs sub =>
        cases fuel with
        | zero => exact absurd hfuel (Nat.not_lt_zero _)
        | succ fuel =>
          rw [tokens_element, List.length_cons, List.length_append] at hfuel
          unfold ProgrammeFeedParser.parseLoop
          simp only [QXmlStreamReader.readNextStartElement, readNextStartElementFrom_element]
          unfold ProgrammeFeedParser.rootChild
          have hn : QXmlStreamReader.name
              ⟨Xml.tokensOfList sub ++ Token.endElement ::
                (Xml.tokensOfList xs ++ Token.endElement :: rest),
                some (Token.startElement pfx name attrs)⟩ = name := rfl
          simp only [hn, skipCurrentElement_children]
          by_cases hch : name = "channel".toList
          · rw [if_pos hch,
              parseChannelElement_walk newProgramme sub fuel _ _ e ps th (by omega)]
            simp only
            cases hok : (channelWalk newProgramme sub).2.2 with
            | true =>
              simp only [readerAfter, if_true]
              rw [ih fuel _ rest e _ _ (by omega)]
              simp [rootWalk, hch, hok, readerAfter]
            | false =>
              simp only [readerAfter, Bool.false_eq_true, if_false]
              cases fuel with
              | zero => omega
              | succ fuel =>
                rw [parseLoop_invalid]
                simp [rootWalk, hch, hok, readerAfter]
          · rw [if_neg hch]
            simp only
            rw [ih fuel _ rest e _ _ (by omega)]
            simp only [rootWalk, hch, if_false]
      | text s => exact Bool.noConfusion hx
      | entity s => exact Bool.noConfusion hx
      | comment => exact Bool.noConfusion hx
      | pi => exact Bool.noConfusion hx

/-- The parse of any document rooted at "rss", told on its tree. -/
theorem parse_document_any (newProgramme : Programme) (self : ProgrammeFeedParser)
    (pre post : List Token) (pfx : QString) (attrs : QXmlStreamAttributes) (kids : List Xml)
    (hpre : ∀ t ∈ pre, t.isTag = false) :
    ProgrammeFeedParser.parse newProgramme self
        (documentTokens pre (Xml.element pfx "rss".toList attrs kids) post)
      = some (true, ⟨readerAfter (rootWalk newProgramme kids).2.2 post, self.m_error,
                (rootWalk newProgramme kids).2.1,
                self.m_thumbnails ++ (rootWalk newProgramme kids).1⟩) := by
  unfold ProgrammeFeedParser.parse ProgrammeFeedParser.parseWith
  have hdev : documentTokens pre (Xml.element pfx "rss".toList attrs kids) post
      = pre ++ (Xml.tokens (Xml.element pfx "rss".toList attrs kids) ++ post) := by
    unfold documentTokens; rw [List.append_assoc]
  have hlen : (Xml.tokensOfList kids).length
      < (documentTokens pre (Xml.element pfx "rss".toList attrs kids) post).length + 1 := by
    rw [hdev, tokens_element]
    simp only [List.length_append, List.length_cons]
    omega
  simp only [QXmlStreamReader.readNextStartElement, QXmlStreamReader.setDevice]
  rw [hdev, readNextStartElementFrom_prolog pre _ hpre, readNextStartElementFrom_element]
  simp only [QXmlStreamReader.name, ne_eq, not_true_eq_false, if_false]
  rw [← hdev, parseLoop_walk newProgramme kids _ _ post self.m_error [] self.m_thumbnails hlen]
  simp

/-! ## Skipped elements -/

theorem itemChildOutcome_skipped (p : Programme) (x : Xml) (h : readByItemWalker x = false) :
    itemChildOutcome p x = ([], p, true) := by
  cases x with
  | element pfx name attrs sub =>
    simp only [readByItemWalker, Bool.or_eq_false_iff, decide_eq_false_iff_not] at h
    obtain ⟨⟨⟨⟨⟨h1, h2⟩, h3⟩, h4⟩, h5⟩, h6⟩ := h
    simp only [itemChildOutcome]
    rw [if_neg h1, if_neg h2, if_neg h3, if_neg h4, if_neg h5, if_neg h6]
  | text s => rfl
  | entity s => rfl
  | comment => rfl
  | pi => rfl

theorem itemWalk_prune (kids : List Xml) (p : Programme) :
    itemWalk (pruneItem kids) p = itemWalk kids p := by
  induction kids generalizing p with
  | nil => rfl
  | cons x xs ih =>
    unfold pruneItem at ih ⊢
    cases hx : readByItemWalker x with
    | true =>
      rw [List.filter_cons_of_pos (by simp [hx])]
      simp only [itemWalk, ih]
    | false =>
      rw [List.filter_cons_of_neg (by simp [hx]), ih p]
      simp only [itemWalk, itemChildOutcome_skipped p x hx, if_true, List.nil_append]

theorem channelWalk_prune (newProgramme : Programme) (kids : List Xml) :
    channelWalk newProgramme (pruneChannel kids) = channelWalk newProgramme kids := by
  induction kids with
  | nil => rfl
  | cons x xs ih =>
    unfold pruneChannel at ih ⊢
    rw [List.filterMap_cons]
    cases x with
    | element pfx name attrs sub =>
      simp only
      by_cases hn : name = "item".toList
      · simp only [hn, if_true, channelWalk, ih, itemWalk_prune]
      · simp only [hn, if_false, channelWalk, ih]
    | text s => simpa only [channelWalk] using ih
    | entity s => simpa only [channelWalk] using ih
    | comment => simpa only [channelWalk] using ih
    | pi => simpa only [channelWalk] using ih

theorem rootWalk_prune (newProgramme : Programme) (kids : List Xml) :
    rootWalk newProgramme (pruneFeed kids) = rootWalk newProgramme kids := by
  induction kids with
  | nil => rfl
  | cons x xs ih =>
    unfold pruneFeed at ih ⊢
    rw [List.filterMap_cons]
    cases x with
    | element pfx name attrs sub =>
      simp only
      by_cases hn : name = "channel".toList
      · simp only [hn, if_true, rootWalk, ih, channelWalk_prune]
      · simp only [hn, if_false, rootWalk, ih]
    | text s => simpa only [rootWalk] using ih
    | entity s => simpa only [rootWalk] using ih
    | comment => simpa only [rootWalk] using ih
    | pi => simpa only [rootWalk] using ih

theorem parseResult_document (newProgramme : Programme) (self : ProgrammeFeedParser)
    (pre post : List Token) (pfx : QString) (attrs : QXmlStreamAttributes) (kids : List Xml)
    (hpre : ∀ t ∈ pre, t.isTag = false) :
    ProgrammeFeedParser.parseResult newProgramme self
        (documentTokens pre (Xml.element pfx "rss".toList attrs kids) post)
      = some (true, (rootWalk newProgramme (pruneFeed kids)).2.1,
              self.m_thumbnails ++ (rootWalk newProgramme (pruneFeed kids)).1) := by
  unfold ProgrammeFeedParser.parseResult
  rw [parse_document_any newProgramme self pre post pfx attrs kids hpre, rootWalk_prune]
  rfl

theorem pruneItem_remove (a b : List Xml) (z : Xml) (hz : readByItemWalker z = false) :
    pruneItem (a ++ z :: b) = pruneItem (a ++ b) := by
  unfold pruneItem
  rw [List.filter_append, List.filter_append, List.filter_cons_of_neg (by simp [hz])]

theorem pruneChannel_remove (a b : List Xml) (y : Xml) (hy : y.hasName "item".toList = false) :
    pruneChannel (a ++ y :: b) = pruneChannel (a ++ b) := by
  unfold pruneChannel
  rw [List.filterMap_append, List.filterMap_append, List.filterMap_cons]
  cases y with
  | element pfx name attrs sub =>
    have hn : ¬ name = "item".toList := by simpa [Xml.hasName] using hy
    simp only [hn, if_false]
  | text s => rfl
  | entity s => rfl
  | comment => rfl
  | pi => rfl

theorem pruneFeed_remove (a b : List Xml) (x : Xml) (hx : x.hasName "channel".toList = false) :
    pruneFeed (a ++ x :: b) = pruneFeed (a ++ b) := by
  unfold pruneFeed
  rw [List.filterMap_append, List.filterMap_append, List.filterMap_cons]
  cases x with
  | element pfx name attrs sub =>
    have hn : ¬ name = "channel".toList := by simpa [Xml.hasName] using hx
    simp only [hn, if_false]
  | text s => rfl
  | entity s => rfl
  | comment => rfl
  | pi => rfl

theorem pruneChannel_item (a b : List Xml) (pfx : QString) (attrs : QXmlStreamAttributes)
    (i1 i2 : List Xml) (h : pruneItem i1 = pruneItem i2) :
    pruneChannel (a ++ Xml.element pfx "item".toList attrs i1 :: b)
      = pruneChannel (a ++ Xml.element pfx "item".toList attrs i2 :: b) := by
  unfold pruneChannel
  rw [List.filterMap_append, List.filterMap_append, List.filterMap_cons, List.filterMap_cons]
  simp only [if_true, h]

theorem pruneFeed_channel (a b : List Xml) (pfx : QString) (attrs : QXmlStreamAttributes)
    (c1 c2 : List Xml) (h : pruneChannel c1 = pruneChannel c2) :
    pruneFeed (a ++ Xml.element pfx "channel".toList attrs c1 :: b)
      = pruneFeed (a ++ Xml.element pfx "channel".toList attrs c2 :: b) := by
  unfold pruneFeed
  rw [List.filterMap_append, List.filterMap_append, List.filterMap_cons, List.filterMap_cons]
  simp only [if_true, h]

/-- C16: for every document rooted at "rss", the result of `parse`,
`programmes()` and `thumbnails()` depend only on the document without its
skipped elements: two documents that agree after pruning give the same; so
removing a child of the root not named "channel", a child of a channel not named
"item", or a child of an item that the item walker does not read (none of title,
description, link, source, pubDate, media:group) changes nothing, whatever the
removed element contains; and a document in which nothing is left after pruning
(an item outside a channel, a channel inside a skipped element) gives no
programme and no new thumbnail. -/
theorem skipped_elements_have_no_effect (newProgramme : Programme)
    (self : ProgrammeFeedParser) (pre post : List Token) (pfx : QString)
    (attrs : QXmlStreamAttributes) (hpre : ∀ t ∈ pre, t.isTag = false) :
    (∀ kids1 kids2 : List Xml, pruneFeed kids1 = pruneFeed kids2 →
        ProgrammeFeedParser.parseResult newProgramme self
            (documentTokens pre (Xml.element pfx "rss".toList attrs kids1) post)
          = ProgrammeFeedParser.parseResult newProgramme self
            (documentTokens pre (Xml.element pfx "rss".toList attrs kids2) post))
    ∧ (∀ (a b : List Xml) (x : Xml), x.hasName "channel".toList = false →
        ProgrammeFeedParser.parseResult newProgramme self
            (documentTokens pre (Xml.element pfx "rss".toList attrs (a ++ x :: b)) post)
          = ProgrammeFeedParser.parseResult newProgramme self
            (documentTokens pre (Xml.element pfx "rss".toList attrs (a ++ b)) post))
    ∧ (∀ (a b ca cb : List Xml) (cp : QString) (cattrs : QXmlStreamAttributes) (y : Xml),
        y.hasName "item".toList = false →
        ProgrammeFeedParser.parseResult newProgramme self
            (documentTokens pre (Xml.element pfx "rss".toList attrs
              (a ++ Xml.element cp "channel".toList cattrs (ca ++ y :: cb) :: b)) post)
          = ProgrammeFeedParser.parseResult newProgramme self
            (documentTokens pre (Xml.element pfx "rss".toList attrs
              (a ++ Xml.element cp "channel".toList cattrs (ca ++ cb) :: b)) post))
    ∧ (∀ (a b ca cb ia ib : List Xml) (cp ip : QString)
        (cattrs iattrs : QXmlStreamAttributes) (z : Xml), readByItemWalker z = false →
        ProgrammeFeedParser.parseResult newProgramme self
            (documentTokens pre (Xml.element pfx "rss".toList attrs
              (a ++ Xml.element cp "channel".toList cattrs
                (ca ++ Xml.element ip "item".toList iattrs (ia ++ z :: ib) :: cb) :: b)) post)
          = ProgrammeFeedParser.parseResult newProgramme self
            (documentTokens pre (Xml.element pfx "rss".toList attrs
              (a ++ Xml.element cp "channel".toList cattrs
                (ca ++ Xml.element ip "item".toList iattrs (ia ++ ib) :: cb) :: b)) post))
    ∧ (∀ kids : List Xml, pruneFeed kids = [] →
        ProgrammeFeedParser.parseResult newProgramme self
            (documentTokens pre (Xml.element pfx "rss".toList attrs kids) post)
          = some (true, [], self.thumbnails)) := by
  have key : ∀ kids1 kids2 : List Xml, pruneFeed kids1 = pruneFeed kids2 →
      ProgrammeFeedParser.parseResult newProgramme self
          (documentTokens pre (Xml.element pfx "rss".toList attrs kids1) post)
        = ProgrammeFeedParser.parseResult newProgramme self
          (documentTokens pre (Xml.element pfx "rss".toList attrs kids2) post) := by
    intro kids1 kids2 h
    rw [parseResult_document newProgramme self pre post pfx attrs kids1 hpre,
      parseResult_document newProgramme self pre post pfx attrs kids2 hpre, h]
  refine ⟨key, ?_, ?_, ?_, ?_⟩
  · intro a b x hx
    exact key _ _ (pruneFeed_remove a b x hx)
  · intro a b ca cb cp cattrs y hy
    exact key _ _ (pruneFeed_channel a b cp cattrs _ _ (pruneChannel_remove ca cb y hy))
  · intro a b ca cb ia ib cp ip cattrs iattrs z hz
    exact key _ _ (pruneFeed_channel a b cp cattrs _ _
      (pruneChannel_item ca cb ip iattrs _ _ (pruneItem_remove ia ib z hz)))
  · intro kids h
    rw [parseResult_document newProgramme self pre post pfx attrs kids hpre, h]
    simp [rootWalk, ProgrammeFeedParser.thumbnails]

/-! ## thumbnails() -/

theorem groupThumbnails_eq (sub : List Xml) :
    groupThumbnails sub
      = ((sub.filter (Xml.hasQualifiedName "media:thumbnail".toList)).map thumbnailOf).filter
          (fun t => !t.time.isNull) := by
  induction sub with
  | nil => rfl
  | cons x xs ih =>
    unfold groupThumbnails at ih ⊢
    rw [List.filterMap_cons]
    cases x with
    | element pfx name attrs kids =>
      simp only [groupChildThumbnail]
      by_cases h1 : qualifiedNameOf pfx name = "media:content".toList
      · have h2 : Xml.hasQualifiedName "media:thumbnail".toList
            (Xml.element pfx name attrs kids) = false := by
          simp only [Xml.hasQualifiedName, h1]; decide
        rw [if_pos h1, List.filter_cons_of_neg (by rw [h2]; exact Bool.false_ne_true)]
        exact ih
      · rw [if_neg h1]
        by_cases h2 : qualifiedNameOf pfx name = "media:thumbnail".toList
        · have h3 : Xml.hasQualifiedName "media:thumbnail".toList
              (Xml.element pfx name attrs kids) = true := by
            simp only [Xml.hasQualifiedName, h2]; decide
          rw [if_pos h2, List.filter_cons_of_pos h3, List.map_cons]
          cases hv : (ProgrammeFeedParser.parseTime (attrs.value "time".toList)).isNull with
          | true =>
            rw [List.filter_cons_of_neg (by simp only [thumbnailOf, Xml.attribute, hv]; decide)]
            simp only [Bool.not_true, Bool.false_eq_true, if_false]
            exact ih
          | false =>
            rw [List.filter_cons_of_pos (by simp only [thumbnailOf, Xml.attribute, hv]; decide)]
            simp only [Bool.not_false, if_true, ih, thumbnailOf, Xml.attribute]
        · have h3 : Xml.hasQualifiedName "media:thumbnail".toList
              (Xml.element pfx name attrs kids) = false := by
            simp only [Xml.hasQualifiedName, h2]; decide
          rw [if_neg h2, List.filter_cons_of_neg (by rw [h3]; exact Bool.false_ne_true)]
          exact ih
    | text s => exact ih
    | entity s => exact ih
    | comment => exact ih
    | pi => exact ih

/-- An element of qualified name "media:group" is none of title, description,
link, source and pubDate: the item walker reaches its `media:group` branch. -/
theorem qualified_group_dispatch (pfx name : QString)
    (h : qualifiedNameOf pfx name = "media:group".toList) :
    ¬ name = "title".toList ∧ ¬ name = "description".toList
    ∧ ¬ qualifiedNameOf pfx name = "link".toList ∧ ¬ name = "source".toList
    ∧ ¬ name = "pubDate".toList := by
  have hl : ¬ qualifiedNameOf pfx name = "link".toList := by rw [h]; decide
  have key : ∀ n : QString, n.reverse.head? ≠ some 'p' → ¬ name = n := by
    intro n hn hname
    subst hname
    unfold qualifiedNameOf at h
    split_ifs at h with hp
    · rw [h] at hn
      exact hn (by decide)
    · have hr := congrArg List.reverse h
      rw [List.reverse_append, List.reverse_cons] at hr
      have h2 := congrArg List.head? hr
      cases hrev : name.reverse with
      | nil =>
        have : name = [] := by simpa using hrev
        subst this
        simp at h2
      | cons c cs =>
        rw [hrev] at h2 hn
        simp at h2
        simp [h2] at hn
  exact ⟨key _ (by decide), key _ (by decide), hl, key _ (by decide), key _ (by decide)⟩

theorem itemChildThumbnails_eq (x : Xml) :
    itemChildThumbnails x
      = if Xml.hasQualifiedName "media:group".toList x then groupThumbnails x.children
        else [] := by
  cases x with
  | element pfx name attrs sub =>
    simp only [itemChildThumbnails, Xml.hasQualifiedName, Xml.children, decide_eq_true_eq]
    by_cases hg : qualifiedNameOf pfx name = "media:group".toList
    · obtain ⟨h1, h2, h3, h4, h5⟩ := qualified_group_dispatch pfx name hg
      rw [if_neg h1, if_neg h2, if_neg h3, if_neg h4, if_neg h5, if_pos hg]
    · rw [if_neg hg]
      split_ifs <;> rfl
  | text s => rfl
  | entity s => rfl
  | comment => rfl
  | pi => rfl

theorem itemThumbnails_eq (kids : List Xml) : itemThumbnails kids = thumbnailsOfItem kids := by
  induction kids with
  | nil => rfl
  | cons x xs ih =>
    unfold itemThumbnails thumbnailsOfItem at ih ⊢
    rw [List.map_cons, List.flatten_cons, ih, itemChildThumbnails_eq]
    cases hx : Xml.hasQualifiedName "media:group".toList x with
    | true =>
      rw [List.filter_cons_of_pos hx, List.map_cons, List.flatten_cons,
        groupThumbnails_eq]
      simp
    | false =>
      rw [List.filter_cons_of_neg (by rw [hx]; exact Bool.false_ne_true)]
      simp

/-- C12, amended: for every feed rooted at "rss" in which no title, description,
link or pubDate child of an item has a child element, `parse` succeeds and the
entries it appends to `thumbnails()` are exactly, in document order and as one
flat list across all items, the `media:thumbnail` elements that are direct
children of a `media:group` child of an item and whose "time" attribute parses
to a non-null time, each with its "url" attribute and that parsed time. -/
theorem thumbnails_of_feed (newProgramme : Programme) (self : ProgrammeFeedParser)
    (pre post : List Token) (pfx : QString) (attrs : QXmlStreamAttributes) (kids : List Xml)
    (hpre : ∀ t ∈ pre, t.isTag = false)
    (hclean : ∀ it ∈ itemsOf kids, itemFieldsAreText it = true) :
    ∃ self', ProgrammeFeedParser.parse newProgramme self
        (documentTokens pre (Xml.element pfx "rss".toList attrs kids) post) = some (true, self')
      ∧ self'.thumbnails = self.thumbnails ++ thumbnailsOfFeed kids := by
  refine ⟨_, parse_document newProgramme self pre post pfx attrs kids hpre hclean, ?_⟩
  simp only [ProgrammeFeedParser.thumbnails, thumbnailsOfFeed]
  congr 2
  apply List.map_congr_left
  intro it _
  exact itemThumbnails_eq it

/-! ## Repeated fields within an item -/

theorem getLast_getD_append {α : Type} (l1 l2 : List α) (a : α) :
    (l1 ++ l2).getLast?.getD a = l2.getLast?.getD (l1.getLast?.getD a) := by
  induction l1 generalizing a with
  | nil => rfl
  | cons x xs ih =>
    cases xs with
    | nil =>
      cases l2 with
      | nil => rfl
      | cons y ys =>
        show (x :: y :: ys).getLast?.getD a = _
        rw [List.getLast?_cons_cons]
        cases hg : (y :: ys).getLast? with
        | none => simp at hg
        | some z => rfl
    | cons y ys =>
      rw [List.cons_append, List.cons_append, List.getLast?_cons_cons, List.getLast?_cons_cons,
        ← List.cons_append, ih a]

theorem groupChildProgramme_duration (p : Programme) (x : Xml) :
    (groupChildProgramme p x).duration = (contentDuration x).getD p.duration := by
  cases x with
  | element pfx name attrs sub =>
    simp only [groupChildProgramme, contentDuration]
    split_ifs
    · cases QString.toInt (QXmlStreamAttributes.value attrs "duration".toList) <;> rfl
    · rfl
  | text s => rfl
  | entity s => rfl
  | comment => rfl
  | pi => rfl

theorem groupProgramme_duration (kids : List Xml) (p : Programme) :
    (groupProgramme p kids).duration
      = ((kids.filterMap contentDuration).getLast?).getD p.duration := by
  induction kids generalizing p with
  | nil => rfl
  | cons x xs ih =>
    unfold groupProgramme at ih ⊢
    rw [List.foldl_cons, ih, groupChildProgramme_duration, List.filterMap_cons]
    cases hx : contentDuration x with
    | none => rfl
    | some d =>
      show _ = ([d] ++ List.filterMap contentDuration xs).getLast?.getD p.duration
      rw [getLast_getD_append]
      rfl

theorem itemChildProgramme_duration (p : Programme) (x : Xml) :
    (itemChildProgramme p x).duration
      = if Xml.hasQualifiedName "media:group".toList x then
          (groupProgramme p x.children).duration
        else p.duration := by
  cases x with
  | element pfx name attrs sub =>
    simp only [itemChildProgramme, Xml.hasQualifiedName, Xml.children, decide_eq_true_eq]
    by_cases hg : qualifiedNameOf pfx name = "media:group".toList
    · obtain ⟨h1, h2, h3, h4, h5⟩ := qualified_group_dispatch pfx name hg
      rw [if_neg h1, if_neg h2, if_neg h3, if_neg h4, if_neg h5, if_pos hg, if_pos hg]
    · rw [if_neg hg, if_neg hg]
      split_ifs <;> rfl
  | text s => rfl
  | entity s => rfl
  | comment => rfl
  | pi => rfl

theorem itemProgramme_duration (newProgramme : Programme) (kids : List Xml) :
    (itemProgramme newProgramme kids).duration
      = (itemDurations kids).getLast?.getD newProgramme.duration := by
  induction kids generalizing newProgramme with
  | nil => rfl
  | cons x xs ih =>
    unfold itemProgramme itemDurations at ih ⊢
    rw [List.foldl_cons, ih, itemChildProgramme_duration]
    cases hx : Xml.hasQualifiedName "media:group".toList x with
    | true =>
      rw [List.filter_cons_of_pos hx, List.map_cons, List.flatten_cons, getLast_getD_append,
        if_pos rfl, groupProgramme_duration]
    | false =>
      rw [List.filter_cons_of_neg (by rw [hx]; exact Bool.false_ne_true)]
      rfl

/-- C19, amended: for every item in which no title, description, link or pubDate
child has a child element, the item walker returns a record in which each field
is given by the last element of its kind (the default when there is none): the
title and the description are its text, id, channelId and startDateTime are the
result of parsing its text or "url" attribute, whether that parses or not, and
the duration is the last "duration" attribute of a `media:content` that converts
to an integer. -/
theorem last_occurrence_wins (newProgramme : Programme) (kids : List Xml)
    (hclean : itemFieldsAreText kids = true) :
    ∃ r, recordOfItem newProgramme kids = some r
      ∧ r.title = (match (kids.filter (Xml.hasName "title".toList)).getLast? with
          | some x => x.characterData
          | none => newProgramme.title)
      ∧ r.description = (match (kids.filter (Xml.hasName "description".toList)).getLast? with
          | some x => x.characterData
          | none => newProgramme.description)
      ∧ r.id = (match (kids.filter (Xml.hasQualifiedName "link".toList)).getLast? with
          | some x => ProgrammeFeedParser.parseProgrammeId x.characterData
          | none => newProgramme.id)
      ∧ r.channelId = (match (kids.filter (Xml.hasName "source".toList)).getLast? with
          | some x => ProgrammeFeedParser.parseChannelId (x.attribute "url".toList)
          | none => newProgramme.channelId)
      ∧ r.startDateTime = (match (kids.filter (Xml.hasName "pubDate".toList)).getLast? with
          | some x => ProgrammeFeedParser.parseDateTime x.characterData
          | none => newProgramme.startDateTime)
      ∧ r.duration = (itemDurations kids).getLast?.getD newProgramme.duration :=
  ⟨_, recordOfItem_eq newProgramme kids hclean, itemProgramme_title newProgramme kids,
    itemProgramme_description newProgramme kids, itemProgramme_id newProgramme kids,
    itemProgramme_channelId newProgramme kids, itemProgramme_startDateTime newProgramme kids,
    itemProgramme_duration newProgramme kids⟩

end

/-! # Runs on concrete inputs

The theorems of this part run the model on concrete strings and documents, with
the sample tables `QCharTables.sample` for the character classes. -/

attribute [instance] QCharTables.sample

/-- C9, as the specification states it, fails: "5 Jan 2147483648 10:00:00" is a
text "D Mon YYYY HH:MM:SS" with the month Jan, the 5th of January exists in
every year and 10:00:00 is a time of day, yet the timestamp `parseDateTime`
returns has the null date: the year does not fit an `int`, so `toInt` gives 0,
and there is no year 0. -/
theorem parseDateTime_valid_counterexample :
    "5 Jan 2147483648 10:00:00".toList
        = dateTimeText "5".toList "Jan".toList "2147483648".toList "10".toList "00".toList
            "00".toList
    ∧ "2147483648".toList.all Char.isDigit = true
    ∧ "Jan".toList ∈ monthNames
    ∧ existingDate 2147483648 1 5
    ∧ (ProgrammeFeedParser.parseDateTime "5 Jan 2147483648 10:00:00".toList).date
        = QDate.null :=
  ⟨by decide, by decide, by decide, by decide, parseDateTime_year_overflow⟩

/-- C9 amended, at "5 Jan 2020 10:00:00": the instant 2020-01-05T10:00:00 UTC. -/
theorem parseDateTime_valid_witness :
    ProgrammeFeedParser.parseDateTime "5 Jan 2020 10:00:00".toList ≠ QDateTime.null
    ∧ (ProgrammeFeedParser.parseDateTime "5 Jan 2020 10:00:00".toList).date
        = QDate.valid 2020 1 5
    ∧ (ProgrammeFeedParser.parseDateTime "5 Jan 2020 10:00:00".toList).time.isValid = true
    ∧ (ProgrammeFeedParser.parseDateTime "5 Jan 2020 10:00:00".toList).time.isNull = false
    ∧ (ProgrammeFeedParser.parseDateTime "5 Jan 2020 10:00:00".toList).time.hour = 10
    ∧ (ProgrammeFeedParser.parseDateTime "5 Jan 2020 10:00:00".toList).time.minute = 0
    ∧ (ProgrammeFeedParser.parseDateTime "5 Jan 2020 10:00:00".toList).time.second = 0 :=
  parseDateTime_valid "5".toList "Jan".toList "2020".toList "10".toList "00".toList "00".toList
    (by decide) (by decide) (by decide) (by decide) (by decide) (by decide) (by decide)
    (by decide) (by decide) (by decide) (by decide) (by decide) (by decide) (by decide)

/-- C10 at "no date here" (no match), at "5 Xyz 2020 10:00:00" (the match has
the month word "Xyz") and at "on 5 jan 2020 10:00:00!" (lower-case month). -/
theorem parseDateTime_null_witness :
    ProgrammeFeedParser.parseDateTime "no date here".toList = QDateTime.null
    ∧ ProgrammeFeedParser.parseDateTime "5 Xyz 2020 10:00:00".toList = QDateTime.null
    ∧ ProgrammeFeedParser.parseDateTime "on 5 jan 2020 10:00:00!".toList = QDateTime.null :=
  ⟨(parseDateTime_null "no date here".toList).1
      (fun h => absurd ((containsDateTime_iff _).mp h) (by decide)),
   (parseDateTime_null "5 Xyz 2020 10:00:00".toList).2.1
      ⟨0, ["5".toList, "Xyz".toList, "2020".toList, "10".toList, "00".toList, "00".toList]⟩
      (by decide) (by decide),
   (parseDateTime_null "on 5 jan 2020 10:00:00!".toList).2.2.1
      "on ".toList "!".toList "5".toList "jan".toList "2020".toList "10".toList "00".toList
      "00".toList (by decide) (by decide) (by decide) (by decide)⟩

/-- C1 at a document whose root element is "foo": failure, with a message. -/
theorem parse_fails_iff_no_rss_root_witness :
    ∃ self', ProgrammeFeedParser.parse Programme.sample ProgrammeFeedParser.new
        [Token.startDocument, Token.startElement [] "foo".toList [], Token.endElement,
         Token.endDocument] = some (false, self')
      ∧ self'.lastError ≠ [] := by
  obtain ⟨ok, self', h, hiff, herr, _⟩ := parse_fails_iff_no_rss_root Programme.sample
    ProgrammeFeedParser.new
    [Token.startDocument, Token.startElement [] "foo".toList [], Token.endElement,
     Token.endDocument]
  have hok : ok = false := hiff.mpr (Or.inr ⟨"foo".toList, by decide, by decide⟩)
  subst hok
  exact ⟨self', h, herr rfl⟩

/-- C2, as the specification states it, fails: the feed `feedWithMarkupInTitle`
is rooted at "rss" and has two items under its channel, yet after a successful
parse `programmes()` holds one record, because the child element in the first
title ends the reading of the document. -/
theorem programmes_one_per_item_counterexample :
    (itemsOf feedWithMarkupInTitle).length = 2
    ∧ (ProgrammeFeedParser.parse Programme.sample ProgrammeFeedParser.new
        (documentTokens [Token.startDocument] (Xml.plain "rss" feedWithMarkupInTitle)
          [Token.endDocument])).map (fun r => (r.1, r.2.programmes.length))
      = some (true, 1) := by
  decide

/-- C2 amended, at the feed `feedWithTextFields`: two items, two records. -/
theorem programmes_one_per_item_witness :
    ∃ self', ProgrammeFeedParser.parse Programme.sample ProgrammeFeedParser.new
        (documentTokens [Token.startDocument]
          (Xml.element [] "rss".toList [] feedWithTextFields) [Token.endDocument])
        = some (true, self')
      ∧ self'.programmes.length = 2 := by
  obtain ⟨self', h, hlen, _⟩ := programmes_one_per_item Programme.sample
    ProgrammeFeedParser.new [Token.startDocument] [Token.endDocument] [] []
    feedWithTextFields (by decide) (by decide)
  exact ⟨self', h, hlen⟩

/-- C3, as the specification states it, fails: the item `itemWithMarkupInTitle`
has exactly one each of title, description, link, source and pubDate, the text
of its link is "x=5", and the record has the id of the default record (-1)
instead of 5, because the child element in the title ends the reading. -/
theorem item_record_fields_counterexample :
    (itemWithMarkupInTitle.filter (Xml.hasName "title".toList)).length = 1
    ∧ (itemWithMarkupInTitle.filter (Xml.hasName "description".toList)).length = 1
    ∧ itemWithMarkupInTitle.filter (Xml.hasQualifiedName "link".toList)
        = [Xml.plain "link" [Xml.text "x=5".toList]]
    ∧ (itemWithMarkupInTitle.filter (Xml.hasName "source".toList)).length = 1
    ∧ (itemWithMarkupInTitle.filter (Xml.hasName "pubDate".toList)).length = 1
    ∧ ProgrammeFeedParser.parseProgrammeId "x=5".toList = 5
    ∧ (recordOfItem Programme.sample itemWithMarkupInTitle).map (fun r => r.id) = some (-1) :=
  ⟨by decide, by decide, rfl, by decide, by decide, by decide, by decide⟩

set_option maxRecDepth 100000 in
/-- C3 amended, at the item `itemWithTextFields`. -/
theorem item_record_fields_witness :
    ∃ r, recordOfItem Programme.sample itemWithTextFields = some r
      ∧ r.title = "News".toList
      ∧ r.description = "Evening".toList
      ∧ r.id = ProgrammeFeedParser.parseProgrammeId "x=5".toList
      ∧ r.channelId = ProgrammeFeedParser.parseChannelId
          "http://x/feed/channels/1855486/flv.mediarss".toList
      ∧ r.startDateTime = ProgrammeFeedParser.parseDateTime "5 Jan 2020 10:00:00".toList :=
  item_record_fields Programme.sample itemWithTextFields
    (Xml.plain "title" [Xml.text "News".toList])
    (Xml.plain "description" [Xml.text "Evening".toList])
    (Xml.plain "link" [Xml.text "x=5".toList])
    (Xml.element [] "source".toList
      [("url".toList, "http://x/feed/channels/1855486/flv.mediarss".toList)]
      [Xml.text "TV1".toList])
    (Xml.plain "pubDate" [Xml.text "5 Jan 2020 10:00:00".toList])
    (by decide) rfl rfl rfl rfl rfl

/-- C11, as the specification states it, fails: "24:00:00" starts with the
pattern (fields "24", "00", "00") and `parseTime` returns the null time, because
`QTime(24, 0, 0)` is not a time of day. -/
theorem parseTime_result_counterexample :
    startsWithTime "24:00:00".toList
    ∧ ProgrammeFeedParser.parseTime "24:00:00".toList = QTime.null
    ∧ (ProgrammeFeedParser.parseTime "24:00:00".toList).isNull = true :=
  parseTime_no_time_of_day

/-- C11 amended, at "09:30:05" (9h30m5s), at "24:00:00" (no time of day), at
"not-a-time" (no match) and at a text of three Arabic-Indic digits 1, 2, 3
between colons (a match whose fields `toInt` does not convert: midnight). -/
theorem parseTime_result_witness :
    ((ProgrammeFeedParser.parseTime "09:30:05".toList).isValid = true
      ∧ (ProgrammeFeedParser.parseTime "09:30:05".toList).isNull = false
      ∧ (ProgrammeFeedParser.parseTime "09:30:05".toList).hour = 9
      ∧ (ProgrammeFeedParser.parseTime "09:30:05".toList).minute = 30
      ∧ (ProgrammeFeedParser.parseTime "09:30:05".toList).second = 5)
    ∧ ProgrammeFeedParser.parseTime "24:00:00".toList = QTime.null
    ∧ ProgrammeFeedParser.parseTime "not-a-time".toList = QTime.null
    ∧ ProgrammeFeedParser.parseTime "\u0661:\u0662:\u0663".toList = QTime.ofHMS 0 0 0 :=
  ⟨((parseTime_result "09:30:05".toList).1 "09".toList "30".toList "05".toList []
      rfl (by decide) (Or.inl rfl)).2 (by decide) (by decide) (by decide) |>.1 (by decide),
   ((parseTime_result "24:00:00".toList).1 "24".toList "00".toList "00".toList []
      rfl (by decide) (Or.inl rfl)).2 (by decide) (by decide) (by decide) |>.2 (by decide),
   (parseTime_result "not-a-time".toList).2.1
      (fun h => absurd ((startsWithTime_iff _).mp h) (by decide)),
   ((parseTime_result "\u0661:\u0662:\u0663".toList).1 "\u0661".toList "\u0662".toList
      "\u0663".toList [] rfl (by decide) (Or.inr rfl)).1⟩

/-- C13 at a `media:group` with `<media:content duration="77"/>` followed by
`<media:content duration="abc"/>` and `<media:content/>`: the duration is 77. -/
theorem media_content_sets_duration_witness :
    (groupProgramme Programme.sample
      [Xml.element "media".toList "content".toList [("duration".toList, "77".toList)] [],
       Xml.element "media".toList "content".toList [("duration".toList, "abc".toList)] [],
       Xml.element "media".toList "content".toList [] []]).duration = 77 := by
  have h1 := media_content_sets_duration.2.1 Programme.sample []
    [Xml.element "media".toList "content".toList [("duration".toList, "abc".toList)] [],
     Xml.element "media".toList "content".toList [] []]
    "media".toList "content".toList [("duration".toList, "77".toList)] [] (by decide)
  rw [List.nil_append] at h1
  rw [h1]
  decide

/-- C14, as the specification states it, fails: the item `itemWithPrefixedLink`
has a child of local name "link" (qualified name "atom:link") with the text
"x=5", and the record keeps the id of the default record (-1) instead of 5. -/
theorem link_sets_id_counterexample :
    itemWithPrefixedLink.filter (Xml.hasName "link".toList) = itemWithPrefixedLink
    ∧ ProgrammeFeedParser.parseProgrammeId "x=5".toList = 5
    ∧ (recordOfItem Programme.sample itemWithPrefixedLink).map (fun r => r.id) = some (-1) :=
  ⟨rfl, by decide, by decide⟩

/-- C14 amended, at `<link>x=5</link>` (the id becomes 5) and at
`<atom:link>x=5</atom:link>` (the programme is unchanged). -/
theorem link_sets_id_witness :
    ProgrammeFeedParser.itemChild 1
        ⟨⟨Xml.tokensOfList [Xml.text "x=5".toList] ++ Token.endElement :: [],
          some (Token.startElement [] "link".toList [])⟩, [], [], []⟩ Programme.sample
      = some (⟨⟨[], some Token.endElement⟩, [], [], []⟩,
              { Programme.sample with
                id := ProgrammeFeedParser.parseProgrammeId (Xml.textOf [Xml.text "x=5".toList]) })
    ∧ ProgrammeFeedParser.itemChild 1
        ⟨⟨Xml.tokensOfList [Xml.text "x=5".toList] ++ Token.endElement :: [],
          some (Token.startElement "atom".toList "link".toList [])⟩, [], [], []⟩
        Programme.sample
      = some (⟨⟨[], some Token.endElement⟩, [], [], []⟩, Programme.sample) :=
  ⟨(link_sets_id 1 [] [Xml.text "x=5".toList] [] [] [] [] Programme.sample).1 (by decide),
   (link_sets_id 1 [] [Xml.text "x=5".toList] [] [] [] [] Programme.sample).2
     "atom".toList (by decide)⟩

/-- C15 at a document rooted at "foo" followed by two documents rooted at "rss":
`lastError()` is still the message of the first call. -/
theorem lastError_kept_by_success_witness :
    ∃ s0 oks s',
      ProgrammeFeedParser.parse Programme.sample ProgrammeFeedParser.new
        [Token.startDocument, Token.startElement [] "foo".toList [], Token.endElement,
         Token.endDocument] = some (false, s0)
      ∧ ProgrammeFeedParser.parseAll Programme.sample s0
          [documentTokens [Token.startDocument] (Xml.plain "rss" feedWithTextFields)
             [Token.endDocument],
           documentTokens [Token.startDocument] (Xml.plain "rss" []) [Token.endDocument]]
          = some (oks, s')
      ∧ s'.lastError = "Channel feed does not contain rss element".toList := by
  have hp : ProgrammeFeedParser.parse Programme.sample ProgrammeFeedParser.new
      [Token.startDocument, Token.startElement [] "foo".toList [], Token.endElement,
       Token.endDocument]
      = some (false, ⟨⟨[Token.endElement, Token.endDocument],
          some (Token.startElement [] "foo".toList [])⟩,
          "Channel feed does not contain rss element".toList, [], []⟩) := by decide
  obtain ⟨oks, s', h1, h2⟩ := (lastError_kept_by_success Programme.sample
    ProgrammeFeedParser.new).2.2.1 _
    [documentTokens [Token.startDocument] (Xml.plain "rss" feedWithTextFields)
       [Token.endDocument],
     documentTokens [Token.startDocument] (Xml.plain "rss" []) [Token.endDocument]] _ hp
  have hoks : oks = [true, true] := by
    have hd : (ProgrammeFeedParser.parseAll Programme.sample
        ⟨⟨[Token.endElement, Token.endDocument], some (Token.startElement [] "foo".toList [])⟩,
          "Channel feed does not contain rss element".toList, [], []⟩
        [documentTokens [Token.startDocument] (Xml.plain "rss" feedWithTextFields)
           [Token.endDocument],
         documentTokens [Token.startDocument] (Xml.plain "rss" []) [Token.endDocument]]).map
        Prod.fst = some [true, true] := by decide
    rw [h1] at hd
    simpa using hd
  refine ⟨_, oks, s', hp, h1, ?_⟩
  rw [h2 (by rw [hoks]; decide)]
  rfl

/-- C17 at an object that holds one programme and one thumbnail from an earlier
parse, with a document rooted at "foo". -/
theorem failed_parse_clears_programmes_witness :
    ∃ s', ProgrammeFeedParser.parse Programme.sample
        ⟨QXmlStreamReader.invalid, [], [Programme.sample], [⟨"u".toList, ⟨3723000⟩⟩]⟩
        [Token.startDocument, Token.startElement [] "foo".toList [], Token.endElement,
         Token.endDocument] = some (false, s')
      ∧ s'.programmes = [] ∧ s'.thumbnails = [⟨"u".toList, ⟨3723000⟩⟩] :=
  (failed_parse_clears_programmes Programme.sample
    ⟨QXmlStreamReader.invalid, [], [Programme.sample], [⟨"u".toList, ⟨3723000⟩⟩]⟩
    [Token.startDocument, Token.startElement [] "foo".toList [], Token.endElement,
     Token.endDocument]).2 (by decide)

/-- With the sample tables, a prefix without any of the digits 0 to 9 can hold a
match of the pattern: after a date written in Arabic-Indic digits the result is
not that of the text alone. -/
theorem parseDateTime_prefix_in_other_digits :
    (∀ c ∈ dateInOtherDigits, c.isDigit = false)
    ∧ ProgrammeFeedParser.parseDateTime (dateInOtherDigits ++ "05 Jan 2020 10:00:00".toList)
      ≠ ProgrammeFeedParser.parseDateTime "05 Jan 2020 10:00:00".toList := by
  decide

/-- C16 at a feed with an item outside a channel and a channel inside a skipped
element (no programme, no thumbnail), and at the feed `feedWithTextFields` with
an element "foo" put in front of its channel (the same result as without it). -/
theorem skipped_elements_have_no_effect_witness :
    ProgrammeFeedParser.parseResult Programme.sample ProgrammeFeedParser.new
        (documentTokens [Token.startDocument]
          (Xml.element [] "rss".toList [] feedWithStrayItems) [Token.endDocument])
      = some (true, [], [])
    ∧ ProgrammeFeedParser.parseResult Programme.sample ProgrammeFeedParser.new
        (documentTokens [Token.startDocument]
          (Xml.element [] "rss".toList []
            ([] ++ Xml.plain "foo" [Xml.plain "item" []] :: feedWithTextFields))
          [Token.endDocument])
      = ProgrammeFeedParser.parseResult Programme.sample ProgrammeFeedParser.new
        (documentTokens [Token.startDocument]
          (Xml.element [] "rss".toList [] ([] ++ feedWithTextFields)) [Token.endDocument]) :=
  ⟨(skipped_elements_have_no_effect Programme.sample ProgrammeFeedParser.new
      [Token.startDocument] [Token.endDocument] [] [] (by decide)).2.2.2.2
      feedWithStrayItems rfl,
   (skipped_elements_have_no_effect Programme.sample ProgrammeFeedParser.new
      [Token.startDocument] [Token.endDocument] [] [] (by decide)).2.1
      [] feedWithTextFields (Xml.plain "foo" [Xml.plain "item" []]) rfl⟩

/-- C12, as the specification states it, fails: the feed
`feedWithMarkupBeforeThumbnail` is rooted at "rss" and its item has a
`media:group` with a `media:thumbnail` of time "00:00:10" directly under it, yet
after a successful parse `thumbnails()` is empty, because the child element in
the title in front of the group ends the reading of the document. -/
theorem thumbnails_of_feed_counterexample :
    thumbnailsOfFeed feedWithMarkupBeforeThumbnail
      = [⟨"u".toList, QTime.ofHMS 0 0 10⟩]
    ∧ (ProgrammeFeedParser.parse Programme.sample ProgrammeFeedParser.new
        (documentTokens [Token.startDocument] (Xml.plain "rss" feedWithMarkupBeforeThumbnail)
          [Token.endDocument])).map (fun r => (r.1, r.2.thumbnails))
      = some (true, []) := by
  decide

/-- C12 amended, at the feed `feedWithThumbnails`: of its five `media:thumbnail`
elements the two with a good time directly under a `media:group` are appended,
in document order; the one with the time "not-a-time", the one without a time
and the one nested inside a `media:content` are not. -/
theorem thumbnails_of_feed_witness :
    ∃ self', ProgrammeFeedParser.parse Programme.sample ProgrammeFeedParser.new
        (documentTokens [Token.startDocument]
          (Xml.element [] "rss".toList [] feedWithThumbnails) [Token.endDocument])
        = some (true, self')
      ∧ self'.thumbnails
        = [⟨"u1".toList, QTime.ofHMS 0 0 10⟩, ⟨"u5".toList, QTime.ofHMS 0 0 30⟩] := by
  obtain ⟨self', h, ht⟩ := thumbnails_of_feed Programme.sample
    ProgrammeFeedParser.new [Token.startDocument] [Token.endDocument] [] []
    feedWithThumbnails (by decide) (by decide)
  refine ⟨self', h, ?_⟩
  rw [ht]
  decide

/-- C19, as the specification states it, fails: in the item `itemWithTwoTitles`
the last title has the text "c", yet the record has the title "a", the text of
the first title up to its child element, because that child element ends the
reading of the item. -/
theorem last_occurrence_wins_counterexample :
    ((itemWithTwoTitles.filter (Xml.hasName "title".toList)).getLast?).map Xml.characterData
      = some "c".toList
    ∧ (recordOfItem Programme.sample itemWithTwoTitles).map (fun r => r.title)
      = some "a".toList := by
  decide

set_option maxRecDepth 100000 in
/-- C19 amended, at the item `itemWithRepeatedFields`: the link "abc" after the
link ending in "=8155949" gives the id -1, and the `media:content` with the
duration "abc" after the one with the duration "77" leaves the duration 77. -/
theorem last_occurrence_wins_witness :
    ProgrammeFeedParser.parseProgrammeId "http://tvkaista.com/search/?findid=8155949".toList
      = 8155949
    ∧ ∃ r, recordOfItem Programme.sample itemWithRepeatedFields = some r
      ∧ r.id = -1 ∧ r.duration = 77 := by
  obtain ⟨r, h, _, _, hid, _, _, hdur⟩ :=
    last_occurrence_wins Programme.sample itemWithRepeatedFields (by decide)
  refine ⟨by decide, r, h, ?_, ?_⟩
  · rw [hid]; decide
  · rw [hdur]; decide

